import Mathlib

/-!
Verification of the simplesync directory synchronizer (src/src/sync.cpp,
src/include/sync.hpp) against its natural-language specification.

The filesystem is shallowly embedded as a finite tree of named entries.
Paths are lists of components (relative to the tree root in question).
Symlinks are modelled as opaque endpoints: the engine inspects entries
with lstat (never following links), so a symlink node carries only the
stat data of the link itself plus one bit recording whether its target
is a regular file (the one place the code uses a following predicate,
std::filesystem::is_regular_file, on a destination entry).  Entries
reachable only through a symlink are not represented, matching the
traversal (recursive_directory_iterator does not follow directory
symlinks).  Wall-clock durations in SyncStats are not modelled; the
copy-time clock is a single (seconds, nanoseconds) pair "now" per run,
and std::filesystem::copy_file gives the written destination file that
clock value as its mtime (copy_file transfers contents, never
timestamps).  Every catch-and-log site of the code is driven by an
environment of per-path failure oracles, so that the all-success
environment describes a run in which no filesystem call fails.
-/

namespace SimpleSync

/-- Entry-type abstraction of the raw st_mode bitfield: the code only ever
tests S_ISLNK, S_ISDIR and S_ISREG on it. -/
inductive EntryKind where
  | regular
  | directory
  | symlinkKind
  | otherKind
deriving Repr, DecidableEq

/-- Numeric stat fields of one filesystem entry, as collect_metadata reads
them from lstat (sync.cpp:286-319). -/
structure StatData where
  uid : Nat
  gid : Nat
  atime : Nat
  atimeNsec : Nat
  mtime : Nat
  mtimeNsec : Nat
  ctime : Nat
  ctimeNsec : Nat
  size : Nat
deriving Repr, DecidableEq

/-- FileMetadata of sync.hpp:15-29: the normalized snapshot produced by
collect_metadata; mode is abstracted to the entry kind. -/
structure FileMetadata where
  file : List String
  depth : Nat
  detail : Bool
  mode : EntryKind
  uid : Nat
  gid : Nat
  atime : Nat
  atimeNsec : Nat
  mtime : Nat
  mtimeNsec : Nat
  ctime : Nat
  ctimeNsec : Nat
  size : Nat
deriving Repr, DecidableEq

/-- SyncStats of sync.hpp:31-43, without the four wall-clock duration
fields (timing is not modelled). -/
structure SyncStats where
  entries_scanned : Nat
  files_copied : Nat
  files_skipped : Nat
  files_deleted : Nat
  directories_created : Nat
  bytes_copied : Nat
  synced_entries : List FileMetadata
deriving Repr, DecidableEq

/-- The all-zero statistics record a run starts from (sync.cpp:22). -/
def zeroStats : SyncStats := ⟨0, 0, 0, 0, 0, 0, []⟩

/-- SyncOptions of sync.hpp:11-13. -/
structure SyncOptions where
  remove_extraneous : Bool
deriving Repr, DecidableEq

/-- A filesystem tree.  Directory children are an association list in
directory-iteration order; a symlink records its own stat data and
whether its target is a regular file. -/
inductive FsTree where
  | file (d : StatData)
  | dir (d : StatData) (children : List (String × FsTree))
  | symlink (d : StatData) (targetRegular : Bool)
  | other (d : StatData)
deriving Repr

/-- Failure oracles for every catch-and-log / continuable-error site of the
code, indexed by the path (relative to the relevant root) the failing call
is about.  An all-false environment is a run in which no call fails. -/
structure Env where
  statFailSrc : List String → Bool
  statFailDst : List String → Bool
  relFailSrc : List String → Bool
  relFailDst : List String → Bool
  mkdirFail : List String → Bool
  copyFail : List String → Bool
  removeFail : List String → Bool
  removeAllFail : List String → Bool

/-- The environment in which every filesystem call succeeds. -/
def okEnv : Env :=
  ⟨fun _ => false, fun _ => false, fun _ => false, fun _ => false,
   fun _ => false, fun _ => false, fun _ => false, fun _ => false⟩

/-- Kind of a tree node, as lstat reports it. -/
def kindOf : FsTree → EntryKind
  | .file _ => .regular
  | .dir _ _ => .directory
  | .symlink _ _ => .symlinkKind
  | .other _ => .otherKind

/-- Stat data carried by a tree node. -/
def statOf : FsTree → StatData
  | .file d => d
  | .dir d _ => d
  | .symlink d _ => d
  | .other d => d

/-- Decidable test for a directory node. -/
def isDirB : FsTree → Bool
  | .dir _ _ => true
  | _ => false

/-- Decidable test for a symlink node. -/
def isSymlinkB : FsTree → Bool
  | .symlink _ _ => true
  | _ => false

/-- Result of std::filesystem::is_regular_file on a destination entry: it
follows symlinks, so a link counts as regular exactly when its target is a
regular file (sync.cpp:139). -/
def isRegularView : FsTree → Bool
  | .file _ => true
  | .symlink _ b => b
  | _ => false

/-- Association-list access to a directory child by name (first match,
matching a real directory's unique names). -/
def assoc : List (String × FsTree) → String → Option FsTree
  | [], _ => none
  | (m, t) :: rest, n => if m = n then some t else assoc rest n

/-- Whether a child name is present. -/
def hasKey : List (String × FsTree) → String → Bool
  | [], _ => false
  | (m, _) :: rest, n => m = n || hasKey rest n

/-- Replace the named child, or append it if absent (a freshly created
entry appears at the end of the listing order). -/
def setKey : List (String × FsTree) → String → FsTree → List (String × FsTree)
  | [], n, t => [(n, t)]
  | (m, u) :: rest, n, t => if m = n then (n, t) :: rest else (m, u) :: setKey rest n t

/-- Remove the named child (first occurrence). -/
def eraseKey : List (String × FsTree) → String → List (String × FsTree)
  | [], _ => []
  | (m, u) :: rest, n => if m = n then rest else (m, u) :: eraseKey rest n

/-- Child of a node by name; nodes other than directories have none. -/
def childAt : FsTree → String → Option FsTree
  | .dir _ cs, n => assoc cs n
  | _, _ => none

/-- Set or insert a child of a directory node. -/
def setChild : FsTree → String → FsTree → FsTree
  | .dir d cs, n, t => .dir d (setKey cs n t)
  | c, _, _ => c

/-- Remove a child of a directory node. -/
def removeChild : FsTree → String → FsTree
  | .dir d cs, n => .dir d (eraseKey cs n)
  | c, _ => c

/-- Look an entry up by path (descending only through directories, as a
non-following path resolution does through real directory components). -/
def lookup : FsTree → List String → Option FsTree
  | t, [] => some t
  | .dir _ cs, n :: p =>
    (match assoc cs n with
     | some c => lookup c p
     | none => none)
  | _, _ :: _ => none

/-- Metadata snapshot of one entry, as collect_metadata (sync.cpp:286-319)
fills it in: path, iterator depth, detail flag set, kind and stat fields. -/
def collectMetadata (p : List String) (depth : Nat) (t : FsTree) : FileMetadata :=
  let d := statOf t
  ⟨p, depth, true, kindOf t, d.uid, d.gid, d.atime, d.atimeNsec,
   d.mtime, d.mtimeNsec, d.ctime, d.ctimeNsec, d.size⟩

/-- Stat data of a file just written by copy_file at clock value now: its
size is the source's size and its timestamps are the write time; owner
fields are not observed by the engine and are modelled as zero. -/
def copiedStat (sz : Nat) (now : Nat × Nat) : StatData :=
  ⟨0, 0, now.1, now.2, now.1, now.2, now.1, now.2, sz⟩

/-- Stat data of a directory just created by create_directories. -/
def createdDirStat (now : Nat × Nat) : StatData :=
  ⟨0, 0, now.1, now.2, now.1, now.2, now.1, now.2, 0⟩

/-- The freshness decision of sync.cpp:166-173: copy when the sizes differ
or the source mtime is strictly newer under the (seconds, nanoseconds)
lexicographic order. -/
def shouldCopy (s d : StatData) : Bool :=
  let size_differs := s.size ≠ d.size
  let time_newer := s.mtime > d.mtime ||
    (s.mtime = d.mtime && s.mtimeNsec > d.mtimeNsec)
  size_differs || time_newer

/-- Increment of entries_scanned at the top of the iterator loop
(sync.cpp:77). -/
def bumpScanned (stats : SyncStats) : SyncStats :=
  { stats with entries_scanned := stats.entries_scanned + 1 }

/-- Increment of files_skipped (sync.cpp:91, 130, 203). -/
def bumpSkipped (stats : SyncStats) : SyncStats :=
  { stats with files_skipped := stats.files_skipped + 1 }

/-- Effect on the statistics of creating one destination directory
(sync.cpp:114-117): count it and append the source snapshot. -/
def bumpDirCreated (m : FileMetadata) (stats : SyncStats) : SyncStats :=
  { stats with
      directories_created := stats.directories_created + 1
      synced_entries := stats.synced_entries ++ [m] }

/-- Effect on the statistics of one successful file copy
(sync.cpp:189-196): count it, add the bytes, append the source snapshot. -/
def bumpCopied (srcSize : Nat) (m : FileMetadata) (stats : SyncStats) : SyncStats :=
  { stats with
      files_copied := stats.files_copied + 1
      bytes_copied := stats.bytes_copied + srcSize
      synced_entries := stats.synced_entries ++ [m] }

/-- Tail of the copy path once should_copy is established (sync.cpp:178-201):
ensure the parent directory chain of the destination path exists (it exists
exactly when the current destination context is an attached directory, and its
creation is otherwise a no-op that can still fail environmentally), then copy
the file with overwrite_existing, accumulating files_copied, bytes_copied and
the source metadata snapshot.  through is some when the destination path is
still a symlink at copy time (the collect_metadata-failed corner,
sync.cpp:151-152): copy_file then writes through the link and the link node
itself persists at the path. -/
def performCopy (env : Env) (now : Nat × Nat) (rel : List String) (n : String)
    (srcSize : Nat) (m : FileMetadata) (through : Option FsTree)
    (dctx : FsTree) (stats : SyncStats) : FsTree × SyncStats :=
  if isDirB dctx && !env.mkdirFail rel then
    if env.copyFail (rel ++ [n]) then (dctx, stats)
    else
      (setChild dctx n
        (match through with
         | some c => c
         | none => FsTree.file (copiedStat srcSize now)),
       bumpCopied srcSize m stats)
  else (dctx, stats)

/-- Handling of one regular source file by the copy stage (sync.cpp:134-204):
decide should_copy against the destination path, removing a non-regular or
symlink destination first, then perform or skip the copy. -/
def copyFileEntry (env : Env) (now : Nat × Nat) (rel : List String) (n : String)
    (d : StatData) (m : FileMetadata) (dctx : FsTree) (stats : SyncStats) :
    FsTree × SyncStats :=
  match childAt dctx n with
  | none =>
    -- destination does not exist: copy (sync.cpp:137-138)
    performCopy env now rel n d.size m none dctx stats
  | some c =>
    if isRegularView c then
      if env.statFailDst (rel ++ [n]) then
        -- metadata collection on the destination failed: copy conservatively
        -- (sync.cpp:151-152); a symlink destination is written through
        performCopy env now rel n d.size m
          (match c with
           | .symlink sd b => some (.symlink sd b)
           | _ => none) dctx stats
      else
        match c with
        | .symlink _ _ =>
          -- destination is a symlink: remove it, then copy (sync.cpp:154-164)
          if env.removeFail (rel ++ [n]) then (dctx, stats)
          else performCopy env now rel n d.size m none (removeChild dctx n) stats
        | .file d' =>
          -- both regular: the freshness comparison (sync.cpp:166-173)
          if shouldCopy d d' then performCopy env now rel n d.size m none dctx stats
          else (dctx, bumpSkipped stats)
        | _ => (dctx, stats)
    else
      -- destination exists but is not a regular file: remove_all, then copy
      -- (sync.cpp:139-148)
      if env.removeAllFail (rel ++ [n]) then (dctx, stats)
      else performCopy env now rel n d.size m none (removeChild dctx n) stats

mutual

/-- Processing of one source iterator entry and (for directories) its
subtree by copy_from_source (sync.cpp:75-205).  dctx is the destination
node at the source-relative path rel; n and t are the entry's name and
source node; the result is the updated destination node at rel plus the
updated statistics. -/
def copyTree (env : Env) (now : Nat × Nat) (srcRoot : List String) (depth : Nat)
    (rel : List String) (n : String) (t : FsTree) (dctx : FsTree)
    (stats : SyncStats) : FsTree × SyncStats :=
  if env.statFailSrc (rel ++ [n]) then
    -- collect_metadata failed: skip, and do not descend (sync.cpp:80-85)
    (dctx, bumpScanned stats)
  else
    match t with
    | .symlink _ _ =>
      -- source symlink: count as skipped, never descend (sync.cpp:87-93)
      (dctx, bumpSkipped (bumpScanned stats))
    | .dir dd cs' =>
      if env.relFailSrc (rel ++ [n]) then (dctx, bumpScanned stats)
      else
        (match childAt dctx n with
         | some c =>
           -- destination path exists: nothing to create, descend
           (setChild dctx n
              (copyList env now srcRoot (depth + 1) (rel ++ [n]) cs' c
                (bumpScanned stats)).1,
            (copyList env now srcRoot (depth + 1) (rel ++ [n]) cs' c
              (bumpScanned stats)).2)
         | none =>
           -- create the destination directory (sync.cpp:111-123); on failure
           -- the subtree is not descended into
           if isDirB dctx && !env.mkdirFail (rel ++ [n]) then
             (setChild dctx n
                (copyList env now srcRoot (depth + 1) (rel ++ [n]) cs'
                  (FsTree.dir (createdDirStat now) [])
                  (bumpDirCreated
                    (collectMetadata (srcRoot ++ (rel ++ [n])) depth (.dir dd cs'))
                    (bumpScanned stats))).1,
              (copyList env now srcRoot (depth + 1) (rel ++ [n]) cs'
                (FsTree.dir (createdDirStat now) [])
                (bumpDirCreated
                  (collectMetadata (srcRoot ++ (rel ++ [n])) depth (.dir dd cs'))
                  (bumpScanned stats))).2)
           else (dctx, bumpScanned stats))
    | .file d =>
      if env.relFailSrc (rel ++ [n]) then (dctx, bumpScanned stats)
      else
        copyFileEntry env now rel n d
          (collectMetadata (srcRoot ++ (rel ++ [n])) depth (.file d)) dctx
          (bumpScanned stats)
    | .other _ =>
      if env.relFailSrc (rel ++ [n]) then (dctx, bumpScanned stats)
      else
        -- neither directory nor regular file: skip (sync.cpp:127-132)
        (dctx, bumpSkipped (bumpScanned stats))

/-- Pre-order processing of a list of sibling source entries by
copy_from_source, in directory-listing order. -/
def copyList (env : Env) (now : Nat × Nat) (srcRoot : List String) (depth : Nat)
    (rel : List String) (cs : List (String × FsTree)) (dctx : FsTree)
    (stats : SyncStats) : FsTree × SyncStats :=
  match cs with
  | [] => (dctx, stats)
  | (n, t) :: rest =>
    copyList env now srcRoot depth rel rest
      (copyTree env now srcRoot depth rel n t dctx stats).1
      (copyTree env now srcRoot depth rel n t dctx stats).2

end

/-- The whole copy stage (copy_from_source, sync.cpp:69-208) on a validated
source directory: process its children against the destination root. -/
def copyStage (env : Env) (now : Nat × Nat) (srcRoot : List String)
    (src dst : FsTree) (stats : SyncStats) : FsTree × SyncStats :=
  match src with
  | .dir _ cs => copyList env now srcRoot 0 [] cs dst stats
  | _ => (dst, stats)

/-- RemovalCandidate of sync.cpp:217-221: the path (here relative to the
destination root), the directory flag, and the full-path component depth
(count of components from the filesystem root, i.e. the destination root's
own component count plus the relative depth, sync.cpp:259). -/
structure RemovalCandidate where
  path : List String
  is_directory : Bool
  depth : Nat
deriving Repr, DecidableEq

mutual

/-- Discovery phase of prune_destination (sync.cpp:225-261) for one
destination entry: skip on metadata failure (without descending), skip
symlinks, skip on relative-path failure, keep entries whose mapped source
path exists, and otherwise record a removal candidate; descent into
directories continues in every non-skipped case. -/
def pruneTree (env : Env) (srcT : FsTree) (rootLen : Nat) (rel : List String)
    (n : String) (c : FsTree) : List RemovalCandidate :=
  if env.statFailDst (rel ++ [n]) then []
  else
    match c with
    | .symlink _ _ => []
    | c =>
      if env.relFailDst (rel ++ [n]) then []
      else
        (if (lookup srcT (rel ++ [n])).isSome then []
         else [⟨rel ++ [n], isDirB c, rootLen + (rel ++ [n]).length⟩]) ++
        (match c with
         | .dir _ dcs => pruneList env srcT rootLen (rel ++ [n]) dcs
         | _ => [])

/-- Discovery phase of prune_destination over a list of sibling destination
entries, in directory-listing order. -/
def pruneList (env : Env) (srcT : FsTree) (rootLen : Nat) (rel : List String)
    (dcs : List (String × FsTree)) : List RemovalCandidate :=
  match dcs with
  | [] => []
  | (n, c) :: rest =>
    pruneTree env srcT rootLen rel n c ++ pruneList env srcT rootLen rel rest

end

/-- Insertion of one candidate into a depth-descending list; realizes one
step of std::sort with the comparator lhs.depth > rhs.depth
(sync.cpp:263-264). -/
def insertCand (c : RemovalCandidate) : List RemovalCandidate → List RemovalCandidate
  | [] => [c]
  | e :: rest => if c.depth ≤ e.depth then e :: insertCand c rest else c :: e :: rest

/-- Model of std::sort with the comparator lhs.depth > rhs.depth
(sync.cpp:263-264): a permutation of the candidates that is sorted by depth
descending, which is all std::sort guarantees for this comparator. -/
def sortCands : List RemovalCandidate → List RemovalCandidate
  | [] => []
  | c :: rest => insertCand c (sortCands rest)

mutual

/-- Number of filesystem objects in a subtree: what fs::remove_all reports
having deleted when it removes the subtree (sync.cpp:270). -/
def nodeCount : FsTree → Nat
  | .dir _ cs => 1 + nodeCountL cs
  | _ => 1

/-- Sum of nodeCount over a children list. -/
def nodeCountL : List (String × FsTree) → Nat
  | [] => 0
  | (_, t) :: rest => nodeCount t + nodeCountL rest

end

/-- Effect of fs::remove_all at a path (sync.cpp:270): delete the entry and
its whole subtree, reporting the number of objects deleted; a path that no
longer exists yields zero and no error. -/
def removeAllAt : FsTree → List String → FsTree × Nat
  | t, [] => (t, 0)
  | .dir dd dcs, [n] =>
    (match assoc dcs n with
     | some c => (.dir dd (eraseKey dcs n), nodeCount c)
     | none => (.dir dd dcs, 0))
  | .dir dd dcs, n :: p =>
    (match assoc dcs n with
     | some c =>
       (.dir dd (setKey dcs n (removeAllAt c p).1), (removeAllAt c p).2)
     | none => (.dir dd dcs, 0))
  | t, _ :: _ => (t, 0)

/-- Effect of fs::remove at a path (sync.cpp:274): delete a single entry,
reporting whether anything was deleted; removing a non-empty directory this
way fails (which the code catches), and a missing path reports false. -/
def removeAt : FsTree → List String → FsTree × Bool
  | t, [] => (t, false)
  | .dir dd dcs, [n] =>
    (match assoc dcs n with
     | some (.dir _ (_ :: _)) => (.dir dd dcs, false)
     | some _ => (.dir dd (eraseKey dcs n), true)
     | none => (.dir dd dcs, false))
  | .dir dd dcs, n :: p =>
    (match assoc dcs n with
     | some c =>
       (.dir dd (setKey dcs n (removeAt c p).1), (removeAt c p).2)
     | none => (.dir dd dcs, false))
  | t, _ :: _ => (t, false)

/-- One removal attempt of the prune removal phase (sync.cpp:266-281):
remove_all for a directory candidate (counting every object removed),
remove for the rest (counting one on success); a failure removes and
counts nothing. -/
def pruneStep (env : Env) (d : FsTree) (c : RemovalCandidate) : FsTree × Nat :=
  if c.is_directory then
    if env.removeAllFail c.path then (d, 0)
    else removeAllAt d c.path
  else
    if env.removeFail c.path then (d, 0)
    else ((removeAt d c.path).1, if (removeAt d c.path).2 then 1 else 0)

/-- Removal phase of prune_destination: iterate the sorted candidates. -/
def pruneRemove (env : Env) : FsTree → List RemovalCandidate → FsTree × Nat
  | d, [] => (d, 0)
  | d, c :: rest =>
    ((pruneRemove env (pruneStep env d c).1 rest).1,
     (pruneStep env d c).2 + (pruneRemove env (pruneStep env d c).1 rest).2)

/-- The whole prune stage (prune_destination, sync.cpp:210-284): discover
candidates over the destination tree, sort them by full-path depth
descending, and remove them, accumulating files_deleted. -/
def pruneStage (env : Env) (srcT : FsTree) (rootLen : Nat) (dst : FsTree)
    (stats : SyncStats) : FsTree × SyncStats :=
  ((pruneRemove env dst (sortCands
      (match dst with
       | .dir _ dcs => pruneList env srcT rootLen [] dcs
       | _ => []))).1,
   { stats with
      files_deleted := stats.files_deleted +
        (pruneRemove env dst (sortCands
          (match dst with
           | .dir _ dcs => pruneList env srcT rootLen [] dcs
           | _ => []))).2 })

/-- Stages of synchronize after the destination root is ensured: the
equivalence check (sync.cpp:31-33), the copy stage, and the conditional
prune stage (sync.cpp:38-43). -/
def synchronizeStages (env : Env) (now : Nat × Nat) (opts : SyncOptions)
    (srcRoot dstRoot : List String) (s d : FsTree) (equiv : Bool) :
    Except String (FsTree × SyncStats) :=
  if equiv then .error ("Source and destination resolve to the same location.")
  else
    if opts.remove_extraneous then
      .ok (pruneStage env s dstRoot.length
        (copyStage env now srcRoot s d zeroStats).1
        (copyStage env now srcRoot s d zeroStats).2)
    else .ok (copyStage env now srcRoot s d zeroStats)

/-- DirectorySyncer::synchronize (sync.cpp:21-47) with validate_inputs
(sync.cpp:49-60) and ensure_destination_root (sync.cpp:62-67) inlined in
program order: validate the roots, create a missing destination root, check
path-equivalence of the two roots (a property of the paths, passed in as a
bit), then run the copy stage and, when configured, the prune stage.  src
and dst are the entries the two root paths denote (none when the path does
not exist; a root path that is a symlink to a directory is represented by
the directory it denotes, since validation uses link-following queries).  A
fatal validation failure aborts the run with an error and no statistics. -/
def synchronize (env : Env) (now : Nat × Nat) (opts : SyncOptions)
    (srcRoot dstRoot : List String) (src dst : Option FsTree) (equiv : Bool) :
    Except String (FsTree × SyncStats) :=
  match src with
  | none => .error ("Source directory does not exist")
  | some s =>
    if !isDirB s then .error ("Source path is not a directory")
    else
      match dst with
      | some d =>
        if !isDirB d then .error ("Destination exists but is not a directory")
        else synchronizeStages env now opts srcRoot dstRoot s d equiv
      | none =>
        synchronizeStages env now opts srcRoot dstRoot s
          (FsTree.dir (createdDirStat now) []) equiv

/-! Basic facts about the tree operations. -/

theorem childAt_some_isDirB {dctx : FsTree} {n : String} {c : FsTree}
    (h : childAt dctx n = some c) : isDirB dctx = true := by
  cases dctx with
  | dir d cs => simp [isDirB]
  | file d => simp [childAt] at h
  | symlink d b => simp [childAt] at h
  | other d => simp [childAt] at h

theorem shouldCopy_iff (s d : StatData) :
    shouldCopy s d = true ↔
      (s.size ≠ d.size ∨ d.mtime < s.mtime ∨
        (s.mtime = d.mtime ∧ d.mtimeNsec < s.mtimeNsec)) := by
  simp [shouldCopy]

/-- Claim C1: for a source entry that is a regular file whose destination
path exists as a regular file (not a symlink), with metadata collection
succeeding (the all-success environment), the copy stage copies it if and
only if the source size differs from the destination size or the source
mtime is strictly newer under the lexicographic (seconds, nanoseconds)
order; with equal size and equal-or-older source mtime the entry is left
untouched and counted as skipped. -/
theorem C1_copy_iff_freshness (now : Nat × Nat) (srcRoot : List String)
    (depth : Nat) (rel : List String) (n : String) (d d' : StatData)
    (dctx : FsTree) (stats : SyncStats)
    (hdst : childAt dctx n = some (.file d')) :
    ((copyTree okEnv now srcRoot depth rel n (.file d) dctx stats).2.files_copied =
      stats.files_copied +
        (if d.size ≠ d'.size ∨ d'.mtime < d.mtime ∨
            (d.mtime = d'.mtime ∧ d'.mtimeNsec < d.mtimeNsec) then 1 else 0)) ∧
    (¬ (d.size ≠ d'.size ∨ d'.mtime < d.mtime ∨
        (d.mtime = d'.mtime ∧ d'.mtimeNsec < d.mtimeNsec)) →
      copyTree okEnv now srcRoot depth rel n (.file d) dctx stats =
        (dctx, { stats with
                  entries_scanned := stats.entries_scanned + 1
                  files_skipped := stats.files_skipped + 1 })) := by
  have hdir : isDirB dctx = true := childAt_some_isDirB hdst
  by_cases hc : shouldCopy d d' = true
  · have hcond := (shouldCopy_iff d d').mp hc
    refine ⟨?_, ?_⟩
    · simp [copyTree, copyFileEntry, okEnv, hdst, isRegularView, hc,
        performCopy, hdir, if_pos hcond, bumpScanned, bumpCopied]
    · intro hnot
      exact absurd hcond hnot
  · have hcond : ¬ (d.size ≠ d'.size ∨ d'.mtime < d.mtime ∨
        (d.mtime = d'.mtime ∧ d'.mtimeNsec < d.mtimeNsec)) :=
      fun h => hc ((shouldCopy_iff d d').mpr h)
    rw [Bool.not_eq_true] at hc
    constructor
    · simp [copyTree, copyFileEntry, okEnv, hdst, isRegularView, hc, if_neg hcond,
        bumpScanned, bumpSkipped]
    · intro _
      simp [copyTree, copyFileEntry, okEnv, hdst, isRegularView, hc,
        bumpScanned, bumpSkipped]

/-- Witness for C1 at a concrete input: a 1-byte source file with mtime
(100, 0) against a same-size destination with mtime (50, 0) is copied
(count goes from 0 to 1). -/
theorem C1_copy_iff_freshness_witness :
    childAt (FsTree.dir ⟨0,0,0,0,0,0,0,0,0⟩ [("a", .file ⟨0,0,0,0,50,0,0,0,1⟩)]) "a" =
      some (.file ⟨0,0,0,0,50,0,0,0,1⟩) ∧
    (copyTree okEnv (300, 0) ["s"] 0 [] "a" (.file ⟨0,0,0,0,100,0,0,0,1⟩)
        (FsTree.dir ⟨0,0,0,0,0,0,0,0,0⟩ [("a", .file ⟨0,0,0,0,50,0,0,0,1⟩)])
        zeroStats).2.files_copied =
      0 + (if (1 : Nat) ≠ 1 ∨ 50 < 100 ∨ ((100 : Nat) = 50 ∧ (0 : Nat) < 0)
           then 1 else 0) := by
  refine ⟨by rfl, ?_⟩
  exact (C1_copy_iff_freshness (300, 0) ["s"] 0 [] "a"
    ⟨0,0,0,0,100,0,0,0,1⟩ ⟨0,0,0,0,50,0,0,0,1⟩
    (FsTree.dir ⟨0,0,0,0,0,0,0,0,0⟩ [("a", .file ⟨0,0,0,0,50,0,0,0,1⟩)])
    zeroStats (by rfl)).1

/-! Sorting of removal candidates. -/

theorem insertCand_perm (c : RemovalCandidate) (l : List RemovalCandidate) :
    (insertCand c l).Perm (c :: l) := by
  induction l with
  | nil => simp [insertCand]
  | cons e rest ih =>
    by_cases h : c.depth ≤ e.depth
    · simp only [insertCand, if_pos h]
      exact ((ih.cons e).trans (List.Perm.swap c e rest))
    · simp [insertCand, if_neg h]

theorem sortCands_perm (l : List RemovalCandidate) : (sortCands l).Perm l := by
  induction l with
  | nil => simp [sortCands]
  | cons c rest ih =>
    exact (insertCand_perm c (sortCands rest)).trans (ih.cons c)

theorem insertCand_sorted (c : RemovalCandidate) (l : List RemovalCandidate)
    (h : l.Pairwise (fun a b => b.depth ≤ a.depth)) :
    (insertCand c l).Pairwise (fun a b => b.depth ≤ a.depth) := by
  induction l with
  | nil => simp [insertCand]
  | cons e rest ih =>
    rcases List.pairwise_cons.mp h with ⟨he, hrest⟩
    by_cases hc : c.depth ≤ e.depth
    · simp only [insertCand, if_pos hc]
      refine List.pairwise_cons.mpr ⟨?_, ih hrest⟩
      intro b hb
      rcases List.mem_cons.mp ((insertCand_perm c rest).mem_iff.mp hb) with hb | hb
      · exact hb ▸ hc
      · exact he b hb
    · simp only [insertCand, if_neg hc]
      refine List.pairwise_cons.mpr ⟨?_, h⟩
      intro b hb
      rcases List.mem_cons.mp hb with hb | hb
      · subst hb
        omega
      · exact le_trans (he b hb) (by omega)

theorem sortCands_sorted (l : List RemovalCandidate) :
    (sortCands l).Pairwise (fun a b => b.depth ≤ a.depth) := by
  induction l with
  | nil => simp [sortCands]
  | cons c rest ih => exact insertCand_sorted c (sortCands rest) ih

mutual

/-- Every candidate the discovery phase collects in the subtree of one
destination entry carries, as its depth, the destination root's component
count plus its relative path's length (the full-path component count,
sync.cpp:259). -/
theorem pruneTree_depth (env : Env) (srcT : FsTree) (rootLen : Nat) :
    ∀ (rel : List String) (n : String) (t : FsTree),
      ∀ c ∈ pruneTree env srcT rootLen rel n t,
        c.depth = rootLen + c.path.length
  | rel, n, .file d => by
    intro c hc
    simp only [pruneTree] at hc
    split at hc
    · simp at hc
    · split at hc
      · simp at hc
      · simp only [List.append_nil] at hc
        split at hc
        · simp at hc
        · simp at hc
          subst hc
          simp
  | rel, n, .symlink d b => by
    intro c hc
    simp only [pruneTree] at hc
    split at hc <;> simp at hc
  | rel, n, .other d => by
    intro c hc
    simp only [pruneTree] at hc
    split at hc
    · simp at hc
    · split at hc
      · simp at hc
      · simp only [List.append_nil] at hc
        split at hc
        · simp at hc
        · simp at hc
          subst hc
          simp
  | rel, n, .dir d dcs => by
    intro c hc
    simp only [pruneTree] at hc
    split at hc
    · simp at hc
    · split at hc
      · simp at hc
      · rcases List.mem_append.mp hc with hc | hc
        · split at hc
          · simp at hc
          · simp at hc
            subst hc
            simp
        · exact pruneList_depth env srcT rootLen (rel ++ [n]) dcs c hc

/-- Depth coherence of discovered candidates, over a sibling list. -/
theorem pruneList_depth (env : Env) (srcT : FsTree) (rootLen : Nat) :
    ∀ (rel : List String) (dcs : List (String × FsTree)),
      ∀ c ∈ pruneList env srcT rootLen rel dcs,
        c.depth = rootLen + c.path.length
  | rel, [] => by
    intro c hc
    simp [pruneList] at hc
  | rel, (n, t) :: rest => by
    intro c hc
    simp only [pruneList] at hc
    rcases List.mem_append.mp hc with hc | hc
    · exact pruneTree_depth env srcT rootLen rel n t c hc
    · exact pruneList_depth env srcT rootLen rel rest c hc

end

/-- A depth-descending candidate list whose depths are the full-path
component counts processes every strict path extension strictly before the
path it extends. -/
theorem sorted_desc_descendants_first (rootLen : Nat)
    (sorted : List RemovalCandidate)
    (hsorted : sorted.Pairwise (fun a b => b.depth ≤ a.depth))
    (hdepth : ∀ c ∈ sorted, c.depth = rootLen + c.path.length) :
    ∀ (i j : Fin sorted.length),
      (∃ r, r ≠ [] ∧ (sorted.get j).path = (sorted.get i).path ++ r) →
      (j : Nat) < (i : Nat) := by
  intro i j ⟨r, hr, hext⟩
  have hi := hdepth (sorted.get i) (List.get_mem sorted i.1 i.2)
  have hj := hdepth (sorted.get j) (List.get_mem sorted j.1 j.2)
  have hlen : (sorted.get i).path.length < (sorted.get j).path.length := by
    rw [hext, List.length_append]
    cases r with
    | nil => exact absurd rfl hr
    | cons a as => simp
  by_contra hnot
  push_neg at hnot
  rcases Nat.lt_or_ge (i : Nat) (j : Nat) with hij | hij
  · have := List.pairwise_iff_get.mp hsorted i j hij
    omega
  · have heq : (i : Nat) = (j : Nat) := le_antisymm hnot hij
    have : sorted.get i = sorted.get j := by
      congr 1
      exact Fin.ext heq
    rw [this] at hlen
    omega

/-- Claim C3: the prune stage sorts its removal candidates by full-path
component depth descending, so that in the removal sequence every candidate
whose path strictly extends another candidate's path (a descendant, in
particular of any directory candidate) is processed strictly before it: no
removal of an entry is attempted while a deeper candidate beneath it is
still pending.  Stated for the sorted candidate list of an arbitrary
destination children listing. -/
theorem C3_prune_sorts_depth_descending (env : Env) (srcT : FsTree)
    (rootLen : Nat) (dcs : List (String × FsTree)) :
    (sortCands (pruneList env srcT rootLen [] dcs)).Perm
      (pruneList env srcT rootLen [] dcs) ∧
    (sortCands (pruneList env srcT rootLen [] dcs)).Pairwise
      (fun a b => b.depth ≤ a.depth) ∧
    ∀ (i j : Fin (sortCands (pruneList env srcT rootLen [] dcs)).length),
      (∃ r, r ≠ [] ∧
        ((sortCands (pruneList env srcT rootLen [] dcs)).get j).path =
          ((sortCands (pruneList env srcT rootLen [] dcs)).get i).path ++ r) →
      (j : Nat) < (i : Nat) := by
  have hperm : (sortCands (pruneList env srcT rootLen [] dcs)).Perm
      (pruneList env srcT rootLen [] dcs) := sortCands_perm _
  have hsorted := sortCands_sorted (pruneList env srcT rootLen [] dcs)
  refine ⟨hperm, hsorted, ?_⟩
  refine sorted_desc_descendants_first rootLen _ hsorted ?_
  intro c hc
  exact pruneList_depth env srcT rootLen [] dcs c (hperm.mem_iff.mp hc)

/-- Destination children listing used by the C3 witness: an extraneous
directory a containing an extraneous file b, against an empty source. -/
def c3DstListing : List (String × FsTree) :=
  [("a", FsTree.dir ⟨0,0,0,0,0,0,0,0,0⟩
      [("b", FsTree.file ⟨0,0,0,0,0,0,0,0,2⟩)])]

/-- Sorted candidate list of the C3 witness listing. -/
def c3Sorted : List RemovalCandidate :=
  sortCands (pruneList okEnv (FsTree.dir ⟨0,0,0,0,0,0,0,0,0⟩ []) 1 [] c3DstListing)

/-- Witness for C3 at a concrete input: in the sorted candidates of
c3DstListing, position 1 holds directory a and position 0 its descendant
file a/b, the descendant-path hypothesis holds there, and the theorem
places the descendant strictly earlier. -/
theorem C3_prune_sorts_depth_descending_witness :
    (∃ r, r ≠ [] ∧
      (c3Sorted.get ⟨0, by decide⟩).path =
        (c3Sorted.get ⟨1, by decide⟩).path ++ r) ∧
    ((0 : Nat) < 1) :=
  ⟨⟨["b"], by decide, by rfl⟩,
   (C3_prune_sorts_depth_descending okEnv (FsTree.dir ⟨0,0,0,0,0,0,0,0,0⟩ [])
      1 c3DstListing).2.2 ⟨1, by decide⟩ ⟨0, by decide⟩
     ⟨["b"], by decide, by rfl⟩⟩

/-! Infrastructure: shapes and frames of the tree operations. -/

/-- All-zero stat data, for wrapping children lists into a directory node. -/
def zeroStat : StatData := ⟨0, 0, 0, 0, 0, 0, 0, 0, 0⟩

/-- Observable top of an entry: its kind and its own stat data, children
disregarded. -/
def topOf (t : FsTree) : EntryKind × StatData := (kindOf t, statOf t)

/-- Path lookup inside a children list (the stat of the wrapping directory
is irrelevant for non-empty paths). -/
def srcLook (cs : List (String × FsTree)) (p : List String) : Option FsTree :=
  lookup (.dir zeroStat cs) p

theorem lookup_nil (t : FsTree) : lookup t [] = some t := by
  cases t <;> rfl

theorem lookup_cons (dctx : FsTree) (n : String) (p : List String) :
    lookup dctx (n :: p) =
      (match childAt dctx n with
       | some c => lookup c p
       | none => none) := by
  cases dctx <;> rfl

theorem lookup_cons_some {dctx : FsTree} {n : String} {c : FsTree}
    (p : List String) (h : childAt dctx n = some c) :
    lookup dctx (n :: p) = lookup c p := by
  rw [lookup_cons, h]

theorem lookup_cons_none {dctx : FsTree} {n : String} (p : List String)
    (h : childAt dctx n = none) : lookup dctx (n :: p) = none := by
  rw [lookup_cons, h]

theorem srcLook_cons (cs : List (String × FsTree)) (n : String) (p : List String) :
    srcLook cs (n :: p) =
      (match assoc cs n with
       | some c => lookup c p
       | none => none) := rfl

theorem assoc_setKey_self (cs : List (String × FsTree)) (n : String) (t : FsTree) :
    assoc (setKey cs n t) n = some t := by
  induction cs with
  | nil => simp [setKey, assoc]
  | cons e rest ih =>
    obtain ⟨m, u⟩ := e
    by_cases h : m = n
    · simp [setKey, h, assoc]
    · simp [setKey, h, assoc, ih]

theorem assoc_setKey_ne (cs : List (String × FsTree)) (n m : String) (t : FsTree)
    (h : n ≠ m) : assoc (setKey cs n t) m = assoc cs m := by
  induction cs with
  | nil => simp [setKey, assoc, h]
  | cons e rest ih =>
    obtain ⟨k, u⟩ := e
    by_cases hk : k = n
    · subst hk
      simp [setKey, assoc, h]
    · simp [setKey, hk, assoc, ih]

theorem assoc_eraseKey_ne (cs : List (String × FsTree)) (n m : String)
    (h : n ≠ m) : assoc (eraseKey cs n) m = assoc cs m := by
  induction cs with
  | nil => simp [eraseKey, assoc]
  | cons e rest ih =>
    obtain ⟨k, u⟩ := e
    by_cases hk : k = n
    · subst hk
      simp [eraseKey, assoc, h]
    · simp [eraseKey, hk, assoc, ih]

theorem childAt_setChild_self {dctx : FsTree} (hdir : isDirB dctx = true)
    (n : String) (t : FsTree) : childAt (setChild dctx n t) n = some t := by
  cases dctx <;> simp [isDirB] at hdir <;>
    simp [setChild, childAt, assoc_setKey_self]

theorem lookup_setChild_self {dctx : FsTree} (hdir : isDirB dctx = true)
    (n : String) (x : FsTree) (p : List String) :
    lookup (setChild dctx n x) (n :: p) = lookup x p := by
  rw [lookup_cons, childAt_setChild_self hdir]

theorem childAt_setChild_ne (dctx : FsTree) (n m : String) (t : FsTree)
    (h : n ≠ m) : childAt (setChild dctx n t) m = childAt dctx m := by
  cases dctx <;> simp [setChild, childAt, assoc_setKey_ne _ _ _ _ h]

theorem childAt_removeChild_ne (dctx : FsTree) (n m : String)
    (h : n ≠ m) : childAt (removeChild dctx n) m = childAt dctx m := by
  cases dctx <;> simp [removeChild, childAt, assoc_eraseKey_ne _ _ _ h]

theorem topOf_setChild (dctx : FsTree) (n : String) (t : FsTree) :
    topOf (setChild dctx n t) = topOf dctx := by
  cases dctx <;> rfl

theorem topOf_removeChild (dctx : FsTree) (n : String) :
    topOf (removeChild dctx n) = topOf dctx := by
  cases dctx <;> rfl

theorem isDirB_of_topOf {a b : FsTree} (h : topOf a = topOf b) :
    isDirB a = isDirB b := by
  cases a <;> cases b <;> first
    | rfl
    | (simp [topOf, kindOf] at h)

theorem isDirB_setChild (dctx : FsTree) (n : String) (t : FsTree) :
    isDirB (setChild dctx n t) = isDirB dctx :=
  isDirB_of_topOf (topOf_setChild dctx n t)

theorem isDirB_removeChild (dctx : FsTree) (n : String) :
    isDirB (removeChild dctx n) = isDirB dctx :=
  isDirB_of_topOf (topOf_removeChild dctx n)

/-- performCopy changes the destination context only at its own entry name
and preserves the context's top. -/
theorem performCopy_shape (env : Env) (now : Nat × Nat) (rel : List String)
    (n : String) (sz : Nat) (m : FileMetadata) (th : Option FsTree)
    (dctx : FsTree) (stats : SyncStats) :
    topOf (performCopy env now rel n sz m th dctx stats).1 = topOf dctx ∧
    ∀ k, k ≠ n →
      childAt (performCopy env now rel n sz m th dctx stats).1 k = childAt dctx k := by
  unfold performCopy
  split
  · split
    · exact ⟨rfl, fun k _ => rfl⟩
    · exact ⟨topOf_setChild _ _ _, fun k hk =>
        childAt_setChild_ne _ _ _ _ (fun h => hk h.symm)⟩
  · exact ⟨rfl, fun k _ => rfl⟩

/-- copyFileEntry changes the destination context only at its own entry
name and preserves the context's top. -/
theorem copyFileEntry_shape (env : Env) (now : Nat × Nat) (rel : List String)
    (n : String) (d : StatData) (m : FileMetadata) (dctx : FsTree)
    (stats : SyncStats) :
    topOf (copyFileEntry env now rel n d m dctx stats).1 = topOf dctx ∧
    ∀ k, k ≠ n →
      childAt (copyFileEntry env now rel n d m dctx stats).1 k = childAt dctx k := by
  have hrm : ∀ th stats',
      topOf (performCopy env now rel n d.size m th (removeChild dctx n) stats').1 =
        topOf dctx ∧
      ∀ k, k ≠ n →
        childAt (performCopy env now rel n d.size m th (removeChild dctx n) stats').1 k =
          childAt dctx k := by
    intro th stats'
    refine ⟨(performCopy_shape env now rel n d.size m th _ stats').1.trans
      (topOf_removeChild dctx n), ?_⟩
    intro k hk
    rw [(performCopy_shape env now rel n d.size m th _ stats').2 k hk,
      childAt_removeChild_ne _ _ _ (fun h => hk h.symm)]
  unfold copyFileEntry
  cases hc : childAt dctx n with
  | none => exact performCopy_shape env now rel n d.size m none dctx stats
  | some c =>
    dsimp only
    by_cases hreg : isRegularView c = true
    · rw [if_pos hreg]
      by_cases hsf : env.statFailDst (rel ++ [n]) = true
      · rw [if_pos hsf]
        exact performCopy_shape env now rel n d.size m _ dctx stats
      · rw [if_neg hsf]
        cases c with
        | symlink sd b =>
          dsimp only
          by_cases hrf : env.removeFail (rel ++ [n]) = true
          · rw [if_pos hrf]
            exact ⟨rfl, fun k _ => rfl⟩
          · rw [if_neg hrf]
            exact hrm none stats
        | file d' =>
          dsimp only
          by_cases hsc : shouldCopy d d' = true
          · rw [if_pos hsc]
            exact performCopy_shape env now rel n d.size m none dctx stats
          · rw [if_neg hsc]
            exact ⟨rfl, fun k _ => rfl⟩
        | dir dd dcs => exact ⟨rfl, fun k _ => rfl⟩
        | other dd => exact ⟨rfl, fun k _ => rfl⟩
      
    · rw [if_neg hreg]
      by_cases hra : env.removeAllFail (rel ++ [n]) = true
      · rw [if_pos hra]
        exact ⟨rfl, fun k _ => rfl⟩
      · rw [if_neg hra]
        exact hrm none stats

/-- copyTree changes the destination context only at its own entry name and
preserves the context's top. -/
theorem copyTree_shape (env : Env) (now : Nat × Nat) (srcRoot : List String)
    (depth : Nat) (rel : List String) (n : String) (t : FsTree) (dctx : FsTree)
    (stats : SyncStats) :
    topOf (copyTree env now srcRoot depth rel n t dctx stats).1 = topOf dctx ∧
    ∀ k, k ≠ n →
      childAt (copyTree env now srcRoot depth rel n t dctx stats).1 k =
        childAt dctx k := by
  unfold copyTree
  by_cases hsf : env.statFailSrc (rel ++ [n]) = true
  · rw [if_pos hsf]
    exact ⟨rfl, fun k _ => rfl⟩
  · rw [if_neg hsf]
    cases t with
    | symlink sd b => exact ⟨rfl, fun k _ => rfl⟩
    | file d =>
      dsimp only
      by_cases hrf : env.relFailSrc (rel ++ [n]) = true
      · rw [if_pos hrf]
        exact ⟨rfl, fun k _ => rfl⟩
      · rw [if_neg hrf]
        exact copyFileEntry_shape env now rel n d _ dctx _
    | dir dd cs' =>
      dsimp only
      by_cases hrf : env.relFailSrc (rel ++ [n]) = true
      · rw [if_pos hrf]
        exact ⟨rfl, fun k _ => rfl⟩
      · rw [if_neg hrf]
        cases hch : childAt dctx n with
        | some c =>
          dsimp only
          exact ⟨topOf_setChild _ _ _, fun k hk =>
            childAt_setChild_ne _ _ _ _ (fun h => hk h.symm)⟩
        | none =>
          dsimp only
          by_cases hmk : (isDirB dctx && !env.mkdirFail (rel ++ [n])) = true
          · rw [if_pos hmk]
            exact ⟨topOf_setChild _ _ _, fun k hk =>
              childAt_setChild_ne _ _ _ _ (fun h => hk h.symm)⟩
          · rw [if_neg hmk]
            exact ⟨rfl, fun k _ => rfl⟩
    | other od =>
      dsimp only
      by_cases hrf : env.relFailSrc (rel ++ [n]) = true
      · rw [if_pos hrf]
        exact ⟨rfl, fun k _ => rfl⟩
      · rw [if_neg hrf]
        exact ⟨rfl, fun k _ => rfl⟩

/-- copyList changes the destination context only at the entry names it
lists, and preserves the context's top. -/
theorem copyList_shape (env : Env) (now : Nat × Nat) (srcRoot : List String)
    (depth : Nat) (rel : List String) (cs : List (String × FsTree)) :
    ∀ (dctx : FsTree) (stats : SyncStats),
      topOf (copyList env now srcRoot depth rel cs dctx stats).1 = topOf dctx ∧
      ∀ k, hasKey cs k = false →
        childAt (copyList env now srcRoot depth rel cs dctx stats).1 k =
          childAt dctx k := by
  induction cs with
  | nil => exact fun dctx stats => ⟨rfl, fun k _ => rfl⟩
  | cons e rest ih =>
    obtain ⟨n, t⟩ := e
    intro dctx stats
    have h1 := copyTree_shape env now srcRoot depth rel n t dctx stats
    have h2 := ih (copyTree env now srcRoot depth rel n t dctx stats).1
      (copyTree env now srcRoot depth rel n t dctx stats).2
    refine ⟨h2.1.trans h1.1, ?_⟩
    intro k hk
    simp only [hasKey, Bool.or_eq_false_iff, decide_eq_false_iff_not] at hk
    exact (h2.2 k hk.2).trans (h1.2 k (fun h => hk.1 h.symm))

/-- Statistics change that involves no copy, no creation, no deletion and no
snapshot: what a skipped or failed entry contributes. -/
def copyIdle (s s' : SyncStats) : Prop :=
  s'.files_copied = s.files_copied ∧
  s'.directories_created = s.directories_created ∧
  s'.bytes_copied = s.bytes_copied ∧
  s'.synced_entries = s.synced_entries ∧
  s'.files_deleted = s.files_deleted

theorem copyIdle_refl (s : SyncStats) : copyIdle s s :=
  ⟨rfl, rfl, rfl, rfl, rfl⟩

theorem copyIdle_trans {a b c : SyncStats} (h1 : copyIdle a b)
    (h2 : copyIdle b c) : copyIdle a c := by
  obtain ⟨a1, a2, a3, a4, a5⟩ := h1
  obtain ⟨b1, b2, b3, b4, b5⟩ := h2
  exact ⟨b1.trans a1, b2.trans a2, b3.trans a3, b4.trans a4, b5.trans a5⟩

theorem copyIdle_bumpScanned (s : SyncStats) : copyIdle s (bumpScanned s) :=
  ⟨rfl, rfl, rfl, rfl, rfl⟩

theorem copyIdle_bumpSkipped (s : SyncStats) : copyIdle s (bumpSkipped s) :=
  ⟨rfl, rfl, rfl, rfl, rfl⟩

/-- A non-directory destination context passes through the copy stage
untouched, with no copies, creations or snapshots: every creation or copy
under it fails on the missing parent directory chain. -/
theorem copyTree_nondir (env : Env) (now : Nat × Nat) (srcRoot : List String)
    (depth : Nat) (rel : List String) (n : String) (t : FsTree) (dctx : FsTree)
    (stats : SyncStats) (hnd : isDirB dctx = false) :
    (copyTree env now srcRoot depth rel n t dctx stats).1 = dctx ∧
    copyIdle stats (copyTree env now srcRoot depth rel n t dctx stats).2 := by
  have hch : childAt dctx n = none := by
    cases dctx <;> first
      | rfl
      | simp [isDirB] at hnd
  have hpc : ∀ sz mm th stats', performCopy env now rel n sz mm th dctx stats' =
      (dctx, stats') := by
    intro sz mm th stats'
    unfold performCopy
    rw [hnd]
    rfl
  unfold copyTree
  by_cases hsf : env.statFailSrc (rel ++ [n]) = true
  · rw [if_pos hsf]
    exact ⟨rfl, copyIdle_bumpScanned stats⟩
  · rw [if_neg hsf]
    cases t with
    | symlink sd b =>
      exact ⟨rfl, copyIdle_trans (copyIdle_bumpScanned stats) (copyIdle_bumpSkipped _)⟩
    | file d =>
      dsimp only
      by_cases hrf : env.relFailSrc (rel ++ [n]) = true
      · rw [if_pos hrf]
        exact ⟨rfl, copyIdle_bumpScanned stats⟩
      · rw [if_neg hrf]
        unfold copyFileEntry
        rw [hch]
        dsimp only
        rw [hpc]
        exact ⟨rfl, copyIdle_bumpScanned stats⟩
    | dir dd cs' =>
      dsimp only
      by_cases hrf : env.relFailSrc (rel ++ [n]) = true
      · rw [if_pos hrf]
        exact ⟨rfl, copyIdle_bumpScanned stats⟩
      · rw [if_neg hrf]
        rw [hch]
        dsimp only
        rw [hnd]
        exact ⟨rfl, copyIdle_bumpScanned stats⟩
    | other od =>
      dsimp only
      by_cases hrf : env.relFailSrc (rel ++ [n]) = true
      · rw [if_pos hrf]
        exact ⟨rfl, copyIdle_bumpScanned stats⟩
      · rw [if_neg hrf]
        exact ⟨rfl, copyIdle_trans (copyIdle_bumpScanned stats) (copyIdle_bumpSkipped _)⟩

/-- The list version of copyTree_nondir. -/
theorem copyList_nondir (env : Env) (now : Nat × Nat) (srcRoot : List String)
    (depth : Nat) (rel : List String) (cs : List (String × FsTree)) :
    ∀ (dctx : FsTree) (stats : SyncStats), isDirB dctx = false →
      (copyList env now srcRoot depth rel cs dctx stats).1 = dctx ∧
      copyIdle stats (copyList env now srcRoot depth rel cs dctx stats).2 := by
  induction cs with
  | nil => exact fun dctx stats _ => ⟨rfl, copyIdle_refl stats⟩
  | cons e rest ih =>
    obtain ⟨n, t⟩ := e
    intro dctx stats hnd
    have h1 := copyTree_nondir env now srcRoot depth rel n t dctx stats hnd
    have h2 := ih dctx (copyTree env now srcRoot depth rel n t dctx stats).2 hnd
    unfold copyList
    rw [h1.1]
    exact ⟨h2.1, copyIdle_trans h1.2 h2.2⟩

mutual

/-- Well-formed tree: every directory's children carry pairwise distinct
names (as a real directory listing does). -/
def wfT : FsTree → Bool
  | .dir _ cs => wfL cs
  | _ => true

/-- Well-formed children list. -/
def wfL : List (String × FsTree) → Bool
  | [] => true
  | (n, t) :: rest => !hasKey rest n && wfT t && wfL rest

end

theorem mem_of_assoc {cs : List (String × FsTree)} {n : String} {t : FsTree}
    (h : assoc cs n = some t) : (n, t) ∈ cs := by
  induction cs with
  | nil => simp [assoc] at h
  | cons e rest ih =>
    obtain ⟨m, u⟩ := e
    by_cases hm : m = n
    · subst hm
      simp [assoc] at h
      simp [h]
    · simp [assoc, hm] at h
      exact List.mem_cons_of_mem _ (ih h)

theorem hasKey_of_mem {cs : List (String × FsTree)} {n : String} {t : FsTree}
    (h : (n, t) ∈ cs) : hasKey cs n = true := by
  induction cs with
  | nil => simp at h
  | cons e rest ih =>
    obtain ⟨m, u⟩ := e
    rcases List.mem_cons.mp h with h | h
    · obtain ⟨h1, h2⟩ := Prod.mk.injEq .. ▸ h
      simp [hasKey, h1.symm]
    · simp [hasKey, ih h]

theorem assoc_of_mem_wf {cs : List (String × FsTree)} {n : String} {t : FsTree}
    (hwf : wfL cs = true) (h : (n, t) ∈ cs) : assoc cs n = some t := by
  induction cs with
  | nil => simp at h
  | cons e rest ih =>
    obtain ⟨m, u⟩ := e
    simp only [wfL, Bool.and_eq_true, Bool.not_eq_true'] at hwf
    rcases List.mem_cons.mp h with h | h
    · obtain ⟨h1, h2⟩ := Prod.mk.injEq .. ▸ h
      subst h1
      subst h2
      simp [assoc]
    · by_cases hm : m = n
      · subst hm
        exact absurd (hasKey_of_mem h) (by simp [hwf.1.1])
      · simp [assoc, hm]
        exact ih hwf.2 h

theorem wfT_of_mem_wf {cs : List (String × FsTree)} {n : String} {t : FsTree}
    (hwf : wfL cs = true) (h : (n, t) ∈ cs) : wfT t = true := by
  induction cs with
  | nil => simp at h
  | cons e rest ih =>
    obtain ⟨m, u⟩ := e
    simp only [wfL, Bool.and_eq_true, Bool.not_eq_true'] at hwf
    rcases List.mem_cons.mp h with h | h
    · obtain ⟨h1, h2⟩ := Prod.mk.injEq .. ▸ h
      subst h2
      exact hwf.1.2
    · exact ih hwf.2 h

theorem srcLook_nil_ne (cs : List (String × FsTree)) :
    srcLook cs [] = some (.dir zeroStat cs) := rfl

theorem lookup_dir_stat_irrel (a b : StatData) (cs : List (String × FsTree))
    (p : List String) (hp : p ≠ []) :
    lookup (.dir a cs) p = lookup (.dir b cs) p := by
  cases p with
  | nil => exact absurd rfl hp
  | cons n q => rfl

theorem srcLook_single_self (n : String) (t : FsTree) (p : List String) :
    srcLook [(n, t)] (n :: p) = lookup t p := by
  simp [srcLook, lookup, assoc]

theorem srcLook_single_ne (n m : String) (t : FsTree) (p : List String)
    (h : n ≠ m) : srcLook [(n, t)] (m :: p) = none := by
  simp [srcLook, lookup, assoc, h]

theorem hasKey_false_assoc {cs : List (String × FsTree)} {n : String}
    (h : hasKey cs n = false) : assoc cs n = none := by
  induction cs with
  | nil => rfl
  | cons e rest ih =>
    obtain ⟨m, u⟩ := e
    simp only [hasKey, Bool.or_eq_false_iff, decide_eq_false_iff_not] at h
    simp [assoc, h.1, ih h.2]

theorem assoc_cons_self (n : String) (t : FsTree) (rest : List (String × FsTree)) :
    assoc ((n, t) :: rest) n = some t := by
  simp [assoc]

theorem assoc_cons_ne {m n : String} (h : m ≠ n) (u : FsTree)
    (rest : List (String × FsTree)) : assoc ((m, u) :: rest) n = assoc rest n := by
  simp [assoc, h]

/-- The copy stage leaves a source symlink's destination path alone. -/
theorem copyTree_symlink_fst (env : Env) (now : Nat × Nat) (srcRoot : List String)
    (depth : Nat) (rel : List String) (n : String) (sd : StatData) (b : Bool)
    (dctx : FsTree) (stats : SyncStats) :
    (copyTree env now srcRoot depth rel n (.symlink sd b) dctx stats).1 = dctx := by
  unfold copyTree
  split <;> rfl

/-- The copy stage leaves a non-regular, non-directory source entry's
destination path alone. -/
theorem copyTree_other_fst (env : Env) (now : Nat × Nat) (srcRoot : List String)
    (depth : Nat) (rel : List String) (n : String) (od : StatData)
    (dctx : FsTree) (stats : SyncStats) :
    (copyTree env now srcRoot depth rel n (.other od) dctx stats).1 = dctx := by
  unfold copyTree
  split
  · rfl
  · dsimp only
    split <;> rfl

mutual

/-- Frame property of the copy stage for one source entry: a destination
path with no counterpart below the entry, none of whose ancestors is a
regular source file, is left exactly as it was. -/
theorem copyTree_lookup_frame (env : Env) (now : Nat × Nat) (srcRoot : List String) :
    ∀ (t : FsTree) (depth : Nat) (rel : List String) (n : String) (dctx : FsTree)
      (stats : SyncStats) (p : List String),
      wfT t = true →
      srcLook [(n, t)] p = none →
      (∀ q r, p = q ++ r → r ≠ [] → ∀ fd, srcLook [(n, t)] q ≠ some (.file fd)) →
      lookup (copyTree env now srcRoot depth rel n t dctx stats).1 p = lookup dctx p
  | .symlink sd b, depth, rel, n, dctx, stats, p => by
    intro _ _ _
    rw [copyTree_symlink_fst]
  | .other od, depth, rel, n, dctx, stats, p => by
    intro _ _ _
    rw [copyTree_other_fst]
  | .file d, depth, rel, n, dctx, stats, p => by
    intro _ h1 h2
    cases p with
    | nil => simp [srcLook_nil_ne] at h1
    | cons m p' =>
      by_cases hm : m = n
      · subst hm
        cases p' with
        | nil => rw [srcLook_single_self] at h1; simp [lookup] at h1
        | cons x xs =>
          exact absurd (srcLook_single_self m (.file d) []) (by
            have := h2 [m] (x :: xs) rfl (by simp) d
            intro hx
            rw [hx] at this
            simp [lookup_nil] at this)
      · rw [lookup_cons, lookup_cons,
          (copyTree_shape env now srcRoot depth rel n (.file d) dctx stats).2 m
            (fun h => hm h)]
  | .dir dd cs', depth, rel, n, dctx, stats, p => by
    intro hwf h1 h2
    cases p with
    | nil => simp [srcLook_nil_ne] at h1
    | cons m p' =>
      by_cases hm : m = n
      · subst hm
        rw [srcLook_single_self] at h1
        cases p' with
        | nil => simp [lookup_nil] at h1
        | cons x xs =>
          -- transported hypotheses for the children list
          have h1' : srcLook cs' (x :: xs) = none := by
            have hx := h1
            rw [lookup_dir_stat_irrel dd zeroStat cs' (x :: xs) (by simp)] at hx
            exact hx
          have h2' : ∀ q r, x :: xs = q ++ r → r ≠ [] → ∀ fd,
              srcLook cs' q ≠ some (.file fd) := by
            intro q r hqr hr fd
            cases q with
            | nil => simp [srcLook_nil_ne]
            | cons y ys =>
              have hx := h2 (m :: y :: ys) r (by rw [hqr]; rfl) hr fd
              rw [srcLook_single_self,
                lookup_dir_stat_irrel dd zeroStat cs' (y :: ys) (by simp)] at hx
              exact hx
          have hwf' : wfL cs' = true := hwf
          unfold copyTree
          by_cases hsf : env.statFailSrc (rel ++ [m]) = true
          · rw [if_pos hsf]
          · rw [if_neg hsf]
            dsimp only
            by_cases hrf : env.relFailSrc (rel ++ [m]) = true
            · rw [if_pos hrf]
            · rw [if_neg hrf]
              cases hch : childAt dctx m with
              | some c =>
                dsimp only
                have hdir := childAt_some_isDirB hch
                rw [lookup_setChild_self hdir, lookup_cons_some (x :: xs) hch]
                exact copyList_lookup_frame env now srcRoot cs' (depth + 1)
                  (rel ++ [m]) c (bumpScanned stats) (x :: xs) hwf' h1' h2'
              | none =>
                dsimp only
                by_cases hmk : (isDirB dctx && !env.mkdirFail (rel ++ [m])) = true
                · rw [if_pos hmk]
                  have hdir : isDirB dctx = true := by
                    rcases Bool.and_eq_true .. ▸ hmk with ⟨hd, _⟩
                    exact hd
                  rw [lookup_setChild_self hdir, lookup_cons_none (x :: xs) hch]
                  rw [copyList_lookup_frame env now srcRoot cs' (depth + 1)
                    (rel ++ [m]) (FsTree.dir (createdDirStat now) []) _ (x :: xs)
                    hwf' h1' h2']
                  rfl
                · rw [if_neg hmk]
      · rw [lookup_cons, lookup_cons,
          (copyTree_shape env now srcRoot depth rel n (.dir dd cs') dctx stats).2 m
            (fun h => hm h)]

/-- Frame property of the copy stage over a sibling list: a destination
path with no source counterpart, none of whose ancestors is a regular
source file, is left exactly as it was. -/
theorem copyList_lookup_frame (env : Env) (now : Nat × Nat) (srcRoot : List String) :
    ∀ (cs : List (String × FsTree)) (depth : Nat) (rel : List String)
      (dctx : FsTree) (stats : SyncStats) (p : List String),
      wfL cs = true →
      srcLook cs p = none →
      (∀ q r, p = q ++ r → r ≠ [] → ∀ fd, srcLook cs q ≠ some (.file fd)) →
      lookup (copyList env now srcRoot depth rel cs dctx stats).1 p = lookup dctx p
  | [], depth, rel, dctx, stats, p => by
    intro _ _ _
    rfl
  | (n, t) :: rest, depth, rel, dctx, stats, p => by
    intro hwf h1 h2
    simp only [wfL, Bool.and_eq_true, Bool.not_eq_true'] at hwf
    cases p with
    | nil => simp [srcLook_nil_ne] at h1
    | cons m p' =>
      -- hypotheses for the head entry
      have hh1 : srcLook [(n, t)] (m :: p') = none := by
        by_cases hm : m = n
        · subst hm
          rw [srcLook_single_self]
          rw [srcLook_cons, assoc_cons_self] at h1
          exact h1
        · exact srcLook_single_ne n m t p' (fun h => hm h.symm)
      have hh2 : ∀ q r, m :: p' = q ++ r → r ≠ [] → ∀ fd,
          srcLook [(n, t)] q ≠ some (.file fd) := by
        intro q r hqr hr fd
        cases q with
        | nil => simp [srcLook_nil_ne]
        | cons y ys =>
          have hy : y = m := by
            have := congrArg (fun l => l.head?) hqr
            simpa using this.symm
          subst hy
          by_cases hm : y = n
          · subst hm
            rw [srcLook_single_self]
            have := h2 (y :: ys) r hqr hr fd
            rw [srcLook_cons, assoc_cons_self] at this
            exact this
          · rw [srcLook_single_ne n y t ys (fun h => hm h.symm)]
            simp
      -- hypotheses for the rest
      have hr1 : srcLook rest (m :: p') = none := by
        by_cases hm : m = n
        · subst hm
          rw [srcLook_cons, hasKey_false_assoc hwf.1.1]
        · rw [srcLook_cons]
          rw [srcLook_cons, assoc_cons_ne (fun h => hm h.symm) t rest] at h1
          exact h1
      have hr2 : ∀ q r, m :: p' = q ++ r → r ≠ [] → ∀ fd,
          srcLook rest q ≠ some (.file fd) := by
        intro q r hqr hr fd
        cases q with
        | nil => simp [srcLook_nil_ne]
        | cons y ys =>
          have hy : y = m := by
            have := congrArg (fun l => l.head?) hqr
            simpa using this.symm
          subst hy
          by_cases hm : y = n
          · subst hm
            rw [srcLook_cons, hasKey_false_assoc hwf.1.1]
            simp
          · have := h2 (y :: ys) r hqr hr fd
            rw [srcLook_cons, assoc_cons_ne (fun h => hm h.symm) t rest] at this
            rw [srcLook_cons]
            exact this
      unfold copyList
      rw [copyList_lookup_frame env now srcRoot rest depth rel _ _ (m :: p')
        hwf.2 hr1 hr2]
      exact copyTree_lookup_frame env now srcRoot t depth rel n dctx stats
        (m :: p') hwf.1.2 hh1 hh2

end

/-! Statistics bookkeeping of the copy stage. -/

/-- Relation between incoming and outgoing statistics of any copy-stage
step: files_deleted is untouched, and the growth of the snapshot list
matches the growth of files_copied plus directories_created. -/
def statsDelta (s s' : SyncStats) : Prop :=
  s'.files_deleted = s.files_deleted ∧
  s'.synced_entries.length + s.files_copied + s.directories_created =
    s.synced_entries.length + s'.files_copied + s'.directories_created

theorem statsDelta_refl (s : SyncStats) : statsDelta s s := ⟨rfl, rfl⟩

theorem statsDelta_trans {a b c : SyncStats} (h1 : statsDelta a b)
    (h2 : statsDelta b c) : statsDelta a c := by
  obtain ⟨x1, x2⟩ := h1
  obtain ⟨y1, y2⟩ := h2
  exact ⟨y1.trans x1, by omega⟩

theorem statsDelta_bumpScanned (s : SyncStats) : statsDelta s (bumpScanned s) :=
  ⟨rfl, rfl⟩

theorem statsDelta_bumpSkipped (s : SyncStats) : statsDelta s (bumpSkipped s) :=
  ⟨rfl, rfl⟩

theorem statsDelta_bumpDirCreated (m : FileMetadata) (s : SyncStats) :
    statsDelta s (bumpDirCreated m s) := by
  refine ⟨rfl, ?_⟩
  simp [bumpDirCreated]
  omega

theorem statsDelta_bumpCopied (sz : Nat) (m : FileMetadata) (s : SyncStats) :
    statsDelta s (bumpCopied sz m s) := by
  refine ⟨rfl, ?_⟩
  simp [bumpCopied]
  omega

theorem performCopy_statsDelta (env : Env) (now : Nat × Nat) (rel : List String)
    (n : String) (sz : Nat) (m : FileMetadata) (th : Option FsTree)
    (dctx : FsTree) (stats : SyncStats) :
    statsDelta stats (performCopy env now rel n sz m th dctx stats).2 := by
  unfold performCopy
  split
  · split
    · exact statsDelta_refl stats
    · exact statsDelta_bumpCopied sz m stats
  · exact statsDelta_refl stats

theorem copyFileEntry_statsDelta (env : Env) (now : Nat × Nat)
    (rel : List String) (n : String) (d : StatData) (m : FileMetadata)
    (dctx : FsTree) (stats : SyncStats) :
    statsDelta stats (copyFileEntry env now rel n d m dctx stats).2 := by
  unfold copyFileEntry
  cases hc : childAt dctx n with
  | none => exact performCopy_statsDelta env now rel n d.size m none dctx stats
  | some c =>
    dsimp only
    by_cases hreg : isRegularView c = true
    · rw [if_pos hreg]
      by_cases hsf : env.statFailDst (rel ++ [n]) = true
      · rw [if_pos hsf]
        exact performCopy_statsDelta env now rel n d.size m _ dctx stats
      · rw [if_neg hsf]
        cases c with
        | symlink sd b =>
          dsimp only
          by_cases hrf : env.removeFail (rel ++ [n]) = true
          · rw [if_pos hrf]
            exact statsDelta_refl stats
          · rw [if_neg hrf]
            exact performCopy_statsDelta env now rel n d.size m none _ stats
        | file d' =>
          dsimp only
          by_cases hsc : shouldCopy d d' = true
          · rw [if_pos hsc]
            exact performCopy_statsDelta env now rel n d.size m none dctx stats
          · rw [if_neg hsc]
            exact statsDelta_bumpSkipped stats
        | dir dd dcs => exact statsDelta_refl stats
        | other dd => exact statsDelta_refl stats
    · rw [if_neg hreg]
      by_cases hra : env.removeAllFail (rel ++ [n]) = true
      · rw [if_pos hra]
        exact statsDelta_refl stats
      · rw [if_neg hra]
        exact performCopy_statsDelta env now rel n d.size m none _ stats

mutual

/-- Statistics bookkeeping of one copy-stage entry: files_deleted is never
touched and every snapshot append coincides with exactly one increment of
files_copied or directories_created. -/
theorem copyTree_statsDelta (env : Env) (now : Nat × Nat) (srcRoot : List String) :
    ∀ (t : FsTree) (depth : Nat) (rel : List String) (n : String) (dctx : FsTree)
      (stats : SyncStats),
      statsDelta stats (copyTree env now srcRoot depth rel n t dctx stats).2
  | .symlink sd b, depth, rel, n, dctx, stats => by
    unfold copyTree
    split
    · exact statsDelta_bumpScanned stats
    · exact statsDelta_trans (statsDelta_bumpScanned stats) (statsDelta_bumpSkipped _)
  | .other od, depth, rel, n, dctx, stats => by
    unfold copyTree
    split
    · exact statsDelta_bumpScanned stats
    · dsimp only
      split
      · exact statsDelta_bumpScanned stats
      · exact statsDelta_trans (statsDelta_bumpScanned stats) (statsDelta_bumpSkipped _)
  | .file d, depth, rel, n, dctx, stats => by
    unfold copyTree
    split
    · exact statsDelta_bumpScanned stats
    · dsimp only
      split
      · exact statsDelta_bumpScanned stats
      · exact statsDelta_trans (statsDelta_bumpScanned stats)
          (copyFileEntry_statsDelta env now rel n d _ dctx _)
  | .dir dd cs', depth, rel, n, dctx, stats => by
    unfold copyTree
    split
    · exact statsDelta_bumpScanned stats
    · dsimp only
      split
      · exact statsDelta_bumpScanned stats
      · cases hch : childAt dctx n with
        | some c =>
          dsimp only
          exact statsDelta_trans (statsDelta_bumpScanned stats)
            (copyList_statsDelta env now srcRoot cs' (depth + 1) (rel ++ [n]) c _)
        | none =>
          dsimp only
          split
          · exact statsDelta_trans (statsDelta_bumpScanned stats)
              (statsDelta_trans (statsDelta_bumpDirCreated _ _)
                (copyList_statsDelta env now srcRoot cs' (depth + 1) (rel ++ [n])
                  (FsTree.dir (createdDirStat now) []) _))
          · exact statsDelta_bumpScanned stats

/-- Statistics bookkeeping of the copy stage over a sibling list. -/
theorem copyList_statsDelta (env : Env) (now : Nat × Nat) (srcRoot : List String) :
    ∀ (cs : List (String × FsTree)) (depth : Nat) (rel : List String)
      (dctx : FsTree) (stats : SyncStats),
      statsDelta stats (copyList env now srcRoot depth rel cs dctx stats).2
  | [], depth, rel, dctx, stats => statsDelta_refl stats
  | (n, t) :: rest, depth, rel, dctx, stats => by
    unfold copyList
    exact statsDelta_trans (copyTree_statsDelta env now srcRoot t depth rel n dctx stats)
      (copyList_statsDelta env now srcRoot rest depth rel _ _)

end

/-- Claim C6: synchronize aborts the whole run with an error and no
statistics if and only if the source does not exist, the source is not a
directory, the destination exists but is not a directory, or the two roots
are path-equivalent; the Except value short-circuits before the copy and
prune stages in exactly these cases, so neither stage executes then. -/
theorem C6_validation_iff (env : Env) (now : Nat × Nat) (opts : SyncOptions)
    (srcRoot dstRoot : List String) (src dst : Option FsTree) (equiv : Bool) :
    (∃ e, synchronize env now opts srcRoot dstRoot src dst equiv = .error e) ↔
      (src = none ∨ (∃ s, src = some s ∧ isDirB s = false) ∨
       (∃ d, dst = some d ∧ isDirB d = false) ∨ equiv = true) := by
  cases src with
  | none => simp [synchronize]
  | some s =>
    by_cases hs : isDirB s = true
    · cases dst with
      | none =>
        cases he : equiv with
        | true => simp [synchronize, synchronizeStages, hs, he]
        | false =>
          cases hre : opts.remove_extraneous <;>
            simp [synchronize, synchronizeStages, hs, he, hre,
              Bool.not_eq_true]
      | some d =>
        by_cases hd : isDirB d = true
        · cases he : equiv with
          | true => simp [synchronize, synchronizeStages, hs, hd, he]
          | false =>
            cases hre : opts.remove_extraneous <;>
              simp [synchronize, synchronizeStages, hs, hd, he, hre,
                Bool.not_eq_true]
        · rw [Bool.not_eq_true] at hd
          simp [synchronize, hs, hd]
    · rw [Bool.not_eq_true] at hs
      simp [synchronize, hs]

/-- Source tree of the C7 counterexample: a regular file at path a. -/
def c7Src : FsTree :=
  .dir zeroStat [("a", .file ⟨0, 0, 0, 0, 100, 0, 0, 0, 2⟩)]

/-- Destination tree of the C7 counterexample: a directory at path a with a
child file a/b that has no source counterpart. -/
def c7Dst : FsTree :=
  .dir zeroStat
    [("a", .dir zeroStat [("b", .file ⟨0, 0, 0, 0, 100, 0, 0, 0, 9⟩)])]

/-- Counterexample to claim C7 as stated: with remove_extraneous=false the
prune stage does not run and files_deleted stays zero, yet the destination
entry a/b, which has no source counterpart, is gone after the run — the
copy stage's remove_all replacement of the non-regular destination a
(source has a regular file there) deletes its whole subtree
(sync.cpp:139-148). -/
theorem C7_counterexample :
    (lookup c7Dst ["a", "b"]).isSome = true ∧
    (lookup c7Src ["a", "b"]).isSome = false ∧
    (synchronize okEnv (300, 0) ⟨false⟩ ["s"] ["d"] (some c7Src) (some c7Dst)
        false).map
      (fun r => ((lookup r.1 ["a", "b"]).isSome, r.2.files_deleted)) =
      .ok (false, 0) :=
  ⟨rfl, rfl, rfl⟩

/-- Claim C7, amended: with remove_extraneous=false the run is exactly the
copy stage (the prune stage does not execute), the returned files_deleted
is zero, and every destination entry with no source counterpart survives
untouched provided no ancestor of its path carries a regular file in the
source (the one exception the code forces: a type-conflict replacement of
such an ancestor removes the subtree under it). -/
theorem C7_no_prune_amended (env : Env) (now : Nat × Nat)
    (srcRoot dstRoot : List String) (s d0 : FsTree)
    (hwf : wfT s = true) (hs : isDirB s = true) (hd : isDirB d0 = true) :
    synchronize env now ⟨false⟩ srcRoot dstRoot (some s) (some d0) false =
      .ok (copyStage env now srcRoot s d0 zeroStats) ∧
    (copyStage env now srcRoot s d0 zeroStats).2.files_deleted = 0 ∧
    ∀ p, lookup s p = none →
      (∀ q r fd, p = q ++ r → r ≠ [] → lookup s q ≠ some (.file fd)) →
      lookup (copyStage env now srcRoot s d0 zeroStats).1 p = lookup d0 p := by
  cases s with
  | file sd => simp [isDirB] at hs
  | symlink sd b => simp [isDirB] at hs
  | other sd => simp [isDirB] at hs
  | dir sd cs =>
    have hs' : isDirB (FsTree.dir sd cs) = true := rfl
    refine ⟨by simp [synchronize, synchronizeStages, hs', hd], ?_, ?_⟩
    · exact (copyList_statsDelta env now srcRoot cs 0 [] d0 zeroStats).1
    · intro p hnone hanc
      have hwf' : wfL cs = true := hwf
      cases p with
      | nil => simp [lookup_nil] at hnone
      | cons m p' =>
        refine copyList_lookup_frame env now srcRoot cs 0 [] d0 zeroStats
          (m :: p') hwf' ?_ ?_
        · have hx := hnone
          rw [lookup_dir_stat_irrel sd zeroStat cs (m :: p') (by simp)] at hx
          exact hx
        · intro q r hqr hr fd
          cases q with
          | nil => simp [srcLook_nil_ne]
          | cons y ys =>
            have := hanc (y :: ys) r fd hqr hr
            rw [lookup_dir_stat_irrel sd zeroStat cs (y :: ys) (by simp)] at this
            exact this

/-- Witness for C7 at a concrete input: a destination-only file extra.txt
(no conflicting source ancestor) survives a run with pruning disabled, and
files_deleted is zero. -/
theorem C7_no_prune_amended_witness :
    wfT (FsTree.dir zeroStat [("a", .file ⟨0,0,0,0,100,0,0,0,2⟩)]) = true ∧
    (synchronize okEnv (300, 0) ⟨false⟩ ["s"] ["d"]
        (some (FsTree.dir zeroStat [("a", .file ⟨0,0,0,0,100,0,0,0,2⟩)]))
        (some (FsTree.dir zeroStat [("x", .file ⟨0,0,0,0,50,0,0,0,7⟩)]))
        false =
      .ok (copyStage okEnv (300, 0) ["s"]
        (FsTree.dir zeroStat [("a", .file ⟨0,0,0,0,100,0,0,0,2⟩)])
        (FsTree.dir zeroStat [("x", .file ⟨0,0,0,0,50,0,0,0,7⟩)]) zeroStats)) ∧
    (copyStage okEnv (300, 0) ["s"]
        (FsTree.dir zeroStat [("a", .file ⟨0,0,0,0,100,0,0,0,2⟩)])
        (FsTree.dir zeroStat [("x", .file ⟨0,0,0,0,50,0,0,0,7⟩)])
        zeroStats).2.files_deleted = 0 ∧
    lookup (copyStage okEnv (300, 0) ["s"]
        (FsTree.dir zeroStat [("a", .file ⟨0,0,0,0,100,0,0,0,2⟩)])
        (FsTree.dir zeroStat [("x", .file ⟨0,0,0,0,50,0,0,0,7⟩)])
        zeroStats).1 ["x"] =
      lookup (FsTree.dir zeroStat [("x", .file ⟨0,0,0,0,50,0,0,0,7⟩)]) ["x"] := by
  have h := C7_no_prune_amended okEnv (300, 0) ["s"] ["d"]
    (FsTree.dir zeroStat [("a", .file ⟨0,0,0,0,100,0,0,0,2⟩)])
    (FsTree.dir zeroStat [("x", .file ⟨0,0,0,0,50,0,0,0,7⟩)])
    (by rfl) (by rfl) (by rfl)
  refine ⟨by rfl, h.1, h.2.1, ?_⟩
  refine h.2.2 ["x"] (by rfl) ?_
  intro q r fd hqr hr
  cases q with
  | nil => simp [lookup_nil]
  | cons y ys =>
    cases r with
    | nil => exact absurd rfl hr
    | cons a as =>
      have hlen := congrArg List.length hqr
      simp [List.length_append] at hlen

/-- Claim C10: the snapshot-list length always equals files_copied plus
directories_created: the invariant is preserved by every copy-stage step
(each snapshot append coincides with exactly one of the two increments, and
files_deleted belongs to the prune stage alone), and it holds for the
statistics any successful synchronize returns from its all-zero start. -/
theorem C10_synced_entries_length (env : Env) (now : Nat × Nat)
    (srcRoot : List String) :
    (∀ (cs : List (String × FsTree)) (depth : Nat) (rel : List String)
      (dctx : FsTree) (stats : SyncStats),
      stats.synced_entries.length = stats.files_copied + stats.directories_created →
      (copyList env now srcRoot depth rel cs dctx stats).2.synced_entries.length =
        (copyList env now srcRoot depth rel cs dctx stats).2.files_copied +
        (copyList env now srcRoot depth rel cs dctx stats).2.directories_created) ∧
    (∀ (opts : SyncOptions) (srcRoot' dstRoot : List String)
      (src dst : Option FsTree) (equiv : Bool) (r : FsTree × SyncStats),
      synchronize env now opts srcRoot' dstRoot src dst equiv = .ok r →
      r.2.synced_entries.length = r.2.files_copied + r.2.directories_created) := by
  constructor
  · intro cs depth rel dctx stats hinv
    have := (copyList_statsDelta env now srcRoot cs depth rel dctx stats).2
    omega
  · intro opts srcRoot' dstRoot src dst equiv r hok
    have key : ∀ (s d : FsTree),
        (copyStage env now srcRoot' s d zeroStats).2.synced_entries.length =
          (copyStage env now srcRoot' s d zeroStats).2.files_copied +
          (copyStage env now srcRoot' s d zeroStats).2.directories_created := by
      intro s d
      cases s with
      | dir sd cs =>
        have h0 := (copyList_statsDelta env now srcRoot' cs 0 [] d zeroStats).2
        simp [copyStage, zeroStats] at h0 ⊢
        omega
      | file sd => simp [copyStage, zeroStats]
      | symlink sd b => simp [copyStage, zeroStats]
      | other sd => simp [copyStage, zeroStats]
    have hprune : ∀ (s d : FsTree) (rl : Nat) (st : SyncStats),
        (pruneStage env s rl d st).2.synced_entries = st.synced_entries ∧
        (pruneStage env s rl d st).2.files_copied = st.files_copied ∧
        (pruneStage env s rl d st).2.directories_created = st.directories_created := by
      intro s d rl st
      exact ⟨rfl, rfl, rfl⟩
    unfold synchronize at hok
    cases src with
    | none => simp at hok
    | some s =>
      by_cases hs : isDirB s = true
      · simp only [hs, Bool.not_true, Bool.false_eq_true, if_false] at hok
        cases dst with
        | none =>
          unfold synchronizeStages at hok
          cases equiv with
          | true => simp at hok
          | false =>
            simp only [Bool.false_eq_true, if_false] at hok
            cases hre : opts.remove_extraneous with
            | true =>
              rw [hre] at hok
              simp only [if_true] at hok
              injection hok with hok2
              subst hok2
              have hp := hprune s (copyStage env now srcRoot' s
                (FsTree.dir (createdDirStat now) []) zeroStats).1 dstRoot.length
                (copyStage env now srcRoot' s
                  (FsTree.dir (createdDirStat now) []) zeroStats).2
              rw [hp.1, hp.2.1, hp.2.2]
              exact key s (FsTree.dir (createdDirStat now) [])
            | false =>
              rw [hre] at hok
              simp only [Bool.false_eq_true, if_false] at hok
              injection hok with hok2
              subst hok2
              exact key s (FsTree.dir (createdDirStat now) [])
        | some d =>
          by_cases hd : isDirB d = true
          · simp only [hd, Bool.not_true, Bool.false_eq_true, if_false] at hok
            unfold synchronizeStages at hok
            cases equiv with
            | true => simp at hok
            | false =>
              simp only [Bool.false_eq_true, if_false] at hok
              cases hre : opts.remove_extraneous with
              | true =>
                rw [hre] at hok
                simp only [if_true] at hok
                injection hok with hok2
                subst hok2
                have hp := hprune s (copyStage env now srcRoot' s d zeroStats).1
                  dstRoot.length (copyStage env now srcRoot' s d zeroStats).2
                rw [hp.1, hp.2.1, hp.2.2]
                exact key s d
              | false =>
                rw [hre] at hok
                simp only [Bool.false_eq_true, if_false] at hok
                injection hok with hok2
                subst hok2
                exact key s d
          · rw [Bool.not_eq_true] at hd
            simp [hd] at hok
      · rw [Bool.not_eq_true] at hs
        simp [hs] at hok

/-- Result of the concrete run used by the C10 witness. -/
def c10Run : FsTree × SyncStats :=
  copyStage okEnv (300, 0) ["s"] c7Src c7Dst zeroStats

/-- Witness for C10 at concrete inputs: the invariant is preserved from the
all-zero statistics through a concrete copyList run, and it holds for the
statistics of a concrete successful synchronize. -/
theorem C10_synced_entries_length_witness :
    zeroStats.synced_entries.length =
      zeroStats.files_copied + zeroStats.directories_created ∧
    (copyList okEnv (300, 0) ["s"] 0 []
        [("a", FsTree.file ⟨0,0,0,0,100,0,0,0,2⟩)] c7Dst
        zeroStats).2.synced_entries.length =
      (copyList okEnv (300, 0) ["s"] 0 []
        [("a", FsTree.file ⟨0,0,0,0,100,0,0,0,2⟩)] c7Dst
        zeroStats).2.files_copied +
      (copyList okEnv (300, 0) ["s"] 0 []
        [("a", FsTree.file ⟨0,0,0,0,100,0,0,0,2⟩)] c7Dst
        zeroStats).2.directories_created ∧
    synchronize okEnv (300, 0) ⟨false⟩ ["s"] ["d"] (some c7Src) (some c7Dst)
      false = .ok c10Run ∧
    c10Run.2.synced_entries.length =
      c10Run.2.files_copied + c10Run.2.directories_created :=
  ⟨rfl,
   (C10_synced_entries_length okEnv (300, 0) ["s"]).1
     [("a", FsTree.file ⟨0,0,0,0,100,0,0,0,2⟩)] 0 [] c7Dst zeroStats rfl,
   rfl,
   (C10_synced_entries_length okEnv (300, 0) ["s"]).2 ⟨false⟩ ["s"] ["d"]
     (some c7Src) (some c7Dst) false c10Run rfl⟩

/-- Claim C8: per-entry failures in the copy stage are recoverable, never
run-aborting.  First, a source entry whose metadata collection fails
contributes only its scan count: the destination is untouched and, when the
entry is a directory, its subtree is not descended into (the run moves
straight on).  Second, an entry whose parent-directory creation or file
copy fails leaves the statistics entirely unchanged — in particular it is
counted neither in files_copied nor in files_skipped.  Third, synchronize
on validated roots returns statistics under every failure environment. -/
theorem C8_recoverable_failures :
    (∀ (env : Env) (now : Nat × Nat) (srcRoot : List String) (depth : Nat)
      (rel : List String) (n : String) (t : FsTree) (dctx : FsTree)
      (stats : SyncStats),
      env.statFailSrc (rel ++ [n]) = true →
      copyTree env now srcRoot depth rel n t dctx stats =
        (dctx, bumpScanned stats)) ∧
    (∀ (env : Env) (now : Nat × Nat) (rel : List String) (n : String)
      (sz : Nat) (m : FileMetadata) (th : Option FsTree) (dctx : FsTree)
      (stats : SyncStats),
      (env.mkdirFail rel = true ∨ env.copyFail (rel ++ [n]) = true) →
      performCopy env now rel n sz m th dctx stats = (dctx, stats)) ∧
    (∀ (env : Env) (now : Nat × Nat) (opts : SyncOptions)
      (srcRoot dstRoot : List String) (s d : FsTree),
      isDirB s = true → isDirB d = true →
      ∃ r, synchronize env now opts srcRoot dstRoot (some s) (some d) false =
        .ok r) := by
  refine ⟨?_, ?_, ?_⟩
  · intro env now srcRoot depth rel n t dctx stats hf
    unfold copyTree
    rw [if_pos hf]
  · intro env now rel n sz m th dctx stats hf
    unfold performCopy
    rcases hf with hf | hf
    · rw [hf]
      simp
    · by_cases hm : (isDirB dctx && !env.mkdirFail rel) = true
      · rw [if_pos hm, if_pos hf]
      · rw [if_neg hm]
  · intro env now opts srcRoot dstRoot s d hs hd
    cases hre : opts.remove_extraneous with
    | true =>
      exact ⟨_, by simp [synchronize, synchronizeStages, hs, hd, hre]; rfl⟩
    | false =>
      exact ⟨_, by simp [synchronize, synchronizeStages, hs, hd, hre]; rfl⟩

/-- Failure environment for the C8 witness: metadata collection fails for
the source entry a, and the copy of file b fails. -/
def c8Env : Env :=
  { okEnv with
      statFailSrc := fun p => p == ["a"]
      copyFail := fun p => p == ["b"] }

/-- Witness for C8 at concrete inputs: the failing metadata entry a (a
directory with a child) contributes only its scan count and its subtree is
not entered; the failing copy of b changes nothing; and synchronize still
returns statistics under this failure environment. -/
theorem C8_recoverable_failures_witness :
    c8Env.statFailSrc ["a"] = true ∧
    copyTree c8Env (300, 0) ["s"] 0 [] "a"
        (FsTree.dir zeroStat [("c", .file ⟨0,0,0,0,100,0,0,0,1⟩)])
        (FsTree.dir zeroStat []) zeroStats =
      (FsTree.dir zeroStat [], bumpScanned zeroStats) ∧
    (c8Env.mkdirFail [] = true ∨ c8Env.copyFail ([] ++ ["b"]) = true) ∧
    performCopy c8Env (300, 0) [] "b" 1
        (collectMetadata ["s", "b"] 0 (.file ⟨0,0,0,0,100,0,0,0,1⟩)) none
        (FsTree.dir zeroStat []) zeroStats =
      (FsTree.dir zeroStat [], zeroStats) ∧
    (∃ r, synchronize c8Env (300, 0) ⟨true⟩ ["s"] ["d"]
        (some (FsTree.dir zeroStat [("a", .dir zeroStat [])]))
        (some (FsTree.dir zeroStat [])) false = .ok r) :=
  ⟨rfl,
   C8_recoverable_failures.1 c8Env (300, 0) ["s"] 0 [] "a"
     (FsTree.dir zeroStat [("c", .file ⟨0,0,0,0,100,0,0,0,1⟩)])
     (FsTree.dir zeroStat []) zeroStats rfl,
   Or.inr rfl,
   C8_recoverable_failures.2.1 c8Env (300, 0) [] "b" 1
     (collectMetadata ["s", "b"] 0 (.file ⟨0,0,0,0,100,0,0,0,1⟩)) none
     (FsTree.dir zeroStat []) zeroStats (Or.inr rfl),
   C8_recoverable_failures.2.2 c8Env (300, 0) ⟨true⟩ ["s"] ["d"]
     (FsTree.dir zeroStat [("a", .dir zeroStat [])])
     (FsTree.dir zeroStat []) rfl rfl⟩

/-! Infrastructure for the prune stage: effects of the removal operations. -/

/-- A path lies within the subtree rooted at another (including the root
itself). -/
def within (p q : List String) : Prop := ∃ r, p = q ++ r

theorem lookup_append (d : FsTree) (q r : List String) :
    lookup d (q ++ r) =
      (match lookup d q with
       | some e => lookup e r
       | none => none) := by
  induction q generalizing d with
  | nil => simp [lookup_nil]
  | cons n q' ih =>
    rw [List.cons_append, lookup_cons, lookup_cons]
    cases childAt d n with
    | none => rfl
    | some c => exact ih c

/-- Relation between an entry before and after a removal elsewhere: gone
entries aside, a non-directory entry is untouched and a directory entry
keeps its own stat data (only its children may have changed). -/
def SameTop : Option FsTree → Option FsTree → Prop
  | none, none => True
  | some x, some y => topOf x = topOf y ∧ (isDirB x = false → x = y)
  | _, _ => False

theorem SameTop_refl (a : Option FsTree) : SameTop a a := by
  cases a with
  | none => trivial
  | some x => exact ⟨rfl, fun _ => rfl⟩

theorem SameTop_trans : ∀ {a b c : Option FsTree},
    SameTop a b → SameTop b c → SameTop a c
  | none, none, none, _, _ => trivial
  | none, none, some _, _, h2 => h2.elim
  | none, some _, _, h1, _ => h1.elim
  | some _, none, _, h1, _ => h1.elim
  | some _, some _, none, _, h2 => h2.elim
  | some x, some y, some z, h1, h2 =>
    ⟨h1.1.trans h2.1, fun hnd =>
      (h1.2 hnd).trans (h2.2 (by rw [← isDirB_of_topOf h1.1]; exact hnd))⟩

theorem hasKey_setKey (cs : List (String × FsTree)) (n k : String) (t : FsTree) :
    hasKey (setKey cs n t) k = (decide (k = n) || hasKey cs k) := by
  induction cs with
  | nil =>
    simp only [setKey, hasKey, Bool.or_false]
    rw [decide_eq_decide]
    exact eq_comm
  | cons e rest ih =>
    obtain ⟨m, u⟩ := e
    by_cases hm : m = n
    · subst hm
      by_cases hk : k = m
      · subst hk
        simp [setKey, hasKey]
      · simp [setKey, hasKey, hk, fun h : m = k => hk h.symm]
    · simp only [setKey, if_neg hm, hasKey, ih]
      cases hd1 : decide (k = n) <;> cases hd2 : decide (m = k) <;> simp

theorem hasKey_eraseKey_mono {cs : List (String × FsTree)} {n k : String}
    (h : hasKey (eraseKey cs n) k = true) : hasKey cs k = true := by
  induction cs with
  | nil => simp [eraseKey, hasKey] at h
  | cons e rest ih =>
    obtain ⟨m, u⟩ := e
    by_cases hm : m = n
    · subst hm
      simp [eraseKey] at h
      simp [hasKey, h]
    · rw [eraseKey, if_neg hm] at h
      simp only [hasKey, Bool.or_eq_true] at h ⊢
      rcases h with h | h
      · exact Or.inl h
      · exact Or.inr (ih h)

theorem wfL_eraseKey {cs : List (String × FsTree)} (n : String)
    (hwf : wfL cs = true) : wfL (eraseKey cs n) = true := by
  induction cs with
  | nil => simp [eraseKey, wfL]
  | cons e rest ih =>
    obtain ⟨m, u⟩ := e
    simp only [wfL, Bool.and_eq_true, Bool.not_eq_true'] at hwf
    by_cases hm : m = n
    · subst hm
      rw [eraseKey, if_pos rfl]
      exact hwf.2
    · rw [eraseKey, if_neg hm]
      simp only [wfL, Bool.and_eq_true, Bool.not_eq_true']
      refine ⟨⟨?_, hwf.1.2⟩, ih hwf.2⟩
      cases hk : hasKey (eraseKey rest n) m with
      | false => rfl
      | true => exact absurd (hasKey_eraseKey_mono hk) (by simp [hwf.1.1])

theorem wfL_setKey {cs : List (String × FsTree)} {t : FsTree} (n : String)
    (hwf : wfL cs = true) (hwt : wfT t = true) : wfL (setKey cs n t) = true := by
  induction cs with
  | nil => simp [setKey, wfL, hasKey, hwt]
  | cons e rest ih =>
    obtain ⟨m, u⟩ := e
    simp only [wfL, Bool.and_eq_true, Bool.not_eq_true'] at hwf
    by_cases hm : m = n
    · subst hm
      rw [setKey, if_pos rfl]
      simp only [wfL, Bool.and_eq_true, Bool.not_eq_true']
      exact ⟨⟨hwf.1.1, hwt⟩, hwf.2⟩
    · rw [setKey, if_neg hm]
      simp only [wfL, Bool.and_eq_true, Bool.not_eq_true']
      refine ⟨⟨?_, hwf.1.2⟩, ih hwf.2⟩
      rw [hasKey_setKey]
      simp [hwf.1.1, hm]

theorem setKey_assoc_same {cs : List (String × FsTree)} {n : String} {c : FsTree}
    (h : assoc cs n = some c) : setKey cs n c = cs := by
  induction cs with
  | nil => simp [assoc] at h
  | cons e rest ih =>
    obtain ⟨m, u⟩ := e
    by_cases hm : m = n
    · subst hm
      simp [assoc] at h
      simp [setKey, h]
    · simp only [assoc, if_neg hm] at h
      simp [setKey, hm, ih h]

/-- Well-formedness of the whole subtree found at a path. -/
theorem wfT_lookup {d : FsTree} (hwf : wfT d = true) :
    ∀ (p : List String) (e : FsTree), lookup d p = some e → wfT e = true := by
  intro p
  induction p generalizing d with
  | nil =>
    intro e he
    rw [lookup_nil, Option.some.injEq] at he
    exact he ▸ hwf
  | cons n p' ih =>
    intro e he
    rw [lookup_cons] at he
    cases d with
    | dir dd dcs =>
      cases hc : assoc dcs n with
      | none => simp [childAt, hc] at he
      | some c =>
        simp only [childAt, hc] at he
        exact ih (wfT_of_mem_wf hwf (mem_of_assoc hc)) e he
    | file fd => simp [childAt] at he
    | symlink sd b => simp [childAt] at he
    | other od => simp [childAt] at he

theorem assoc_eraseKey_self_wf {cs : List (String × FsTree)}
    (hwf : wfL cs = true) (n : String) : assoc (eraseKey cs n) n = none := by
  induction cs with
  | nil => rfl
  | cons e rest ih =>
    obtain ⟨m, u⟩ := e
    simp only [wfL, Bool.and_eq_true, Bool.not_eq_true'] at hwf
    by_cases hm : m = n
    · subst hm
      simp only [eraseKey, if_pos rfl]
      exact hasKey_false_assoc hwf.1.1
    · simp only [eraseKey, if_neg hm, assoc, if_neg hm]
      exact ih hwf.2

/-- Entries present after remove_all were already present, with the same
top; non-directories are untouched entirely. -/
theorem removeAllAt_from_input : ∀ (q : List String) (d : FsTree),
    wfT d = true →
    ∀ (p : List String) (e' : FsTree),
      lookup (removeAllAt d q).1 p = some e' →
      ∃ e, lookup d p = some e ∧ topOf e = topOf e' ∧ (isDirB e = false → e = e')
  | [], d, hwf, p, e', h => by
    have hd : ∀ t : FsTree, (removeAllAt t []).1 = t := by
      intro t
      cases t <;> rfl
    rw [hd d] at h
    exact ⟨e', h, rfl, fun _ => rfl⟩
  | [n], d, hwf, p, e', h => by
    cases d with
    | dir dd dcs =>
      have herase : lookup (FsTree.dir dd (eraseKey dcs n)) p = some e' →
          ∃ e, lookup (FsTree.dir dd dcs) p = some e ∧ topOf e = topOf e' ∧
            (isDirB e = false → e = e') := by
        intro hh
        cases p with
        | nil =>
          rw [lookup_nil, Option.some.injEq] at hh
          exact ⟨.dir dd dcs, rfl, by rw [← hh]; rfl, fun hf => by simp [isDirB] at hf⟩
        | cons m p' =>
          by_cases hm : m = n
          · subst hm
            rw [lookup_cons] at hh
            simp [childAt, assoc_eraseKey_self_wf hwf] at hh
          · rw [lookup_cons] at hh
            simp only [childAt, assoc_eraseKey_ne dcs n m (fun h2 => hm h2.symm)] at hh
            rw [lookup_cons]
            exact ⟨e', by simp only [childAt]; exact hh, rfl, fun _ => rfl⟩
      cases hc : assoc dcs n with
      | none =>
        simp only [removeAllAt, hc] at h
        exact ⟨e', h, rfl, fun _ => rfl⟩
      | some c =>
        simp only [removeAllAt, hc] at h
        exact herase h
    | file fd => exact ⟨e', h, rfl, fun _ => rfl⟩
    | symlink sd b => exact ⟨e', h, rfl, fun _ => rfl⟩
    | other od => exact ⟨e', h, rfl, fun _ => rfl⟩
  | n :: x :: xs, d, hwf, p, e', h => by
    cases d with
    | dir dd dcs =>
      cases hc : assoc dcs n with
      | none =>
        simp only [removeAllAt, hc] at h
        exact ⟨e', h, rfl, fun _ => rfl⟩
      | some c =>
        simp only [removeAllAt, hc] at h
        cases p with
        | nil =>
          rw [lookup_nil, Option.some.injEq] at h
          exact ⟨.dir dd dcs, rfl, by rw [← h]; rfl, fun hf => by simp [isDirB] at hf⟩
        | cons m p' =>
          by_cases hm : m = n
          · subst hm
            rw [lookup_cons] at h
            simp only [childAt, assoc_setKey_self] at h
            obtain ⟨e, he, ht, hnd⟩ := removeAllAt_from_input (x :: xs) c
              (wfT_of_mem_wf hwf (mem_of_assoc hc)) p' e' h
            refine ⟨e, ?_, ht, hnd⟩
            rw [lookup_cons]
            simp only [childAt, hc]
            exact he
          · rw [lookup_cons] at h
            simp only [childAt,
              assoc_setKey_ne dcs n m _ (fun h2 => hm h2.symm)] at h
            refine ⟨e', ?_, rfl, fun _ => rfl⟩
            rw [lookup_cons]
            simp only [childAt]
            exact h
    | file fd => exact ⟨e', h, rfl, fun _ => rfl⟩
    | symlink sd b => exact ⟨e', h, rfl, fun _ => rfl⟩
    | other od => exact ⟨e', h, rfl, fun _ => rfl⟩

/-- Entries present after remove were already present, with the same top;
non-directories are untouched entirely. -/
theorem removeAt_from_input : ∀ (q : List String) (d : FsTree),
    wfT d = true →
    ∀ (p : List String) (e' : FsTree),
      lookup (removeAt d q).1 p = some e' →
      ∃ e, lookup d p = some e ∧ topOf e = topOf e' ∧ (isDirB e = false → e = e')
  | [], d, hwf, p, e', h => by
    have hd : ∀ t : FsTree, (removeAt t []).1 = t := by
      intro t
      cases t <;> rfl
    rw [hd d] at h
    exact ⟨e', h, rfl, fun _ => rfl⟩
  | [n], d, hwf, p, e', h => by
    cases d with
    | dir dd dcs =>
      have herase : lookup (FsTree.dir dd (eraseKey dcs n)) p = some e' →
          ∃ e, lookup (FsTree.dir dd dcs) p = some e ∧ topOf e = topOf e' ∧
            (isDirB e = false → e = e') := by
        intro hh
        cases p with
        | nil =>
          rw [lookup_nil, Option.some.injEq] at hh
          exact ⟨.dir dd dcs, rfl, by rw [← hh]; rfl, fun hf => by simp [isDirB] at hf⟩
        | cons m p' =>
          by_cases hm : m = n
          · subst hm
            rw [lookup_cons] at hh
            simp [childAt, assoc_eraseKey_self_wf hwf] at hh
          · rw [lookup_cons] at hh
            simp only [childAt, assoc_eraseKey_ne dcs n m (fun h2 => hm h2.symm)] at hh
            rw [lookup_cons]
            exact ⟨e', by simp only [childAt]; exact hh, rfl, fun _ => rfl⟩
      cases hc : assoc dcs n with
      | none =>
        simp only [removeAt, hc] at h
        exact ⟨e', h, rfl, fun _ => rfl⟩
      | some c =>
        cases c with
        | dir cd ccs =>
          cases ccs with
          | nil =>
            simp only [removeAt, hc] at h
            exact herase h
          | cons c0 crest =>
            simp only [removeAt, hc] at h
            exact ⟨e', h, rfl, fun _ => rfl⟩
        | file fd =>
          simp only [removeAt, hc] at h
          exact herase h
        | symlink sd b =>
          simp only [removeAt, hc] at h
          exact herase h
        | other od =>
          simp only [removeAt, hc] at h
          exact herase h
    | file fd => exact ⟨e', h, rfl, fun _ => rfl⟩
    | symlink sd b => exact ⟨e', h, rfl, fun _ => rfl⟩
    | other od => exact ⟨e', h, rfl, fun _ => rfl⟩
  | n :: x :: xs, d, hwf, p, e', h => by
    cases d with
    | dir dd dcs =>
      cases hc : assoc dcs n with
      | none =>
        simp only [removeAt, hc] at h
        exact ⟨e', h, rfl, fun _ => rfl⟩
      | some c =>
        simp only [removeAt, hc] at h
        cases p with
        | nil =>
          rw [lookup_nil, Option.some.injEq] at h
          exact ⟨.dir dd dcs, rfl, by rw [← h]; rfl, fun hf => by simp [isDirB] at hf⟩
        | cons m p' =>
          by_cases hm : m = n
          · subst hm
            rw [lookup_cons] at h
            simp only [childAt, assoc_setKey_self] at h
            obtain ⟨e, he, ht, hnd⟩ := removeAt_from_input (x :: xs) c
              (wfT_of_mem_wf hwf (mem_of_assoc hc)) p' e' h
            refine ⟨e, ?_, ht, hnd⟩
            rw [lookup_cons]
            simp only [childAt, hc]
            exact he
          · rw [lookup_cons] at h
            simp only [childAt,
              assoc_setKey_ne dcs n m _ (fun h2 => hm h2.symm)] at h
            refine ⟨e', ?_, rfl, fun _ => rfl⟩
            rw [lookup_cons]
            simp only [childAt]
            exact h
    | file fd => exact ⟨e', h, rfl, fun _ => rfl⟩
    | symlink sd b => exact ⟨e', h, rfl, fun _ => rfl⟩
    | other od => exact ⟨e', h, rfl, fun _ => rfl⟩

/-- remove_all erases the whole subtree at its path: afterwards nothing is
present at the path or anywhere below it. -/
theorem removeAllAt_under_gone : ∀ (q : List String) (d : FsTree),
    wfT d = true → q ≠ [] →
    ∀ p, within p q → lookup (removeAllAt d q).1 p = none
  | [], d, hwf, hq, p, hp => absurd rfl hq
  | [n], d, hwf, hq, p, hp => by
    obtain ⟨r, rfl⟩ := hp
    cases d with
    | dir dd dcs =>
      cases hc : assoc dcs n with
      | none =>
        simp only [removeAllAt, hc]
        rw [List.cons_append, lookup_cons]
        simp [childAt, hc]
      | some c =>
        simp only [removeAllAt, hc]
        rw [List.cons_append, lookup_cons]
        simp [childAt, assoc_eraseKey_self_wf hwf]
    | file fd =>
      rw [List.cons_append]
      rfl
    | symlink sd b =>
      rw [List.cons_append]
      rfl
    | other od =>
      rw [List.cons_append]
      rfl
  | n :: x :: xs, d, hwf, hq, p, hp => by
    obtain ⟨r, rfl⟩ := hp
    cases d with
    | dir dd dcs =>
      cases hc : assoc dcs n with
      | none =>
        simp only [removeAllAt, hc]
        rw [List.cons_append, lookup_cons]
        simp [childAt, hc]
      | some c =>
        simp only [removeAllAt, hc]
        rw [List.cons_append, lookup_cons]
        simp only [childAt, assoc_setKey_self]
        exact removeAllAt_under_gone (x :: xs) c
          (wfT_of_mem_wf hwf (mem_of_assoc hc)) (by simp) (x :: xs ++ r) ⟨r, rfl⟩
    | file fd =>
      rw [List.cons_append]
      rfl
    | symlink sd b =>
      rw [List.cons_append]
      rfl
    | other od =>
      rw [List.cons_append]
      rfl

/-- remove succeeds on a present non-directory entry: the entry is gone
afterwards and one removal is reported. -/
theorem removeAt_gone : ∀ (q : List String) (d : FsTree),
    wfT d = true → q ≠ [] →
    ∀ e, lookup d q = some e → isDirB e = false →
    lookup (removeAt d q).1 q = none ∧ (removeAt d q).2 = true
  | [], d, hwf, hq, e, hl, hnd => absurd rfl hq
  | [n], d, hwf, hq, e, hl, hnd => by
    cases d with
    | dir dd dcs =>
      rw [lookup_cons] at hl
      cases hc : assoc dcs n with
      | none => simp [childAt, hc] at hl
      | some c =>
        simp only [childAt, hc, lookup_nil, Option.some.injEq] at hl
        subst hl
        cases c with
        | dir cd ccs => simp [isDirB] at hnd
        | file fd =>
          simp only [removeAt, hc]
          refine ⟨?_, by trivial⟩
          rw [lookup_cons]
          simp [childAt, assoc_eraseKey_self_wf hwf]
        | symlink sd b =>
          simp only [removeAt, hc]
          refine ⟨?_, by trivial⟩
          rw [lookup_cons]
          simp [childAt, assoc_eraseKey_self_wf hwf]
        | other od =>
          simp only [removeAt, hc]
          refine ⟨?_, by trivial⟩
          rw [lookup_cons]
          simp [childAt, assoc_eraseKey_self_wf hwf]
    | file fd => simp [lookup_cons, childAt] at hl
    | symlink sd b => simp [lookup_cons, childAt] at hl
    | other od => simp [lookup_cons, childAt] at hl
  | n :: x :: xs, d, hwf, hq, e, hl, hnd => by
    cases d with
    | dir dd dcs =>
      rw [lookup_cons] at hl
      cases hc : assoc dcs n with
      | none => simp [childAt, hc] at hl
      | some c =>
        simp only [childAt, hc] at hl
        have := removeAt_gone (x :: xs) c
          (wfT_of_mem_wf hwf (mem_of_assoc hc)) (by simp) e hl hnd
        simp only [removeAt, hc]
        refine ⟨?_, this.2⟩
        rw [lookup_cons]
        simp only [childAt, assoc_setKey_self]
        exact this.1
    | file fd => simp [lookup_cons, childAt] at hl
    | symlink sd b => simp [lookup_cons, childAt] at hl
    | other od => simp [lookup_cons, childAt] at hl

/-- remove_all preserves well-formedness. -/
theorem removeAllAt_wf : ∀ (q : List String) (d : FsTree),
    wfT d = true → wfT (removeAllAt d q).1 = true
  | [], d, hwf => by
    have hd : ∀ t : FsTree, (removeAllAt t []).1 = t := by
      intro t
      cases t <;> rfl
    rw [hd d]
    exact hwf
  | [n], d, hwf => by
    cases d with
    | dir dd dcs =>
      cases hc : assoc dcs n with
      | none =>
        simp only [removeAllAt, hc]
        exact hwf
      | some c =>
        simp only [removeAllAt, hc]
        exact wfL_eraseKey n hwf
    | file fd => exact hwf
    | symlink sd b => exact hwf
    | other od => exact hwf
  | n :: x :: xs, d, hwf => by
    cases d with
    | dir dd dcs =>
      cases hc : assoc dcs n with
      | none =>
        simp only [removeAllAt, hc]
        exact hwf
      | some c =>
        simp only [removeAllAt, hc]
        exact wfL_setKey n hwf
          (removeAllAt_wf (x :: xs) c (wfT_of_mem_wf hwf (mem_of_assoc hc)))
    | file fd => exact hwf
    | symlink sd b => exact hwf
    | other od => exact hwf

/-- remove preserves well-formedness. -/
theorem removeAt_wf : ∀ (q : List String) (d : FsTree),
    wfT d = true → wfT (removeAt d q).1 = true
  | [], d, hwf => by
    have hd : ∀ t : FsTree, (removeAt t []).1 = t := by
      intro t
      cases t <;> rfl
    rw [hd d]
    exact hwf
  | [n], d, hwf => by
    cases d with
    | dir dd dcs =>
      cases hc : assoc dcs n with
      | none =>
        simp only [removeAt, hc]
        exact hwf
      | some c =>
        cases c with
        | dir cd ccs =>
          cases ccs with
          | nil =>
            simp only [removeAt, hc]
            exact wfL_eraseKey n hwf
          | cons c0 crest =>
            simp only [removeAt, hc]
            exact hwf
        | file fd =>
          simp only [removeAt, hc]
          exact wfL_eraseKey n hwf
        | symlink sd b =>
          simp only [removeAt, hc]
          exact wfL_eraseKey n hwf
        | other od =>
          simp only [removeAt, hc]
          exact wfL_eraseKey n hwf
    | file fd => exact hwf
    | symlink sd b => exact hwf
    | other od => exact hwf
  | n :: x :: xs, d, hwf => by
    cases d with
    | dir dd dcs =>
      cases hc : assoc dcs n with
      | none =>
        simp only [removeAt, hc]
        exact hwf
      | some c =>
        simp only [removeAt, hc]
        exact wfL_setKey n hwf
          (removeAt_wf (x :: xs) c (wfT_of_mem_wf hwf (mem_of_assoc hc)))
    | file fd => exact hwf
    | symlink sd b => exact hwf
    | other od => exact hwf

/-- Outside the removed subtree, remove_all changes no entry's own value
except that directories on the removal path may lose children. -/
theorem removeAllAt_frame : ∀ (q : List String) (d : FsTree),
    ∀ p, ¬ within p q → SameTop (lookup d p) (lookup (removeAllAt d q).1 p)
  | [], d, p, hp => by
    have hd : ∀ t : FsTree, (removeAllAt t []).1 = t := by
      intro t
      cases t <;> rfl
    rw [hd d]
    exact SameTop_refl _
  | [n], d, p, hp => by
    cases d with
    | dir dd dcs =>
      cases hc : assoc dcs n with
      | none =>
        simp only [removeAllAt, hc]
        exact SameTop_refl _
      | some c =>
        simp only [removeAllAt, hc]
        cases p with
        | nil => exact ⟨rfl, fun hf => by simp [isDirB] at hf⟩
        | cons m p' =>
          by_cases hm : m = n
          · subst hm
            exact absurd ⟨p', rfl⟩ hp
          · rw [lookup_cons, lookup_cons]
            simp only [childAt, assoc_eraseKey_ne dcs n m (fun h2 => hm h2.symm)]
            exact SameTop_refl _
    | file fd => exact SameTop_refl _
    | symlink sd b => exact SameTop_refl _
    | other od => exact SameTop_refl _
  | n :: x :: xs, d, p, hp => by
    cases d with
    | dir dd dcs =>
      cases hc : assoc dcs n with
      | none =>
        simp only [removeAllAt, hc]
        exact SameTop_refl _
      | some c =>
        simp only [removeAllAt, hc]
        cases p with
        | nil => exact ⟨rfl, fun hf => by simp [isDirB] at hf⟩
        | cons m p' =>
          by_cases hm : m = n
          · subst hm
            rw [lookup_cons, lookup_cons]
            simp only [childAt, assoc_setKey_self, hc]
            refine removeAllAt_frame (x :: xs) c p' ?_
            intro ⟨r, hr⟩
            exact hp ⟨r, by rw [hr]; rfl⟩
          · rw [lookup_cons, lookup_cons]
            simp only [childAt, assoc_setKey_ne dcs n m _ (fun h2 => hm h2.symm)]
            exact SameTop_refl _
    | file fd => exact SameTop_refl _
    | symlink sd b => exact SameTop_refl _
    | other od => exact SameTop_refl _

/-- Outside the removed path, remove changes no entry's own value except
that directories on the removal path may lose children. -/
theorem removeAt_frame : ∀ (q : List String) (d : FsTree),
    ∀ p, ¬ within p q → SameTop (lookup d p) (lookup (removeAt d q).1 p)
  | [], d, p, hp => by
    have hd : ∀ t : FsTree, (removeAt t []).1 = t := by
      intro t
      cases t <;> rfl
    rw [hd d]
    exact SameTop_refl _
  | [n], d, p, hp => by
    cases d with
    | dir dd dcs =>
      have herase :
          SameTop (lookup (FsTree.dir dd dcs) p)
            (lookup (FsTree.dir dd (eraseKey dcs n)) p) := by
        cases p with
        | nil => exact ⟨rfl, fun hf => by simp [isDirB] at hf⟩
        | cons m p' =>
          by_cases hm : m = n
          · subst hm
            exact absurd ⟨p', rfl⟩ hp
          · rw [lookup_cons, lookup_cons]
            simp only [childAt, assoc_eraseKey_ne dcs n m (fun h2 => hm h2.symm)]
            exact SameTop_refl _
      cases hc : assoc dcs n with
      | none =>
        simp only [removeAt, hc]
        exact SameTop_refl _
      | some c =>
        cases c with
        | dir cd ccs =>
          cases ccs with
          | nil =>
            simp only [removeAt, hc]
            exact herase
          | cons c0 crest =>
            simp only [removeAt, hc]
            exact SameTop_refl _
        | file fd =>
          simp only [removeAt, hc]
          exact herase
        | symlink sd b =>
          simp only [removeAt, hc]
          exact herase
        | other od =>
          simp only [removeAt, hc]
          exact herase
    | file fd => exact SameTop_refl _
    | symlink sd b => exact SameTop_refl _
    | other od => exact SameTop_refl _
  | n :: x :: xs, d, p, hp => by
    cases d with
    | dir dd dcs =>
      cases hc : assoc dcs n with
      | none =>
        simp only [removeAt, hc]
        exact SameTop_refl _
      | some c =>
        simp only [removeAt, hc]
        cases p with
        | nil => exact ⟨rfl, fun hf => by simp [isDirB] at hf⟩
        | cons m p' =>
          by_cases hm : m = n
          · subst hm
            rw [lookup_cons, lookup_cons]
            simp only [childAt, assoc_setKey_self, hc]
            refine removeAt_frame (x :: xs) c p' ?_
            intro ⟨r, hr⟩
            exact hp ⟨r, by rw [hr]; rfl⟩
          · rw [lookup_cons, lookup_cons]
            simp only [childAt, assoc_setKey_ne dcs n m _ (fun h2 => hm h2.symm)]
            exact SameTop_refl _
    | file fd => exact SameTop_refl _
    | symlink sd b => exact SameTop_refl _
    | other od => exact SameTop_refl _

theorem pruneStep_wf (env : Env) (d : FsTree) (c : RemovalCandidate)
    (hwf : wfT d = true) : wfT (pruneStep env d c).1 = true := by
  unfold pruneStep
  split
  · split
    · exact hwf
    · exact removeAllAt_wf c.path d hwf
  · split
    · exact hwf
    · exact removeAt_wf c.path d hwf

theorem pruneStep_from_input (env : Env) (d : FsTree) (c : RemovalCandidate)
    (hwf : wfT d = true) (p : List String) (e' : FsTree)
    (h : lookup (pruneStep env d c).1 p = some e') :
    ∃ e, lookup d p = some e ∧ topOf e = topOf e' ∧ (isDirB e = false → e = e') := by
  unfold pruneStep at h
  split at h
  · split at h
    · exact ⟨e', h, rfl, fun _ => rfl⟩
    · exact removeAllAt_from_input c.path d hwf p e' h
  · split at h
    · exact ⟨e', h, rfl, fun _ => rfl⟩
    · exact removeAt_from_input c.path d hwf p e' h

theorem pruneStep_frame (env : Env) (d : FsTree) (c : RemovalCandidate)
    (p : List String) (hp : ¬ within p c.path) :
    SameTop (lookup d p) (lookup (pruneStep env d c).1 p) := by
  unfold pruneStep
  split
  · split
    · exact SameTop_refl _
    · exact removeAllAt_frame c.path d p hp
  · split
    · exact SameTop_refl _
    · exact removeAt_frame c.path d p hp

theorem pruneRemove_wf (env : Env) : ∀ (l : List RemovalCandidate) (d : FsTree),
    wfT d = true → wfT (pruneRemove env d l).1 = true
  | [], d, hwf => hwf
  | c :: rest, d, hwf => by
    unfold pruneRemove
    exact pruneRemove_wf env rest _ (pruneStep_wf env d c hwf)

theorem pruneRemove_from_input (env : Env) :
    ∀ (l : List RemovalCandidate) (d : FsTree), wfT d = true →
    ∀ (p : List String) (e' : FsTree),
      lookup (pruneRemove env d l).1 p = some e' →
      ∃ e, lookup d p = some e ∧ topOf e = topOf e' ∧ (isDirB e = false → e = e')
  | [], d, hwf, p, e', h => ⟨e', h, rfl, fun _ => rfl⟩
  | c :: rest, d, hwf, p, e', h => by
    unfold pruneRemove at h
    obtain ⟨e1, he1, ht1, hn1⟩ := pruneRemove_from_input env rest
      (pruneStep env d c).1 (pruneStep_wf env d c hwf) p e' h
    obtain ⟨e0, he0, ht0, hn0⟩ := pruneStep_from_input env d c hwf p e1 he1
    refine ⟨e0, he0, ht0.trans ht1, fun hnd => ?_⟩
    rw [hn0 hnd]
    exact hn1 (by rw [← isDirB_of_topOf ht0]; exact hnd)

theorem pruneRemove_none (env : Env) (l : List RemovalCandidate) (d : FsTree)
    (hwf : wfT d = true) (p : List String) (hnone : lookup d p = none) :
    lookup (pruneRemove env d l).1 p = none := by
  cases h : lookup (pruneRemove env d l).1 p with
  | none => rfl
  | some e' =>
    obtain ⟨e, he, _, _⟩ := pruneRemove_from_input env l d hwf p e' h
    rw [hnone] at he
    exact Option.noConfusion he

theorem pruneRemove_frame (env : Env) :
    ∀ (l : List RemovalCandidate) (d : FsTree) (p : List String),
      (∀ c ∈ l, ¬ within p c.path) →
      SameTop (lookup d p) (lookup (pruneRemove env d l).1 p)
  | [], d, p, _ => SameTop_refl _
  | c :: rest, d, p, hall => by
    unfold pruneRemove
    refine SameTop_trans (pruneStep_frame env d c p (hall c (by simp))) ?_
    exact pruneRemove_frame env rest _ p (fun c' hc' => hall c' (by simp [hc']))

/-- Processing a candidate list in the all-success environment removes
every listed entry: directory candidates via remove_all, and the rest via
remove, which succeeds because the entry is still the recorded
non-directory (or already gone) when its turn comes. -/
theorem pruneRemove_gone :
    ∀ (l : List RemovalCandidate) (d : FsTree), wfT d = true →
    ∀ c ∈ l, c.path ≠ [] →
    (c.is_directory = false →
      lookup d c.path = none ∨
        ∃ e, lookup d c.path = some e ∧ isDirB e = false) →
    lookup (pruneRemove okEnv d l).1 c.path = none
  | [], d, hwf, c, hc, _, _ => absurd hc (by simp)
  | c0 :: rest, d, hwf, c, hc, hne, hcond => by
    have hwf1 : wfT (pruneStep okEnv d c0).1 = true := pruneStep_wf okEnv d c0 hwf
    rcases List.mem_cons.mp hc with rfl | hc
    · -- the head candidate is removed by its own step and stays gone
      unfold pruneRemove
      refine pruneRemove_none okEnv rest _ hwf1 c.path ?_
      unfold pruneStep
      cases hdir : c.is_directory with
      | true =>
        simp only [hdir, if_true, okEnv, Bool.false_eq_true, if_false]
        exact removeAllAt_under_gone c.path d hwf hne c.path ⟨[], by simp⟩
      | false =>
        simp only [hdir, okEnv, Bool.false_eq_true, if_false]
        rcases hcond hdir with hnone | ⟨e, he, hnd⟩
        · cases h : lookup (removeAt d c.path).1 c.path with
          | none => rfl
          | some e' =>
            obtain ⟨e, he, _, _⟩ := removeAt_from_input c.path d hwf c.path e' h
            rw [hnone] at he
            exact Option.noConfusion he
        · exact (removeAt_gone c.path d hwf hne e he hnd).1
    · -- a later candidate: transport its precondition through the head step
      unfold pruneRemove
      refine pruneRemove_gone rest (pruneStep okEnv d c0).1 hwf1 c hc hne ?_
      intro hdir
      rcases hcond hdir with hnone | ⟨e, he, hnd⟩
      · left
        cases h : lookup (pruneStep okEnv d c0).1 c.path with
        | none => rfl
        | some e' =>
          obtain ⟨e, he, _, _⟩ := pruneStep_from_input okEnv d c0 hwf c.path e' h
          rw [hnone] at he
          exact Option.noConfusion he
      · cases h : lookup (pruneStep okEnv d c0).1 c.path with
        | none => exact Or.inl rfl
        | some e' =>
          obtain ⟨e2, he2, ht2, hn2⟩ := pruneStep_from_input okEnv d c0 hwf c.path e' h
          rw [he] at he2
          rw [Option.some.injEq] at he2
          subst he2
          refine Or.inr ⟨e', rfl, ?_⟩
          rw [← isDirB_of_topOf ht2]
          exact hnd

theorem srcLook_hasKey {cs : List (String × FsTree)} {m : String}
    {t' : List String} {e : FsTree} (h : srcLook cs (m :: t') = some e) :
    hasKey cs m = true := by
  rw [srcLook_cons] at h
  cases hal : assoc cs m with
  | none => rw [hal] at h; exact Option.noConfusion h
  | some c => exact hasKey_of_mem (mem_of_assoc hal)

mutual

/-- Soundness of candidate discovery below one destination entry: every
candidate maps to a present, non-symlink destination entry with no source
counterpart, with the directory flag matching the entry's kind. -/
theorem pruneTree_sound (env : Env) (srcT : FsTree) (rootLen : Nat) :
    ∀ (t : FsTree) (rel : List String) (n : String), wfT t = true →
      ∀ c ∈ pruneTree env srcT rootLen rel n t,
        (lookup srcT c.path).isSome = false ∧
        ∃ tail, c.path = rel ++ tail ∧ tail ≠ [] ∧
          ∃ e, srcLook [(n, t)] tail = some e ∧ isDirB e = c.is_directory ∧
            isSymlinkB e = false
  | .symlink sd b, rel, n => by
    intro _ c hc
    simp only [pruneTree] at hc
    split at hc <;> simp at hc
  | .file fd, rel, n => by
    intro _ c hc
    simp only [pruneTree] at hc
    split at hc
    · simp at hc
    · split at hc
      · simp at hc
      · simp only [List.append_nil] at hc
        split at hc
        · simp at hc
        · simp only [List.mem_singleton] at hc
          subst hc
          refine ⟨by rename_i hsrc; simp [hsrc], [n], rfl, by simp, .file fd,
            srcLook_single_self n _ [], rfl, rfl⟩
  | .other od, rel, n => by
    intro _ c hc
    simp only [pruneTree] at hc
    split at hc
    · simp at hc
    · split at hc
      · simp at hc
      · simp only [List.append_nil] at hc
        split at hc
        · simp at hc
        · simp only [List.mem_singleton] at hc
          subst hc
          refine ⟨by rename_i hsrc; simp [hsrc], [n], rfl, by simp, .other od,
            srcLook_single_self n _ [], rfl, rfl⟩
  | .dir dd dcs, rel, n => by
    intro hwf c hc
    simp only [pruneTree] at hc
    split at hc
    · simp at hc
    · split at hc
      · simp at hc
      · rcases List.mem_append.mp hc with hc | hc
        · split at hc
          · simp at hc
          · simp only [List.mem_singleton] at hc
            subst hc
            refine ⟨by rename_i hsrc; simp [hsrc], [n], rfl, by simp,
              .dir dd dcs, srcLook_single_self n _ [], rfl, rfl⟩
        · obtain ⟨hsrc, tail, hpath, hne, e, hlook, hdir, hsym⟩ :=
            pruneList_sound env srcT rootLen dcs (rel ++ [n]) hwf c hc
          refine ⟨hsrc, n :: tail, by rw [hpath]; simp, by simp, e, ?_, hdir, hsym⟩
          rw [srcLook_single_self]
          cases tail with
          | nil => exact absurd rfl hne
          | cons x xs =>
            rw [lookup_dir_stat_irrel dd zeroStat dcs (x :: xs) (by simp)]
            exact hlook

/-- Soundness of candidate discovery over a well-formed sibling list. -/
theorem pruneList_sound (env : Env) (srcT : FsTree) (rootLen : Nat) :
    ∀ (dcs : List (String × FsTree)) (rel : List String), wfL dcs = true →
      ∀ c ∈ pruneList env srcT rootLen rel dcs,
        (lookup srcT c.path).isSome = false ∧
        ∃ tail, c.path = rel ++ tail ∧ tail ≠ [] ∧
          ∃ e, srcLook dcs tail = some e ∧ isDirB e = c.is_directory ∧
            isSymlinkB e = false
  | [], rel => by
    intro _ c hc
    simp [pruneList] at hc
  | (n, t) :: rest, rel => by
    intro hwf c hc
    simp only [wfL, Bool.and_eq_true, Bool.not_eq_true'] at hwf
    simp only [pruneList] at hc
    rcases List.mem_append.mp hc with hc | hc
    · obtain ⟨hsrc, tail, hpath, hne, e, hlook, hdir, hsym⟩ :=
        pruneTree_sound env srcT rootLen t rel n hwf.1.2 c hc
      cases tail with
      | nil => exact absurd rfl hne
      | cons m t' =>
        have hm : m = n := by
          by_contra hne2
          rw [srcLook_single_ne n m t t' (fun h2 => hne2 h2.symm)] at hlook
          exact Option.noConfusion hlook
        subst hm
        rw [srcLook_single_self] at hlook
        refine ⟨hsrc, m :: t', hpath, by simp, e, ?_, hdir, hsym⟩
        rw [srcLook_cons, assoc_cons_self]
        exact hlook
    · obtain ⟨hsrc, tail, hpath, hne, e, hlook, hdir, hsym⟩ :=
        pruneList_sound env srcT rootLen rest rel hwf.2 c hc
      cases tail with
      | nil => exact absurd rfl hne
      | cons m t' =>
        by_cases hm : m = n
        · subst hm
          exact absurd (srcLook_hasKey hlook) (by simp [hwf.1.1])
        · refine ⟨hsrc, m :: t', hpath, by simp, e, ?_, hdir, hsym⟩
          rw [srcLook_cons, assoc_cons_ne (fun h2 => hm h2.symm) t rest]
          rw [srcLook_cons] at hlook
          exact hlook

end

mutual

/-- Completeness of candidate discovery below one destination entry in the
all-success environment: every non-symlink entry with no source counterpart
is collected, with its full-path depth and directory flag. -/
theorem pruneTree_complete (srcT : FsTree) (rootLen : Nat) :
    ∀ (t : FsTree) (rel : List String) (n : String) (tail : List String)
      (e : FsTree),
      srcLook [(n, t)] (n :: tail) = some e → isSymlinkB e = false →
      lookup srcT (rel ++ n :: tail) = none →
      (⟨rel ++ n :: tail, isDirB e, rootLen + (rel ++ n :: tail).length⟩ :
        RemovalCandidate) ∈ pruneTree okEnv srcT rootLen rel n t
  | .symlink sd b, rel, n, tail, e => by
    intro hlook hsym hsrc
    rw [srcLook_single_self] at hlook
    cases tail with
    | nil =>
      rw [lookup_nil, Option.some.injEq] at hlook
      subst hlook
      simp [isSymlinkB] at hsym
    | cons x xs => simp [lookup] at hlook
  | .file fd, rel, n, tail, e => by
    intro hlook hsym hsrc
    rw [srcLook_single_self] at hlook
    cases tail with
    | nil =>
      rw [lookup_nil, Option.some.injEq] at hlook
      subst hlook
      simp only [pruneTree, okEnv, Bool.false_eq_true, if_false]
      rw [List.append_nil, hsrc]
      simp [isDirB]
    | cons x xs => simp [lookup] at hlook
  | .other od, rel, n, tail, e => by
    intro hlook hsym hsrc
    rw [srcLook_single_self] at hlook
    cases tail with
    | nil =>
      rw [lookup_nil, Option.some.injEq] at hlook
      subst hlook
      simp only [pruneTree, okEnv, Bool.false_eq_true, if_false]
      rw [List.append_nil, hsrc]
      simp [isDirB]
    | cons x xs => simp [lookup] at hlook
  | .dir dd dcs, rel, n, tail, e => by
    intro hlook hsym hsrc
    rw [srcLook_single_self] at hlook
    cases tail with
    | nil =>
      rw [lookup_nil, Option.some.injEq] at hlook
      subst hlook
      simp only [pruneTree, okEnv, Bool.false_eq_true, if_false]
      rw [hsrc]
      simp [isDirB]
    | cons x xs =>
      have hlook' : srcLook dcs (x :: xs) = some e := by
        have hx := hlook
        rw [lookup_dir_stat_irrel dd zeroStat dcs (x :: xs) (by simp)] at hx
        exact hx
      have := pruneList_complete srcT rootLen dcs (rel ++ [n]) (x :: xs) e
        (by simp) hlook' hsym (by simpa using hsrc)
      simp only [pruneTree, okEnv, Bool.false_eq_true, if_false]
      refine List.mem_append.mpr (Or.inr ?_)
      simpa using this

/-- Completeness of candidate discovery over a sibling list in the
all-success environment. -/
theorem pruneList_complete (srcT : FsTree) (rootLen : Nat) :
    ∀ (dcs : List (String × FsTree)) (rel : List String) (tail : List String)
      (e : FsTree),
      tail ≠ [] →
      srcLook dcs tail = some e → isSymlinkB e = false →
      lookup srcT (rel ++ tail) = none →
      (⟨rel ++ tail, isDirB e, rootLen + (rel ++ tail).length⟩ :
        RemovalCandidate) ∈ pruneList okEnv srcT rootLen rel dcs
  | [], rel, tail, e => by
    intro hne hlook hsym hsrc
    cases tail with
    | nil => exact absurd rfl hne
    | cons x xs => simp [srcLook_cons, assoc] at hlook
  | (m, u) :: rest, rel, tail, e => by
    intro hne hlook hsym hsrc
    cases tail with
    | nil => exact absurd rfl hne
    | cons x xs =>
      by_cases hx : m = x
      · subst hx
        have hlook1 : srcLook [(m, u)] (m :: xs) = some e := by
          rw [srcLook_single_self]
          rw [srcLook_cons, assoc_cons_self] at hlook
          exact hlook
        simp only [pruneList]
        exact List.mem_append.mpr (Or.inl
          (pruneTree_complete srcT rootLen u rel m xs e hlook1 hsym hsrc))
      · have hlook1 : srcLook rest (x :: xs) = some e := by
          rw [srcLook_cons, assoc_cons_ne hx u rest] at hlook
          rw [srcLook_cons]
          exact hlook
        simp only [pruneList]
        exact List.mem_append.mpr (Or.inr
          (pruneList_complete srcT rootLen rest rel (x :: xs) e (by simp)
            hlook1 hsym hsrc))

end

theorem setChild_wf {dctx x : FsTree} (n : String) (hwf : wfT dctx = true)
    (hwx : wfT x = true) : wfT (setChild dctx n x) = true := by
  cases dctx with
  | dir dd dcs => exact wfL_setKey n hwf hwx
  | file fd => exact hwf
  | symlink sd b => exact hwf
  | other od => exact hwf

theorem removeChild_wf {dctx : FsTree} (n : String) (hwf : wfT dctx = true) :
    wfT (removeChild dctx n) = true := by
  cases dctx with
  | dir dd dcs => exact wfL_eraseKey n hwf
  | file fd => exact hwf
  | symlink sd b => exact hwf
  | other od => exact hwf

theorem performCopy_wf (env : Env) (now : Nat × Nat) (rel : List String)
    (n : String) (sz : Nat) (m : FileMetadata) (th : Option FsTree)
    (dctx : FsTree) (stats : SyncStats) (hwf : wfT dctx = true)
    (hth : ∀ c, th = some c → wfT c = true) :
    wfT (performCopy env now rel n sz m th dctx stats).1 = true := by
  unfold performCopy
  split
  · split
    · exact hwf
    · refine setChild_wf n hwf ?_
      cases th with
      | none => rfl
      | some c => exact hth c rfl
  · exact hwf

theorem copyFileEntry_wf (env : Env) (now : Nat × Nat) (rel : List String)
    (n : String) (d : StatData) (m : FileMetadata) (dctx : FsTree)
    (stats : SyncStats) (hwf : wfT dctx = true) :
    wfT (copyFileEntry env now rel n d m dctx stats).1 = true := by
  unfold copyFileEntry
  cases hc : childAt dctx n with
  | none =>
    exact performCopy_wf env now rel n d.size m none dctx stats hwf
      (fun c h => Option.noConfusion h)
  | some c =>
    dsimp only
    by_cases hreg : isRegularView c = true
    · rw [if_pos hreg]
      by_cases hsf : env.statFailDst (rel ++ [n]) = true
      · rw [if_pos hsf]
        refine performCopy_wf env now rel n d.size m _ dctx stats hwf ?_
        intro c2 h2
        cases c with
        | symlink sd b =>
          simp only [Option.some.injEq] at h2
          subst h2
          rfl
        | file fd => exact Option.noConfusion h2
        | dir dd dcs => exact Option.noConfusion h2
        | other od => exact Option.noConfusion h2
      · rw [if_neg hsf]
        cases c with
        | symlink sd b =>
          dsimp only
          by_cases hrf : env.removeFail (rel ++ [n]) = true
          · rw [if_pos hrf]
            exact hwf
          · rw [if_neg hrf]
            exact performCopy_wf env now rel n d.size m none _ stats
              (removeChild_wf n hwf) (fun c h => Option.noConfusion h)
        | file d' =>
          dsimp only
          by_cases hsc : shouldCopy d d' = true
          · rw [if_pos hsc]
            exact performCopy_wf env now rel n d.size m none dctx stats hwf
              (fun c h => Option.noConfusion h)
          · rw [if_neg hsc]
            exact hwf
        | dir dd dcs => exact hwf
        | other od => exact hwf
    · rw [if_neg hreg]
      by_cases hra : env.removeAllFail (rel ++ [n]) = true
      · rw [if_pos hra]
        exact hwf
      · rw [if_neg hra]
        exact performCopy_wf env now rel n d.size m none _ stats
          (removeChild_wf n hwf) (fun c h => Option.noConfusion h)

mutual

/-- The copy stage preserves destination well-formedness. -/
theorem copyTree_wf (env : Env) (now : Nat × Nat) (srcRoot : List String) :
    ∀ (t : FsTree) (depth : Nat) (rel : List String) (n : String)
      (dctx : FsTree) (stats : SyncStats), wfT dctx = true →
      wfT (copyTree env now srcRoot depth rel n t dctx stats).1 = true
  | .symlink sd b, depth, rel, n, dctx, stats, hwf => by
    rw [copyTree_symlink_fst]
    exact hwf
  | .other od, depth, rel, n, dctx, stats, hwf => by
    rw [copyTree_other_fst]
    exact hwf
  | .file d, depth, rel, n, dctx, stats, hwf => by
    unfold copyTree
    split
    · exact hwf
    · dsimp only
      split
      · exact hwf
      · exact copyFileEntry_wf env now rel n d _ dctx _ hwf
  | .dir dd cs', depth, rel, n, dctx, stats, hwf => by
    unfold copyTree
    split
    · exact hwf
    · dsimp only
      split
      · exact hwf
      · cases hch : childAt dctx n with
        | some c =>
          dsimp only
          refine setChild_wf n hwf ?_
          refine copyList_wf env now srcRoot cs' (depth + 1) (rel ++ [n]) c _ ?_
          cases dctx with
          | dir ddd dcs =>
            exact wfT_of_mem_wf hwf (mem_of_assoc hch)
          | file fd => exact Option.noConfusion hch
          | symlink sd b => exact Option.noConfusion hch
          | other od => exact Option.noConfusion hch
        | none =>
          dsimp only
          split
          · refine setChild_wf n hwf ?_
            exact copyList_wf env now srcRoot cs' (depth + 1) (rel ++ [n])
              (FsTree.dir (createdDirStat now) []) _ rfl
          · exact hwf

/-- The copy stage preserves destination well-formedness (sibling lists). -/
theorem copyList_wf (env : Env) (now : Nat × Nat) (srcRoot : List String) :
    ∀ (cs : List (String × FsTree)) (depth : Nat) (rel : List String)
      (dctx : FsTree) (stats : SyncStats), wfT dctx = true →
      wfT (copyList env now srcRoot depth rel cs dctx stats).1 = true
  | [], depth, rel, dctx, stats, hwf => hwf
  | (n, t) :: rest, depth, rel, dctx, stats, hwf => by
    unfold copyList
    exact copyList_wf env now srcRoot rest depth rel _ _
      (copyTree_wf env now srcRoot t depth rel n dctx stats hwf)

end

theorem isSymlinkB_of_topOf {a b : FsTree} (h : topOf a = topOf b) :
    isSymlinkB a = isSymlinkB b := by
  cases a <;> cases b <;> first
    | rfl
    | (simp [topOf, kindOf] at h)

theorem isSome_false_eq_none {o : Option FsTree} (h : o.isSome = false) :
    o = none := by
  cases o with
  | none => rfl
  | some x => simp at h

/-- Counterexample to claim C2 as stated: a destination symlink with no
source counterpart survives a pruning run — the prune stage skips symlinks
(sync.cpp:235-239), so it is not absent afterwards. -/
theorem C2_counterexample :
    (lookup (FsTree.dir zeroStat [("lnk", .symlink ⟨0,0,0,0,7,0,0,0,0⟩ true)])
      ["lnk"]).isSome = true ∧
    (lookup (FsTree.dir zeroStat ([] : List (String × FsTree))) ["lnk"]).isSome
      = false ∧
    (synchronize okEnv (300, 0) ⟨true⟩ ["s"] ["d"]
        (some (FsTree.dir zeroStat ([] : List (String × FsTree))))
        (some (FsTree.dir zeroStat [("lnk", .symlink ⟨0,0,0,0,7,0,0,0,0⟩ true)]))
        false).map
      (fun r => (lookup r.1 ["lnk"]).isSome) = .ok true :=
  ⟨rfl, rfl, rfl⟩

/-- Claim C2, amended: with pruning enabled on well-formed directory roots
in the all-success environment, every NON-SYMLINK destination entry whose
mapped path has no counterpart in source is absent when synchronize
returns (destination symlinks with no counterpart are skipped by the prune
stage and survive), and every destination entry present after the copy
stage whose mapped path does exist in source is untouched by the prune
stage: it survives with the same kind and stat data, identically if it is
not a directory. -/
theorem C2_prune_amended (now : Nat × Nat) (srcRoot dstRoot : List String)
    (s d0 : FsTree) (hwfs : wfT s = true) (hwfd : wfT d0 = true)
    (hs : isDirB s = true) (hd : isDirB d0 = true) (r : FsTree × SyncStats)
    (hok : synchronize okEnv now ⟨true⟩ srcRoot dstRoot (some s) (some d0)
      false = .ok r) :
    (∀ p e, p ≠ [] → lookup r.1 p = some e → isSymlinkB e = false →
      (lookup s p).isSome = true) ∧
    (∀ p e, lookup (copyStage okEnv now srcRoot s d0 zeroStats).1 p = some e →
      (lookup s p).isSome = true →
      ∃ e', lookup r.1 p = some e' ∧ topOf e' = topOf e ∧
        (isDirB e = false → e' = e)) := by
  have hr : r = pruneStage okEnv s dstRoot.length
      (copyStage okEnv now srcRoot s d0 zeroStats).1
      (copyStage okEnv now srcRoot s d0 zeroStats).2 := by
    unfold synchronize synchronizeStages at hok
    simp only [hs, hd, Bool.not_true, Bool.false_eq_true, if_false, if_true] at hok
    injection hok with hok2
    exact hok2.symm
  -- the destination after the copy stage
  have hwfac : wfT (copyStage okEnv now srcRoot s d0 zeroStats).1 = true := by
    cases s with
    | dir sd cs => exact copyList_wf okEnv now srcRoot cs 0 [] d0 zeroStats hwfd
    | file fd => exact hwfd
    | symlink sd b => exact hwfd
    | other od => exact hwfd
  have htop : topOf (copyStage okEnv now srcRoot s d0 zeroStats).1 = topOf d0 := by
    cases s with
    | dir sd cs => exact (copyList_shape okEnv now srcRoot 0 [] cs d0 zeroStats).1
    | file fd => rfl
    | symlink sd b => rfl
    | other od => rfl
  have hdac : isDirB (copyStage okEnv now srcRoot s d0 zeroStats).1 = true := by
    rw [isDirB_of_topOf htop]
    exact hd
  cases hdacs : (copyStage okEnv now srcRoot s d0 zeroStats).1 with
  | file fd => rw [hdacs] at hdac; simp [isDirB] at hdac
  | symlink sd b => rw [hdacs] at hdac; simp [isDirB] at hdac
  | other od => rw [hdacs] at hdac; simp [isDirB] at hdac
  | dir dd dcs =>
    have hwfdcs : wfL dcs = true := by rw [hdacs] at hwfac; exact hwfac
    have hr1 : r.1 = (pruneRemove okEnv (FsTree.dir dd dcs)
        (sortCands (pruneList okEnv s dstRoot.length [] dcs))).1 := by
      rw [hr, hdacs]
      rfl
    constructor
    · -- no extraneous non-symlink entry survives
      intro p e hp he hsym
      by_contra hnot
      have hnone : lookup s p = none :=
        isSome_false_eq_none (by cases h : (lookup s p).isSome with
          | false => rfl
          | true => exact absurd h hnot)
      rw [hr1] at he
      -- the surviving entry descends from one present after the copy stage
      obtain ⟨e0, he0, ht0, hn0⟩ := pruneRemove_from_input okEnv _
        (FsTree.dir dd dcs) hwfdcs p e he
      -- which therefore was collected as a removal candidate
      cases p with
      | nil => exact absurd rfl hp
      | cons x xs =>
        have hsrcl : srcLook dcs (x :: xs) = some e0 := by
          have hx := he0
          rw [lookup_cons] at hx
          rw [srcLook_cons]
          simp only [childAt] at hx
          exact hx
        have hcand := pruneList_complete s dstRoot.length dcs [] (x :: xs) e0
          (by simp) hsrcl (by rw [isSymlinkB_of_topOf ht0]; exact hsym)
          (by simpa using hnone)
        simp only [List.nil_append] at hcand
        have hcand' := (sortCands_perm
          (pruneList okEnv s dstRoot.length [] dcs)).mem_iff.mpr hcand
        have := pruneRemove_gone _ (FsTree.dir dd dcs) hwfdcs _ hcand'
          (by simp) (fun hdir => Or.inr ⟨e0, he0, by simpa using hdir⟩)
        rw [this] at he
        exact Option.noConfusion he
    · -- mirrored entries survive the prune stage with the same top
      intro p e he hsome
      rw [hr1]
      have hframe : ∀ c ∈ sortCands (pruneList okEnv s dstRoot.length [] dcs),
          ¬ within p c.path := by
        intro c hc ⟨r2, hr2⟩
        have hc' := (sortCands_perm
          (pruneList okEnv s dstRoot.length [] dcs)).mem_iff.mp hc
        obtain ⟨hsrc, _⟩ := pruneList_sound okEnv s dstRoot.length dcs []
          hwfdcs c hc'
        have : lookup s p = none := by
          rw [hr2, lookup_append, isSome_false_eq_none hsrc]
        rw [this] at hsome
        simp at hsome
      have := pruneRemove_frame okEnv
        (sortCands (pruneList okEnv s dstRoot.length [] dcs))
        (FsTree.dir dd dcs) p hframe
      rw [he] at this
      cases hafter : lookup (pruneRemove okEnv (FsTree.dir dd dcs)
          (sortCands (pruneList okEnv s dstRoot.length [] dcs))).1 p with
      | none => rw [hafter] at this; exact this.elim
      | some e' =>
        rw [hafter] at this
        exact ⟨e', rfl, this.1.symm, fun hnd => (this.2 hnd).symm⟩

/-- Source and destination trees of the C2 witness: a single identical
regular file a on both sides, plus a destination-only file x. -/
def c2wSrc : FsTree := .dir zeroStat [("a", .file ⟨0,0,0,0,100,0,0,0,3⟩)]

/-- Destination tree of the C2 witness. -/
def c2wDst : FsTree :=
  .dir zeroStat [("a", .file ⟨0,0,0,0,100,0,0,0,3⟩), ("x", .file ⟨0,0,0,0,50,0,0,0,7⟩)]

/-- Result of the C2 witness run. -/
def c2Run : FsTree × SyncStats :=
  pruneStage okEnv c2wSrc 1
    (copyStage okEnv (300, 0) ["s"] c2wSrc c2wDst zeroStats).1
    (copyStage okEnv (300, 0) ["s"] c2wSrc c2wDst zeroStats).2

/-- Witness for C2 at concrete inputs: the run succeeds, the surviving
non-symlink entry a maps to a source counterpart (first conjunct of the
theorem applied at a), and the mirrored entry a survives the prune stage
untouched (second conjunct applied at a). -/
theorem C2_prune_amended_witness :
    wfT c2wSrc = true ∧ wfT c2wDst = true ∧
    synchronize okEnv (300, 0) ⟨true⟩ ["s"] ["d"] (some c2wSrc) (some c2wDst)
      false = .ok c2Run ∧
    lookup c2Run.1 ["a"] = some (.file ⟨0,0,0,0,100,0,0,0,3⟩) ∧
    (lookup c2wSrc ["a"]).isSome = true ∧
    (∃ e', lookup c2Run.1 ["a"] = some e' ∧
      topOf e' = topOf (FsTree.file ⟨0,0,0,0,100,0,0,0,3⟩) ∧
      (isDirB (FsTree.file ⟨0,0,0,0,100,0,0,0,3⟩) = false →
        e' = .file ⟨0,0,0,0,100,0,0,0,3⟩)) := by
  have h := C2_prune_amended (300, 0) ["s"] ["d"] c2wSrc c2wDst rfl rfl rfl rfl
    c2Run rfl
  refine ⟨rfl, rfl, rfl, rfl, ?_, ?_⟩
  · exact h.1 ["a"] (.file ⟨0,0,0,0,100,0,0,0,3⟩) (by simp) rfl rfl
  · exact h.2 ["a"] (.file ⟨0,0,0,0,100,0,0,0,3⟩) rfl rfl

mutual

/-- A destination symlink is preserved by the copy stage below one source
entry, provided neither its own path nor any ancestor carries a regular
source file (the one case in which the code removes or replaces it). -/
theorem copyTree_symlink_preserved (env : Env) (now : Nat × Nat)
    (srcRoot : List String) :
    ∀ (t : FsTree) (depth : Nat) (rel : List String) (n : String)
      (dctx : FsTree) (stats : SyncStats) (p : List String) (sd : StatData)
      (b : Bool),
      wfT t = true →
      lookup dctx p = some (.symlink sd b) →
      (∀ q r2 fd, p = q ++ r2 → srcLook [(n, t)] q ≠ some (.file fd)) →
      lookup (copyTree env now srcRoot depth rel n t dctx stats).1 p =
        some (.symlink sd b)
  | .symlink sd2 b2, depth, rel, n, dctx, stats, p, sd, b => by
    intro _ hl _
    rw [copyTree_symlink_fst]
    exact hl
  | .other od, depth, rel, n, dctx, stats, p, sd, b => by
    intro _ hl _
    rw [copyTree_other_fst]
    exact hl
  | .file d, depth, rel, n, dctx, stats, p, sd, b => by
    intro _ hl hq
    cases p with
    | nil =>
      rw [lookup_nil, Option.some.injEq] at hl
      subst hl
      rw [(copyTree_nondir env now srcRoot depth rel n (.file d)
        (.symlink sd b) stats rfl).1]
      rfl
    | cons m p' =>
      by_cases hm : m = n
      · subst hm
        exact absurd (srcLook_single_self m (.file d) []) (by
          have := hq [m] p' d rfl
          intro hx
          rw [hx] at this
          simp [lookup_nil] at this)
      · rw [lookup_cons] at hl ⊢
        rw [(copyTree_shape env now srcRoot depth rel n (.file d) dctx stats).2 m
          (fun h2 => hm h2)]
        exact hl
  | .dir dd cs', depth, rel, n, dctx, stats, p, sd, b => by
    intro hwf hl hq
    cases p with
    | nil =>
      rw [lookup_nil, Option.some.injEq] at hl
      subst hl
      rw [(copyTree_nondir env now srcRoot depth rel n (.dir dd cs')
        (.symlink sd b) stats rfl).1]
      rfl
    | cons m p' =>
      by_cases hm : m = n
      · subst hm
        -- the context has a child at m, so the dir branch descends into it
        rw [lookup_cons] at hl
        cases hch : childAt dctx m with
        | none => rw [hch] at hl; exact Option.noConfusion hl
        | some c =>
          rw [hch] at hl
          dsimp only at hl
          unfold copyTree
          by_cases hsf : env.statFailSrc (rel ++ [m]) = true
          · rw [if_pos hsf]
            rw [lookup_cons, hch]
            exact hl
          · rw [if_neg hsf]
            dsimp only
            by_cases hrf : env.relFailSrc (rel ++ [m]) = true
            · rw [if_pos hrf]
              rw [lookup_cons, hch]
              exact hl
            · rw [if_neg hrf]
              rw [hch]
              dsimp only
              have hdir := childAt_some_isDirB hch
              rw [lookup_setChild_self hdir]
              cases p' with
              | nil =>
                -- the symlink child itself: descending into it is a no-op
                rw [lookup_nil, Option.some.injEq] at hl
                subst hl
                rw [(copyList_nondir env now srcRoot (depth + 1) (rel ++ [m])
                  cs' (.symlink sd b) (bumpScanned stats) rfl).1]
                rfl
              | cons x xs =>
                -- a symlink strictly below: c is a directory on the path
                refine copyList_symlink_preserved env now srcRoot cs' (depth + 1)
                  (rel ++ [m]) c (bumpScanned stats) (x :: xs) sd b hwf hl ?_
                intro q r2 fd hqr
                cases q with
                | nil => simp [srcLook_nil_ne]
                | cons y ys =>
                  have := hq (m :: y :: ys) r2 fd (by rw [hqr]; rfl)
                  rw [srcLook_single_self] at this
                  intro hx
                  refine this ?_
                  rw [lookup_dir_stat_irrel dd zeroStat cs' (y :: ys) (by simp)]
                  exact hx
      · rw [lookup_cons] at hl ⊢
        rw [(copyTree_shape env now srcRoot depth rel n (.dir dd cs') dctx
          stats).2 m (fun h2 => hm h2)]
        exact hl

/-- A destination symlink is preserved by the copy stage over a sibling
list, provided neither its own path nor any ancestor carries a regular
source file. -/
theorem copyList_symlink_preserved (env : Env) (now : Nat × Nat)
    (srcRoot : List String) :
    ∀ (cs : List (String × FsTree)) (depth : Nat) (rel : List String)
      (dctx : FsTree) (stats : SyncStats) (p : List String) (sd : StatData)
      (b : Bool),
      wfL cs = true →
      lookup dctx p = some (.symlink sd b) →
      (∀ q r2 fd, p = q ++ r2 → srcLook cs q ≠ some (.file fd)) →
      lookup (copyList env now srcRoot depth rel cs dctx stats).1 p =
        some (.symlink sd b)
  | [], depth, rel, dctx, stats, p, sd, b => by
    intro _ hl _
    exact hl
  | (n, t) :: rest, depth, rel, dctx, stats, p, sd, b => by
    intro hwf hl hq
    simp only [wfL, Bool.and_eq_true, Bool.not_eq_true'] at hwf
    unfold copyList
    cases p with
    | nil =>
      rw [lookup_nil, Option.some.injEq] at hl
      subst hl
      rw [(copyTree_nondir env now srcRoot depth rel n t (.symlink sd b)
        stats rfl).1]
      rw [(copyList_nondir env now srcRoot depth rel rest (.symlink sd b) _
        rfl).1]
      rfl
    | cons m p' =>
      have hhead : lookup (copyTree env now srcRoot depth rel n t dctx stats).1
          (m :: p') = some (.symlink sd b) := by
        refine copyTree_symlink_preserved env now srcRoot t depth rel n dctx
          stats (m :: p') sd b hwf.1.2 hl ?_
        intro q r2 fd hqr
        cases q with
        | nil => simp [srcLook_nil_ne]
        | cons y ys =>
          have hy : y = m := by
            have := congrArg (fun l => l.head?) hqr
            simpa using this.symm
          subst hy
          by_cases hyn : y = n
          · subst hyn
            have := hq (y :: ys) r2 fd hqr
            rw [srcLook_cons, assoc_cons_self] at this
            rw [srcLook_single_self]
            exact this
          · rw [srcLook_single_ne n y t ys (fun h2 => hyn h2.symm)]
            simp
      refine copyList_symlink_preserved env now srcRoot rest depth rel _ _
        (m :: p') sd b hwf.2 hhead ?_
      intro q r2 fd hqr
      cases q with
      | nil => simp [srcLook_nil_ne]
      | cons y ys =>
        have hy : y = m := by
          have := congrArg (fun l => l.head?) hqr
          simpa using this.symm
        subst hy
        by_cases hyn : y = n
        · subst hyn
          rw [srcLook_cons, hasKey_false_assoc hwf.1.1]
          simp
        · have := hq (y :: ys) r2 fd hqr
          rw [srcLook_cons, assoc_cons_ne (fun h2 => hyn h2.symm) t rest] at this
          rw [srcLook_cons]
          exact this

end

/-- Counterexample to claim C4 as stated: the copy stage DOES delete a
destination symlink when the source has a regular file at its path
(sync.cpp:154-164): after the run the path holds the copied regular file. -/
theorem C4_counterexample :
    lookup (FsTree.dir zeroStat [("lnk", .symlink ⟨0,0,0,0,7,0,0,0,0⟩ true)])
      ["lnk"] = some (.symlink ⟨0,0,0,0,7,0,0,0,0⟩ true) ∧
    (synchronize okEnv (300, 0) ⟨true⟩ ["s"] ["d"]
        (some (FsTree.dir zeroStat [("lnk", .file ⟨0,0,0,0,100,0,0,0,2⟩)]))
        (some (FsTree.dir zeroStat
          [("lnk", .symlink ⟨0,0,0,0,7,0,0,0,0⟩ true)]))
        false).map (fun r => lookup r.1 ["lnk"]) =
      .ok (some (.file (copiedStat 2 (300, 0)))) :=
  ⟨rfl, rfl⟩

/-- Claim C4, amended: a source symlink is never copied and never descended
into — the copy stage leaves the destination untouched at it and only
counts it as skipped; the prune stage never selects a symlink as a removal
candidate (every candidate is a non-symlink destination entry); and a
destination symlink survives the whole pruning run whenever no regular
source file sits at its path or an ancestor (the copy stage removes it in
that case) and every proper ancestor of its path has a source counterpart
(otherwise an extraneous ancestor directory is pruned together with
everything beneath it). -/
theorem C4_symlinks_amended :
    (∀ (env : Env) (now : Nat × Nat) (srcRoot : List String) (depth : Nat)
      (rel : List String) (n : String) (sd : StatData) (b : Bool)
      (dctx : FsTree) (stats : SyncStats),
      env.statFailSrc (rel ++ [n]) = false →
      copyTree env now srcRoot depth rel n (.symlink sd b) dctx stats =
        (dctx, bumpSkipped (bumpScanned stats))) ∧
    (∀ (env : Env) (srcT : FsTree) (rootLen : Nat)
      (dcs : List (String × FsTree)), wfL dcs = true →
      ∀ c ∈ pruneList env srcT rootLen [] dcs,
        ∃ e, srcLook dcs c.path = some e ∧ isSymlinkB e = false) ∧
    (∀ (now : Nat × Nat) (srcRoot dstRoot : List String) (s d0 : FsTree),
      wfT s = true → wfT d0 = true → isDirB s = true → isDirB d0 = true →
      ∀ (r : FsTree × SyncStats),
      synchronize okEnv now ⟨true⟩ srcRoot dstRoot (some s) (some d0) false =
        .ok r →
      ∀ (p : List String) (sd : StatData) (b : Bool),
        lookup d0 p = some (.symlink sd b) →
        (∀ q r2 fd, p = q ++ r2 → lookup s q ≠ some (.file fd)) →
        (∀ q r2, p = q ++ r2 → r2 ≠ [] → (lookup s q).isSome = true) →
        lookup r.1 p = some (.symlink sd b)) := by
  refine ⟨?_, ?_, ?_⟩
  · intro env now srcRoot depth rel n sd b dctx stats hsf
    unfold copyTree
    rw [hsf]
    rfl
  · intro env srcT rootLen dcs hwf c hc
    obtain ⟨hsrc, tail, hpath, hne, e, hlook, hdir, hsym⟩ :=
      pruneList_sound env srcT rootLen dcs [] hwf c hc
    rw [List.nil_append] at hpath
    subst hpath
    exact ⟨e, hlook, hsym⟩
  · intro now srcRoot dstRoot s d0 hwfs hwfd hs hd r hok p sd b hl hnofile hanc
    have hr : r = pruneStage okEnv s dstRoot.length
        (copyStage okEnv now srcRoot s d0 zeroStats).1
        (copyStage okEnv now srcRoot s d0 zeroStats).2 := by
      unfold synchronize synchronizeStages at hok
      simp only [hs, hd, Bool.not_true, Bool.false_eq_true, if_false,
        if_true] at hok
      injection hok with hok2
      exact hok2.symm
    cases s with
    | file fd => simp [isDirB] at hs
    | symlink sd2 b2 => simp [isDirB] at hs
    | other od => simp [isDirB] at hs
    | dir sdd scs =>
      -- the copy stage preserves the symlink
      have hdac : lookup (copyStage okEnv now srcRoot (.dir sdd scs) d0
          zeroStats).1 p = some (.symlink sd b) := by
        refine copyList_symlink_preserved okEnv now srcRoot scs 0 [] d0
          zeroStats p sd b hwfs hl ?_
        intro q r2 fd hqr
        cases q with
        | nil => simp [srcLook_nil_ne]
        | cons y ys =>
          have hne := hnofile (y :: ys) r2 fd hqr
          intro hx
          have hx2 : lookup (FsTree.dir zeroStat scs) (y :: ys) =
              some (.file fd) := hx
          rw [lookup_dir_stat_irrel zeroStat sdd scs (y :: ys) (by simp)] at hx2
          exact hne hx2
      -- and the prune stage never touches it
      have hwfac : wfT (copyStage okEnv now srcRoot (.dir sdd scs) d0
          zeroStats).1 = true :=
        copyList_wf okEnv now srcRoot scs 0 [] d0 zeroStats hwfd
      have htop : topOf (copyStage okEnv now srcRoot (.dir sdd scs) d0
          zeroStats).1 = topOf d0 :=
        (copyList_shape okEnv now srcRoot 0 [] scs d0 zeroStats).1
      have hdacd : isDirB (copyStage okEnv now srcRoot (.dir sdd scs) d0
          zeroStats).1 = true := by
        rw [isDirB_of_topOf htop]
        exact hd
      cases hdacs : (copyStage okEnv now srcRoot (.dir sdd scs) d0
          zeroStats).1 with
      | file fd => rw [hdacs] at hdacd; simp [isDirB] at hdacd
      | symlink sd3 b3 => rw [hdacs] at hdacd; simp [isDirB] at hdacd
      | other od => rw [hdacs] at hdacd; simp [isDirB] at hdacd
      | dir dd dcs =>
        have hwfdcs : wfL dcs = true := by rw [hdacs] at hwfac; exact hwfac
        rw [hdacs] at hdac
        have hr1 : r.1 = (pruneRemove okEnv (FsTree.dir dd dcs)
            (sortCands (pruneList okEnv (.dir sdd scs) dstRoot.length []
              dcs))).1 := by
          rw [hr, hdacs]
          rfl
        rw [hr1]
        have hframe : ∀ c ∈ sortCands (pruneList okEnv (.dir sdd scs)
            dstRoot.length [] dcs), ¬ within p c.path := by
          intro c hc ⟨r2, hr2⟩
          have hc' := (sortCands_perm (pruneList okEnv (.dir sdd scs)
            dstRoot.length [] dcs)).mem_iff.mp hc
          obtain ⟨hsrc, tail, hpath, hne, e, hlook, hdir, hsym⟩ :=
            pruneList_sound okEnv (.dir sdd scs) dstRoot.length dcs []
              hwfdcs c hc'
          rw [List.nil_append] at hpath
          cases r2 with
          | nil =>
            -- the candidate would be the symlink itself
            rw [List.append_nil] at hr2
            cases tail with
            | nil => exact absurd rfl hne
            | cons x xs =>
              rw [hr2, hpath] at hdac
              cases hch : childAt (FsTree.dir dd dcs) x with
              | none =>
                rw [lookup_cons_none xs hch] at hdac
                exact Option.noConfusion hdac
              | some c2 =>
                rw [lookup_cons_some xs hch] at hdac
                have hlook2 : lookup c2 xs = some e := by
                  rw [← lookup_cons_some xs
                    (show childAt (FsTree.dir zeroStat dcs) x = some c2 from
                      hch)]
                  exact hlook
                rw [hdac] at hlook2
                rw [Option.some.injEq] at hlook2
                subst hlook2
                simp [isSymlinkB] at hsym
          | cons a as =>
            have := hanc c.path (a :: as) (by rw [hr2]) (by simp)
            rw [isSome_false_eq_none hsrc] at this
            simp at this
        have hfr := pruneRemove_frame okEnv _ (FsTree.dir dd dcs) p hframe
        rw [hdac] at hfr
        cases hafter : lookup (pruneRemove okEnv (FsTree.dir dd dcs)
            (sortCands (pruneList okEnv (.dir sdd scs) dstRoot.length []
              dcs))).1 p with
        | none => rw [hafter] at hfr; exact hfr.elim
        | some e' =>
          rw [hafter] at hfr
          rw [(hfr.2 (by rfl)).symm]

/-- Source and destination trees for the C4 witness: the destination holds
a symlink lnk with no source counterpart and a mirrored file keep. -/
def c4wSrc : FsTree := .dir zeroStat [("keep", .file ⟨0,0,0,0,100,0,0,0,3⟩)]

/-- Destination tree of the C4 witness. -/
def c4wDst : FsTree :=
  .dir zeroStat [("keep", .file ⟨0,0,0,0,100,0,0,0,3⟩),
                 ("lnk", .symlink ⟨0,0,0,0,7,0,0,0,0⟩ true)]

/-- Result of the C4 witness run. -/
def c4Run : FsTree × SyncStats :=
  pruneStage okEnv c4wSrc 1
    (copyStage okEnv (300, 0) ["s"] c4wSrc c4wDst zeroStats).1
    (copyStage okEnv (300, 0) ["s"] c4wSrc c4wDst zeroStats).2

/-- Witness for C4 at concrete inputs: the source-symlink equation at a
concrete entry, the no-symlink-candidate claim at a concrete listing, and
the survival of the destination symlink lnk through a full concrete run. -/
theorem C4_symlinks_amended_witness :
    (okEnv.statFailSrc ["a"] = false ∧
      copyTree okEnv (300, 0) ["s"] 0 [] "a" (.symlink ⟨0,0,0,0,7,0,0,0,0⟩ true)
        (FsTree.dir zeroStat []) zeroStats =
        (FsTree.dir zeroStat [], bumpSkipped (bumpScanned zeroStats))) ∧
    (∃ e, srcLook [("x", FsTree.file ⟨0,0,0,0,5,0,0,0,4⟩)] ["x"] = some e ∧
      isSymlinkB e = false) ∧
    (synchronize okEnv (300, 0) ⟨true⟩ ["s"] ["d"] (some c4wSrc) (some c4wDst)
        false = .ok c4Run ∧
      lookup c4Run.1 ["lnk"] = some (.symlink ⟨0,0,0,0,7,0,0,0,0⟩ true)) := by
  refine ⟨⟨rfl, C4_symlinks_amended.1 okEnv (300, 0) ["s"] 0 [] "a"
    ⟨0,0,0,0,7,0,0,0,0⟩ true (FsTree.dir zeroStat []) zeroStats rfl⟩, ?_, rfl, ?_⟩
  · refine C4_symlinks_amended.2.1 okEnv (FsTree.dir zeroStat []) 1
      [("x", FsTree.file ⟨0,0,0,0,5,0,0,0,4⟩)] rfl ⟨["x"], false, 2⟩ ?_
    rw [show pruneList okEnv (FsTree.dir zeroStat []) 1 []
      [("x", FsTree.file ⟨0,0,0,0,5,0,0,0,4⟩)] =
      [⟨["x"], false, 2⟩] from rfl]
    simp
  · refine C4_symlinks_amended.2.2 (300, 0) ["s"] ["d"] c4wSrc c4wDst rfl rfl
      rfl rfl c4Run rfl ["lnk"] ⟨0,0,0,0,7,0,0,0,0⟩ true rfl ?_ ?_
    · intro q r2 fd hqr
      cases q with
      | nil =>
        intro hx
        simp [c4wSrc, lookup_nil] at hx
      | cons y ys =>
        cases r2 with
        | nil =>
          rw [List.append_nil] at hqr
          cases ys with
          | nil =>
            rw [show y :: ([] : List String) = [y] from rfl] at hqr
            have hy : ("lnk" : String) = y := by
              have := congrArg (fun l => l.head?) hqr
              simpa using this
            subst hy
            intro hx
            rw [show lookup c4wSrc ["lnk"] = none from rfl] at hx
            exact Option.noConfusion hx
          | cons z zs =>
            have := congrArg List.length hqr
            simp at this
        | cons a as =>
          have := congrArg List.length hqr
          simp [List.length_append] at this
    · intro q r2 hqr hr2
      cases q with
      | nil => rfl
      | cons y ys =>
        cases r2 with
        | nil => exact absurd rfl hr2
        | cons a as =>
          have := congrArg List.length hqr
          simp [List.length_append] at this

mutual

/-- Pre-order enumeration of the source-relative paths the copy stage
visits below one named entry: the entry's own path first, then the paths of
its subtree in directory-listing order (the iteration order of
copy_from_source's recursive_directory_iterator, sync.cpp:75). -/
def preorderT (n : String) (t : FsTree) : List (List String) :=
  match t with
  | .dir _ cs => [n] :: (preorderL cs).map (fun q => n :: q)
  | _ => [[n]]

/-- Pre-order path enumeration over a children list. -/
def preorderL (cs : List (String × FsTree)) : List (List String) :=
  match cs with
  | [] => []
  | (n, t) :: rest => preorderT n t ++ preorderL rest

end

/-- The paths the copy stage visits below a source root. -/
def preorderRoot : FsTree → List (List String)
  | .dir _ cs => preorderL cs
  | _ => []

theorem preorderT_head (n : String) (t : FsTree) :
    ∀ q ∈ preorderT n t, ∃ q2, q = n :: q2 := by
  intro q hq
  cases t with
  | dir d cs =>
    simp only [preorderT, List.mem_cons, List.mem_map] at hq
    rcases hq with h | ⟨a, _, h⟩
    · exact ⟨[], h⟩
    · exact ⟨a, h.symm⟩
  | file d => exact ⟨[], by simpa [preorderT] using hq⟩
  | symlink d b => exact ⟨[], by simpa [preorderT] using hq⟩
  | other d => exact ⟨[], by simpa [preorderT] using hq⟩

theorem preorderL_head (cs : List (String × FsTree)) :
    ∀ q ∈ preorderL cs, ∃ k q2, q = k :: q2 ∧ hasKey cs k = true := by
  induction cs with
  | nil => intro q hq; simp [preorderL] at hq
  | cons e rest ih =>
    intro q hq
    obtain ⟨n, t⟩ := e
    simp only [preorderL, List.mem_append] at hq
    rcases hq with hq | hq
    · obtain ⟨q2, hq2⟩ := preorderT_head n t q hq
      exact ⟨n, q2, hq2, by simp [hasKey]⟩
    · obtain ⟨k, q2, h1, h2⟩ := ih q hq
      exact ⟨k, q2, h1, by simp [hasKey, h2]⟩

mutual

theorem preorderT_nodup : ∀ (n : String) (t : FsTree), wfT t = true →
    (preorderT n t).Nodup
  | n, .file d, _ => by simp [preorderT]
  | n, .symlink d b, _ => by simp [preorderT]
  | n, .other d, _ => by simp [preorderT]
  | n, .dir d cs, hw => by
    simp only [preorderT]
    refine List.nodup_cons.mpr ⟨?_, ?_⟩
    · intro hmem
      rw [List.mem_map] at hmem
      obtain ⟨a, ha, hEq⟩ := hmem
      obtain ⟨k, q2, hq, _⟩ := preorderL_head cs a ha
      rw [hq] at hEq
      exact List.noConfusion (List.cons.inj hEq).2
    · exact List.Nodup.map (fun a b h => (List.cons.inj h).2)
        (preorderL_nodup cs hw)

theorem preorderL_nodup : ∀ (cs : List (String × FsTree)), wfL cs = true →
    (preorderL cs).Nodup
  | [], _ => by simp [preorderL]
  | (n, t) :: rest, hw => by
    simp only [wfL, Bool.and_eq_true, Bool.not_eq_true'] at hw
    simp only [preorderL]
    refine List.Nodup.append (preorderT_nodup n t hw.1.2)
      (preorderL_nodup rest hw.2) ?_
    intro q hq1 hq2
    obtain ⟨q2, hq⟩ := preorderT_head n t q hq1
    obtain ⟨k, q3, hk, hkey⟩ := preorderL_head rest q hq2
    rw [hq] at hk
    rw [← (List.cons.inj hk).1] at hkey
    rw [hw.1.1] at hkey
    exact Bool.noConfusion hkey

end

/-- performCopy either leaves the snapshot list unchanged or appends
exactly the snapshot it was given. -/
theorem performCopy_synced (env : Env) (now : Nat × Nat) (rel : List String)
    (n : String) (sz : Nat) (m : FileMetadata) (th : Option FsTree)
    (dctx : FsTree) (stats : SyncStats) :
    (performCopy env now rel n sz m th dctx stats).2.synced_entries =
      stats.synced_entries ∨
    (performCopy env now rel n sz m th dctx stats).2.synced_entries =
      stats.synced_entries ++ [m] := by
  unfold performCopy
  split
  · split
    · exact Or.inl rfl
    · exact Or.inr rfl
  · exact Or.inl rfl

/-- copyFileEntry either leaves the snapshot list unchanged or appends
exactly the source snapshot it was given. -/
theorem copyFileEntry_synced (env : Env) (now : Nat × Nat) (rel : List String)
    (n : String) (d : StatData) (m : FileMetadata) (dctx : FsTree)
    (stats : SyncStats) :
    (copyFileEntry env now rel n d m dctx stats).2.synced_entries =
      stats.synced_entries ∨
    (copyFileEntry env now rel n d m dctx stats).2.synced_entries =
      stats.synced_entries ++ [m] := by
  unfold copyFileEntry
  cases hc : childAt dctx n with
  | none => exact performCopy_synced env now rel n d.size m none dctx stats
  | some c =>
    dsimp only
    by_cases hreg : isRegularView c = true
    · rw [if_pos hreg]
      by_cases hsf : env.statFailDst (rel ++ [n]) = true
      · rw [if_pos hsf]
        exact performCopy_synced env now rel n d.size m _ dctx stats
      · rw [if_neg hsf]
        cases c with
        | symlink sd b =>
          dsimp only
          split
          · exact Or.inl rfl
          · exact performCopy_synced env now rel n d.size m none _ stats
        | file d' =>
          dsimp only
          split
          · exact performCopy_synced env now rel n d.size m none dctx stats
          · exact Or.inl rfl
        | dir dd dcs => simp [isRegularView] at hreg
        | other od => simp [isRegularView] at hreg
    · rw [if_neg hreg]
      split
      · exact Or.inl rfl
      · exact performCopy_synced env now rel n d.size m none _ stats

/-- Extending a singleton source listing with further siblings does not
change a successful deep lookup through its entry. -/
theorem srcLook_single_cons {n : String} {t : FsTree} {q : List String}
    {node : FsTree} (rest : List (String × FsTree)) (hne : q ≠ [])
    (h : srcLook [(n, t)] q = some node) :
    srcLook ((n, t) :: rest) q = some node := by
  cases q with
  | nil => exact absurd rfl hne
  | cons x xs =>
    rw [srcLook_cons] at h ⊢
    by_cases hnx : n = x
    · simp only [assoc, if_pos hnx] at h ⊢
      exact h
    · simp only [assoc, if_neg hnx] at h
      exact Option.noConfusion h

/-- A successful deep lookup through the tail of a listing survives a new
head entry whose name does not occur in the tail. -/
theorem srcLook_rest_cons {n : String} {t : FsTree}
    {rest : List (String × FsTree)} {q : List String} {node : FsTree}
    (hkey : hasKey rest n = false) (hne : q ≠ [])
    (h : srcLook rest q = some node) :
    srcLook ((n, t) :: rest) q = some node := by
  cases q with
  | nil => exact absurd rfl hne
  | cons x xs =>
    have hkx : hasKey rest x = true := srcLook_hasKey h
    have hnx : ¬ n = x := by
      intro he
      rw [he] at hkey
      rw [hkey] at hkx
      exact Bool.noConfusion hkx
    rw [srcLook_cons] at h ⊢
    simp only [assoc, if_neg hnx]
    exact h

mutual

/-- Characterization of the snapshots one copy-stage entry appends: they
extend the previous list in traversal order; each is the source snapshot
collect_metadata takes of an existing non-symlink source node, at the
source path, with the iterator depth; and a directory contributes one only
if its destination path was absent in the entry's destination context. -/
theorem copyTree_synced (env : Env) (now : Nat × Nat) (srcRoot : List String) :
    ∀ (t : FsTree) (depth : Nat) (rel : List String) (n : String)
      (dctx : FsTree) (stats : SyncStats), wfT t = true →
      ∃ new : List FileMetadata,
        (copyTree env now srcRoot depth rel n t dctx stats).2.synced_entries =
          stats.synced_entries ++ new ∧
        (∀ m ∈ new, ∃ q node, q ≠ [] ∧ srcLook [(n, t)] q = some node ∧
          m = collectMetadata (srcRoot ++ rel ++ q) (depth + q.length - 1) node ∧
          isSymlinkB node = false ∧
          (isDirB node = true → lookup dctx q = none)) ∧
        List.Sublist (new.map (fun m2 => m2.file))
          ((preorderT n t).map (fun q => srcRoot ++ rel ++ q))
  | .symlink sd b, depth, rel, n, dctx, stats => by
    intro _
    by_cases hsf : env.statFailSrc (rel ++ [n]) = true
    · exact ⟨[], by simp [copyTree, hsf, bumpScanned], by simp, List.nil_sublist _⟩
    · exact ⟨[], by simp [copyTree, hsf, bumpScanned, bumpSkipped], by simp,
        List.nil_sublist _⟩
  | .other od, depth, rel, n, dctx, stats => by
    intro _
    by_cases hsf : env.statFailSrc (rel ++ [n]) = true
    · exact ⟨[], by simp [copyTree, hsf, bumpScanned], by simp, List.nil_sublist _⟩
    · by_cases hrf : env.relFailSrc (rel ++ [n]) = true
      · exact ⟨[], by simp [copyTree, hsf, hrf, bumpScanned], by simp,
          List.nil_sublist _⟩
      · exact ⟨[], by simp [copyTree, hsf, hrf, bumpScanned, bumpSkipped],
          by simp, List.nil_sublist _⟩
  | .file d, depth, rel, n, dctx, stats => by
    intro _
    by_cases hsf : env.statFailSrc (rel ++ [n]) = true
    · exact ⟨[], by simp [copyTree, hsf, bumpScanned], by simp, List.nil_sublist _⟩
    · by_cases hrf : env.relFailSrc (rel ++ [n]) = true
      · exact ⟨[], by simp [copyTree, hsf, hrf, bumpScanned], by simp,
          List.nil_sublist _⟩
      · have hstep : (copyTree env now srcRoot depth rel n (.file d) dctx
            stats).2 =
            (copyFileEntry env now rel n d
              (collectMetadata (srcRoot ++ (rel ++ [n])) depth (.file d)) dctx
              (bumpScanned stats)).2 := by
          simp [copyTree, hsf, hrf]
        rcases copyFileEntry_synced env now rel n d
            (collectMetadata (srcRoot ++ (rel ++ [n])) depth (.file d)) dctx
            (bumpScanned stats) with hcase | hcase
        · refine ⟨[], ?_, by simp, List.nil_sublist _⟩
          rw [hstep, hcase]
          simp [bumpScanned]
        · refine ⟨[collectMetadata (srcRoot ++ (rel ++ [n])) depth (.file d)],
            ?_, ?_, ?_⟩
          · rw [hstep, hcase]
            simp [bumpScanned]
          · intro m hm
            rw [List.mem_singleton] at hm
            subst hm
            refine ⟨[n], .file d, by simp, ?_, ?_, rfl, by simp [isDirB]⟩
            · simp [srcLook, lookup, assoc]
            · simp [List.append_assoc]
          · rw [show ([collectMetadata (srcRoot ++ (rel ++ [n])) depth
                (.file d)]).map (fun m2 => m2.file) =
                [srcRoot ++ rel ++ [n]] from by
              simp [collectMetadata, List.append_assoc]]
            exact List.Sublist.refl _
  | .dir dd cs', depth, rel, n, dctx, stats => by
    intro hw
    have hwcs : wfL cs' = true := hw
    by_cases hsf : env.statFailSrc (rel ++ [n]) = true
    · exact ⟨[], by simp [copyTree, hsf, bumpScanned], by simp, List.nil_sublist _⟩
    · by_cases hrf : env.relFailSrc (rel ++ [n]) = true
      · exact ⟨[], by simp [copyTree, hsf, hrf, bumpScanned], by simp,
          List.nil_sublist _⟩
      · have htail : ((preorderL cs').map (fun q => n :: q)).map
            (fun q => srcRoot ++ rel ++ q) =
            (preorderL cs').map (fun q => srcRoot ++ (rel ++ [n]) ++ q) := by
          rw [List.map_map]
          refine List.map_congr_left ?_
          intro q _
          simp [Function.comp]
        cases hc : childAt dctx n with
        | some c =>
          have hstep : (copyTree env now srcRoot depth rel n (.dir dd cs') dctx
              stats).2 =
              (copyList env now srcRoot (depth + 1) (rel ++ [n]) cs' c
                (bumpScanned stats)).2 := by
            simp [copyTree, hsf, hrf, hc]
          obtain ⟨new2, h1, h2, h3⟩ := copyList_synced env now srcRoot cs'
            (depth + 1) (rel ++ [n]) c (bumpScanned stats) hwcs
          refine ⟨new2, ?_, ?_, ?_⟩
          · rw [hstep, h1]
            rfl
          · intro m hm
            obtain ⟨q2, node, hq2ne, hlook, hmEq, hsym, hdirN⟩ := h2 m hm
            refine ⟨n :: q2, node, by simp, ?_, ?_, hsym, ?_⟩
            · rw [srcLook_cons]
              simp only [assoc, if_pos rfl]
              have hx : lookup (FsTree.dir zeroStat cs') q2 = some node := hlook
              rw [lookup_dir_stat_irrel zeroStat dd cs' q2 hq2ne] at hx
              exact hx
            · rw [hmEq]
              have hA : srcRoot ++ (rel ++ [n]) ++ q2 =
                  srcRoot ++ rel ++ (n :: q2) := by simp
              have hB : depth + 1 + q2.length - 1 =
                  depth + (n :: q2).length - 1 := by
                rw [List.length_cons]
                omega
              rw [hA, hB]
            · intro hdir
              rw [lookup_cons_some q2 hc]
              exact hdirN hdir
          · simp only [preorderT, List.map_cons]
            rw [htail]
            exact h3.cons _
        | none =>
          by_cases hmk : (isDirB dctx && !env.mkdirFail (rel ++ [n])) = true
          · have hstep : (copyTree env now srcRoot depth rel n (.dir dd cs')
                dctx stats).2 =
                (copyList env now srcRoot (depth + 1) (rel ++ [n]) cs'
                  (FsTree.dir (createdDirStat now) [])
                  (bumpDirCreated
                    (collectMetadata (srcRoot ++ (rel ++ [n])) depth
                      (.dir dd cs'))
                    (bumpScanned stats))).2 := by
              simp [copyTree, hsf, hrf, hc, hmk]
            obtain ⟨new2, h1, h2, h3⟩ := copyList_synced env now srcRoot cs'
              (depth + 1) (rel ++ [n]) (FsTree.dir (createdDirStat now) [])
              (bumpDirCreated
                (collectMetadata (srcRoot ++ (rel ++ [n])) depth (.dir dd cs'))
                (bumpScanned stats)) hwcs
            refine ⟨collectMetadata (srcRoot ++ (rel ++ [n])) depth
                (.dir dd cs') :: new2, ?_, ?_, ?_⟩
            · rw [hstep, h1]
              simp [bumpDirCreated, bumpScanned]
            · intro m hm
              rcases List.mem_cons.mp hm with hm | hm
              · subst hm
                refine ⟨[n], .dir dd cs', by simp, ?_, ?_, by simp [isSymlinkB],
                  ?_⟩
                · simp [srcLook, lookup, assoc]
                · simp [List.append_assoc]
                · intro _
                  exact lookup_cons_none [] hc
              · obtain ⟨q2, node, hq2ne, hlook, hmEq, hsym, hdirN⟩ := h2 m hm
                refine ⟨n :: q2, node, by simp, ?_, ?_, hsym, ?_⟩
                · rw [srcLook_cons]
                  simp only [assoc, if_pos rfl]
                  have hx : lookup (FsTree.dir zeroStat cs') q2 = some node :=
                    hlook
                  rw [lookup_dir_stat_irrel zeroStat dd cs' q2 hq2ne] at hx
                  exact hx
                · rw [hmEq]
                  have hA : srcRoot ++ (rel ++ [n]) ++ q2 =
                      srcRoot ++ rel ++ (n :: q2) := by simp
                  have hB : depth + 1 + q2.length - 1 =
                      depth + (n :: q2).length - 1 := by
                    rw [List.length_cons]
                    omega
                  rw [hA, hB]
                · intro _
                  exact lookup_cons_none q2 hc
            · simp only [preorderT, List.map_cons]
              rw [htail]
              rw [show (collectMetadata (srcRoot ++ (rel ++ [n])) depth
                  (FsTree.dir dd cs')).file = srcRoot ++ rel ++ [n] from by
                simp [collectMetadata, List.append_assoc]]
              exact h3.cons₂ _
          · refine ⟨[], ?_, by simp, List.nil_sublist _⟩
            simp [copyTree, hsf, hrf, hc, hmk, bumpScanned]

/-- The same characterization over a sibling list. -/
theorem copyList_synced (env : Env) (now : Nat × Nat) (srcRoot : List String) :
    ∀ (cs : List (String × FsTree)) (depth : Nat) (rel : List String)
      (dctx : FsTree) (stats : SyncStats), wfL cs = true →
      ∃ new : List FileMetadata,
        (copyList env now srcRoot depth rel cs dctx stats).2.synced_entries =
          stats.synced_entries ++ new ∧
        (∀ m ∈ new, ∃ q node, q ≠ [] ∧ srcLook cs q = some node ∧
          m = collectMetadata (srcRoot ++ rel ++ q) (depth + q.length - 1) node ∧
          isSymlinkB node = false ∧
          (isDirB node = true → lookup dctx q = none)) ∧
        List.Sublist (new.map (fun m2 => m2.file))
          ((preorderL cs).map (fun q => srcRoot ++ rel ++ q))
  | [], depth, rel, dctx, stats => by
    intro _
    exact ⟨[], by simp [copyList], by simp, by simp [preorderL]⟩
  | (n, t) :: rest, depth, rel, dctx, stats => by
    intro hwf
    simp only [wfL, Bool.and_eq_true, Bool.not_eq_true'] at hwf
    obtain ⟨new1, h11, h12, h13⟩ := copyTree_synced env now srcRoot t depth rel
      n dctx stats hwf.1.2
    obtain ⟨new2, h21, h22, h23⟩ := copyList_synced env now srcRoot rest depth
      rel (copyTree env now srcRoot depth rel n t dctx stats).1
      (copyTree env now srcRoot depth rel n t dctx stats).2 hwf.2
    refine ⟨new1 ++ new2, ?_, ?_, ?_⟩
    · simp only [copyList]
      rw [h21, h11]
      simp [List.append_assoc]
    · intro m hm
      rcases List.mem_append.mp hm with hm | hm
      · obtain ⟨q, node, hqne, hlook, hmEq, hsym, hdirN⟩ := h12 m hm
        exact ⟨q, node, hqne, srcLook_single_cons rest hqne hlook, hmEq, hsym,
          hdirN⟩
      · obtain ⟨q, node, hqne, hlook, hmEq, hsym, hdirN⟩ := h22 m hm
        refine ⟨q, node, hqne, srcLook_rest_cons hwf.1.1 hqne hlook, hmEq, hsym,
          ?_⟩
        intro hdir
        have hfr : lookup (copyTree env now srcRoot depth rel n t dctx stats).1
            q = lookup dctx q := by
          cases q with
          | nil => exact absurd rfl hqne
          | cons k q2 =>
            have hkx : hasKey rest k = true := srcLook_hasKey hlook
            have hnk : ¬ n = k := by
              intro he
              rw [he] at hwf
              rw [hwf.1.1] at hkx
              exact Bool.noConfusion hkx
            refine copyTree_lookup_frame env now srcRoot t depth rel n dctx
              stats (k :: q2) hwf.1.2 ?_ ?_
            · rw [srcLook_cons]
              simp [assoc, hnk]
            · intro q' r' hq' hr' fd
              cases q' with
              | nil => simp [srcLook_nil_ne]
              | cons y ys =>
                have hy : k = y := by
                  have := congrArg (fun l => l.head?) hq'
                  simpa using this
                subst hy
                rw [srcLook_cons]
                simp [assoc, hnk]
        rw [← hfr]
        exact hdirN hdir
    · rw [List.map_append]
      simp only [preorderL, List.map_append]
      exact List.Sublist.append h13 h23

end

/-- Claim C9: the synced_entries list a successful run returns holds
exactly one entry per copied file and per newly created directory (its
length is files_copied + directories_created), each entry is the
SOURCE-side metadata snapshot of an existing non-symlink source node taken
at the source path with the iterator depth, a directory whose destination
path already existed contributes no entry, the entries appear in traversal
(pre-order listing) order, and no path — in particular no directory — is
added more than once. -/
theorem C9_synced_entries (env : Env) (now : Nat × Nat) (opts : SyncOptions)
    (srcRoot dstRoot : List String) (s d0 : FsTree) (r : FsTree × SyncStats)
    (hwf : wfT s = true) (hs : isDirB s = true) (hd : isDirB d0 = true)
    (hok : synchronize env now opts srcRoot dstRoot (some s) (some d0) false =
      .ok r) :
    ∃ new : List FileMetadata,
      r.2.synced_entries = new ∧
      new.length = r.2.files_copied + r.2.directories_created ∧
      (∀ m ∈ new, ∃ q node, q ≠ [] ∧ lookup s q = some node ∧
        m = collectMetadata (srcRoot ++ q) (q.length - 1) node ∧
        isSymlinkB node = false ∧
        (isDirB node = true → lookup d0 q = none)) ∧
      List.Sublist (new.map (fun m2 => m2.file))
        ((preorderRoot s).map (fun q => srcRoot ++ q)) ∧
      (new.map (fun m2 => m2.file)).Nodup := by
  cases s with
  | file sd => simp [isDirB] at hs
  | symlink sd b => simp [isDirB] at hs
  | other sd => simp [isDirB] at hs
  | dir sdd scs =>
    have hwl : wfL scs = true := hwf
    have hstage : r.2.synced_entries =
        (copyStage env now srcRoot (.dir sdd scs) d0
          zeroStats).2.synced_entries ∧
        r.2.files_copied =
          (copyStage env now srcRoot (.dir sdd scs) d0
            zeroStats).2.files_copied ∧
        r.2.directories_created =
          (copyStage env now srcRoot (.dir sdd scs) d0
            zeroStats).2.directories_created := by
      unfold synchronize synchronizeStages at hok
      simp only [hs, hd, Bool.not_true, Bool.false_eq_true, if_false] at hok
      cases hre : opts.remove_extraneous with
      | true =>
        rw [hre] at hok
        simp only [if_true] at hok
        injection hok with hok2
        subst hok2
        exact ⟨rfl, rfl, rfl⟩
      | false =>
        rw [hre] at hok
        simp only [Bool.false_eq_true, if_false] at hok
        injection hok with hok2
        subst hok2
        exact ⟨rfl, rfl, rfl⟩
    obtain ⟨new, h1, h2, h3⟩ := copyList_synced env now srcRoot scs 0 [] d0
      zeroStats hwl
    have hnew : r.2.synced_entries = new := by
      rw [hstage.1]
      rw [show (copyStage env now srcRoot (FsTree.dir sdd scs) d0 zeroStats) =
        copyList env now srcRoot 0 [] scs d0 zeroStats from rfl]
      rw [h1]
      rfl
    have hlen : new.length = r.2.files_copied + r.2.directories_created := by
      have hsd := (copyList_statsDelta env now srcRoot scs 0 [] d0 zeroStats).2
      have hln := congrArg List.length h1
      rw [List.length_append] at hln
      rw [show zeroStats.files_copied = 0 from rfl,
          show zeroStats.directories_created = 0 from rfl,
          show zeroStats.synced_entries.length = 0 from rfl] at hsd
      rw [show zeroStats.synced_entries.length = 0 from rfl] at hln
      rw [hstage.2.1, hstage.2.2]
      rw [show (copyStage env now srcRoot (FsTree.dir sdd scs) d0 zeroStats) =
        copyList env now srcRoot 0 [] scs d0 zeroStats from rfl]
      omega
    refine ⟨new, hnew, hlen, ?_, ?_, ?_⟩
    · intro m hm
      obtain ⟨q, node, hqne, hlook, hmEq, hsym, hdirN⟩ := h2 m hm
      refine ⟨q, node, hqne, ?_, ?_, hsym, hdirN⟩
      · have hx : lookup (FsTree.dir zeroStat scs) q = some node := hlook
        rw [lookup_dir_stat_irrel zeroStat sdd scs q hqne] at hx
        exact hx
      · rw [hmEq]
        have hA : srcRoot ++ ([] : List String) ++ q = srcRoot ++ q := by simp
        have hB : 0 + q.length - 1 = q.length - 1 := by omega
        rw [hA, hB]
    · have hmap : (preorderL scs).map
          (fun q => srcRoot ++ ([] : List String) ++ q) =
          (preorderRoot (FsTree.dir sdd scs)).map (fun q => srcRoot ++ q) := by
        simp [preorderRoot]
      rw [← hmap]
      exact h3
    · refine List.Nodup.sublist h3 ?_
      refine List.Nodup.map ?_ (preorderL_nodup scs hwl)
      intro a b hab
      exact List.append_cancel_left hab

/-- Source tree of the C9 witness: a directory sub with a file f beneath
it and a top-level file g. -/
def c9Src : FsTree :=
  .dir zeroStat [("sub", .dir zeroStat [("f", .file ⟨0,0,0,0,100,0,0,0,5⟩)]),
                 ("g", .file ⟨0,0,0,0,100,0,0,0,3⟩)]

/-- Result of the concrete run used by the C9 witness. -/
def c9Run : FsTree × SyncStats :=
  pruneStage okEnv c9Src 1
    (copyStage okEnv (300, 0) ["s"] c9Src (FsTree.dir zeroStat []) zeroStats).1
    (copyStage okEnv (300, 0) ["s"] c9Src (FsTree.dir zeroStat []) zeroStats).2

/-- Witness for C9 at concrete inputs: a successful run over a two-level
source against an empty destination satisfies the synced-entries
characterization. -/
theorem C9_synced_entries_witness :
    wfT c9Src = true ∧
    isDirB c9Src = true ∧
    isDirB (FsTree.dir zeroStat []) = true ∧
    synchronize okEnv (300, 0) ⟨true⟩ ["s"] ["d"] (some c9Src)
      (some (FsTree.dir zeroStat [])) false = .ok c9Run ∧
    ∃ new : List FileMetadata,
      c9Run.2.synced_entries = new ∧
      new.length = c9Run.2.files_copied + c9Run.2.directories_created ∧
      (∀ m ∈ new, ∃ q node, q ≠ [] ∧ lookup c9Src q = some node ∧
        m = collectMetadata (["s"] ++ q) (q.length - 1) node ∧
        isSymlinkB node = false ∧
        (isDirB node = true → lookup (FsTree.dir zeroStat []) q = none)) ∧
      List.Sublist (new.map (fun m2 => m2.file))
        ((preorderRoot c9Src).map (fun q => ["s"] ++ q)) ∧
      (new.map (fun m2 => m2.file)).Nodup :=
  ⟨rfl, rfl, rfl, rfl,
   C9_synced_entries okEnv (300, 0) ⟨true⟩ ["s"] ["d"] c9Src
     (FsTree.dir zeroStat []) c9Run rfl rfl rfl rfl⟩

theorem setKey_self : ∀ (cs : List (String × FsTree)) (n : String) (c : FsTree),
    assoc cs n = some c → setKey cs n c = cs
  | [], n, c => by
    intro h
    simp [assoc] at h
  | (m, u) :: rest, n, c => by
    intro h
    by_cases hm : m = n
    · subst hm
      rw [assoc_cons_self] at h
      injection h with h2
      subst h2
      simp [setKey]
    · rw [assoc_cons_ne hm u rest] at h
      simp [setKey, hm, setKey_self rest n c h]

theorem setChild_self {dctx : FsTree} {n : String} {c : FsTree}
    (h : childAt dctx n = some c) : setChild dctx n c = dctx := by
  cases dctx with
  | dir d cs =>
    simp only [childAt] at h
    simp [setChild, setKey_self cs n c h]
  | file d => rfl
  | symlink d b => rfl
  | other d => rfl

theorem lookup_single_childAt (d : FsTree) (k : String) :
    lookup d [k] = childAt d k := by
  cases d with
  | dir dd cs =>
    rw [lookup_cons]
    cases h : childAt (FsTree.dir dd cs) k with
    | none => rfl
    | some c => exact lookup_nil c
  | file dd => rfl
  | symlink dd b => rfl
  | other dd => rfl

/-- A file just written by copy_file is never stale against its own
source when the source mtime does not exceed the write clock. -/
theorem shouldCopy_copiedStat (fd : StatData) (n1 n2 : Nat)
    (h : fd.mtime < n1 ∨ (fd.mtime = n1 ∧ fd.mtimeNsec ≤ n2)) :
    shouldCopy fd (copiedStat fd.size (n1, n2)) = false := by
  simp only [shouldCopy, copiedStat]
  simp only [Bool.or_eq_false_iff, Bool.and_eq_false_iff,
    decide_eq_false_iff_not]
  constructor
  · simp
  · omega

theorem lookup_prefix_isSome {d : FsTree} {q r : List String} {e : FsTree}
    (h : lookup d (q ++ r) = some e) : (lookup d q).isSome = true := by
  rw [lookup_append] at h
  cases hq : lookup d q with
  | none =>
    rw [hq] at h
    dsimp only at h
    exact Option.noConfusion h
  | some x => rfl

/-- A listing that lacks a key resolves no path starting with it. -/
theorem srcLook_not_key {cs : List (String × FsTree)} {k : String}
    (h : hasKey cs k = false) (ys : List String) :
    srcLook cs (k :: ys) = none := by
  rw [srcLook_cons, hasKey_false_assoc h]

/-- Some strict ancestor of the path holds a non-directory destination
entry, so the copy stage cannot reach the path. -/
def brokenUnder (d : FsTree) (p : List String) : Prop :=
  ∃ q1 q2, p = q1 ++ q2 ∧ q2 ≠ [] ∧
    ∃ e, lookup d q1 = some e ∧ isDirB e = false

/-- The path itself or some ancestor of it holds a non-directory entry. -/
def brokenAt (d : FsTree) (p : List String) : Prop :=
  ∃ q1 q2, p = q1 ++ q2 ∧ ∃ e, lookup d q1 = some e ∧ isDirB e = false

/-- Destination state at a source regular file's path from which a copy
stage will copy nothing: a fresh-enough destination file at the path, or
an unreachable path. -/
def fileGood (d : FsTree) (p : List String) (fd : StatData) : Prop :=
  (∃ d2, lookup d p = some (.file d2) ∧ shouldCopy fd d2 = false) ∨
    brokenUnder d p

/-- Destination state at a source directory's path from which a copy stage
will neither create nor copy anything at the path. -/
def dirGood (d : FsTree) (p : List String) : Prop :=
  (∃ dd2 dcs2, lookup d p = some (.dir dd2 dcs2)) ∨ brokenAt d p

/-- After the removal phase in the all-success environment, every surviving
non-symlink destination entry has a source counterpart. -/
theorem afterPrune_no_extraneous (s : FsTree) (rootLen : Nat) (dd : StatData)
    (dcs : List (String × FsTree)) (hwf : wfL dcs = true) :
    ∀ p e, p ≠ [] →
      lookup (pruneRemove okEnv (FsTree.dir dd dcs)
        (sortCands (pruneList okEnv s rootLen [] dcs))).1 p = some e →
      isSymlinkB e = false → (lookup s p).isSome = true := by
  intro p e hp he hsym
  by_contra hnot
  have hnone : lookup s p = none :=
    isSome_false_eq_none (by cases h : (lookup s p).isSome with
      | false => rfl
      | true => exact absurd h hnot)
  obtain ⟨e0, he0, ht0, hn0⟩ := pruneRemove_from_input okEnv _
    (FsTree.dir dd dcs) hwf p e he
  cases p with
  | nil => exact absurd rfl hp
  | cons x xs =>
    have hsrcl : srcLook dcs (x :: xs) = some e0 := by
      have hx := he0
      rw [lookup_cons] at hx
      rw [srcLook_cons]
      simp only [childAt] at hx
      exact hx
    have hcand := pruneList_complete s rootLen dcs [] (x :: xs) e0
      (by simp) hsrcl (by rw [isSymlinkB_of_topOf ht0]; exact hsym)
      (by simpa using hnone)
    simp only [List.nil_append] at hcand
    have hcand' := (sortCands_perm
      (pruneList okEnv s rootLen [] dcs)).mem_iff.mpr hcand
    have hgone := pruneRemove_gone _ (FsTree.dir dd dcs) hwf _ hcand'
      (by simp) (fun hdir => Or.inr ⟨e0, he0, by simpa using hdir⟩)
    rw [hgone] at he
    exact Option.noConfusion he

/-- The removal phase leaves every entry with a source counterpart in
place: same top, and identical if not a directory. -/
theorem afterPrune_preserve (s : FsTree) (rootLen : Nat) (dd : StatData)
    (dcs : List (String × FsTree)) (hwf : wfL dcs = true)
    (p : List String) (e : FsTree)
    (he : lookup (FsTree.dir dd dcs) p = some e)
    (hsome : (lookup s p).isSome = true) :
    ∃ e', lookup (pruneRemove okEnv (FsTree.dir dd dcs)
        (sortCands (pruneList okEnv s rootLen [] dcs))).1 p = some e' ∧
      topOf e' = topOf e ∧ (isDirB e = false → e' = e) := by
  have hframe : ∀ c ∈ sortCands (pruneList okEnv s rootLen [] dcs),
      ¬ within p c.path := by
    intro c hc ⟨r2, hr2⟩
    have hc' := (sortCands_perm (pruneList okEnv s rootLen [] dcs)).mem_iff.mp hc
    obtain ⟨hsrc, _⟩ := pruneList_sound okEnv s rootLen dcs [] hwf c hc'
    have hnone : lookup s p = none := by
      rw [hr2, lookup_append, isSome_false_eq_none hsrc]
    rw [hnone] at hsome
    simp at hsome
  have hst := pruneRemove_frame okEnv
    (sortCands (pruneList okEnv s rootLen [] dcs)) (FsTree.dir dd dcs) p hframe
  rw [he] at hst
  cases hafter : lookup (pruneRemove okEnv (FsTree.dir dd dcs)
      (sortCands (pruneList okEnv s rootLen [] dcs))).1 p with
  | none => rw [hafter] at hst; exact hst.elim
  | some e' =>
    rw [hafter] at hst
    exact ⟨e', rfl, hst.1.symm, fun hnd => (hst.2 hnd).symm⟩

mutual

/-- When every source file below the entry already has a fresh destination
copy or sits under a non-directory destination entry, and every source
directory below it likewise has a destination directory or is unreachable,
the copy stage changes nothing at the entry: the destination context comes
back untouched, and no copy, creation, deletion or snapshot happens. -/
theorem copyTree_good_id (now : Nat × Nat) (srcRoot : List String) :
    ∀ (t : FsTree) (depth : Nat) (rel : List String) (n : String)
      (dctx : FsTree) (stats : SyncStats), wfT t = true →
      (∀ q fd, srcLook [(n, t)] q = some (.file fd) → fileGood dctx q fd) →
      (∀ q dd2 dcs2, srcLook [(n, t)] q = some (.dir dd2 dcs2) →
        dirGood dctx q) →
      (copyTree okEnv now srcRoot depth rel n t dctx stats).1 = dctx ∧
      copyIdle stats (copyTree okEnv now srcRoot depth rel n t dctx stats).2
  | .symlink sd b, depth, rel, n, dctx, stats => by
    intro _ _ _
    have hres : copyTree okEnv now srcRoot depth rel n (.symlink sd b) dctx
        stats = (dctx, bumpSkipped (bumpScanned stats)) := by
      simp [copyTree, okEnv]
    rw [hres]
    exact ⟨rfl, copyIdle_trans (copyIdle_bumpScanned stats)
      (copyIdle_bumpSkipped _)⟩
  | .other od, depth, rel, n, dctx, stats => by
    intro _ _ _
    have hres : copyTree okEnv now srcRoot depth rel n (.other od) dctx
        stats = (dctx, bumpSkipped (bumpScanned stats)) := by
      simp [copyTree, okEnv]
    rw [hres]
    exact ⟨rfl, copyIdle_trans (copyIdle_bumpScanned stats)
      (copyIdle_bumpSkipped _)⟩
  | .file d, depth, rel, n, dctx, stats => by
    intro _ hfile _
    have hg : fileGood dctx [n] d := hfile [n] d (by
      rw [srcLook_single_self]
      exact lookup_nil _)
    rcases hg with ⟨d2, hl, hsc⟩ | ⟨q1, q2, heq, hq2ne, e, hle, hnd⟩
    · have hdst : childAt dctx n = some (.file d2) := by
        rw [← lookup_single_childAt]
        exact hl
      have hres : copyTree okEnv now srcRoot depth rel n (.file d) dctx
          stats = (dctx, bumpSkipped (bumpScanned stats)) := by
        simp [copyTree, copyFileEntry, okEnv, hdst, isRegularView, hsc]
      rw [hres]
      exact ⟨rfl, copyIdle_trans (copyIdle_bumpScanned stats)
        (copyIdle_bumpSkipped _)⟩
    · cases q1 with
      | cons z zs =>
        exfalso
        have hlen := congrArg List.length heq
        cases q2 with
        | nil => exact hq2ne rfl
        | cons w ws =>
          simp only [List.length_append, List.length_cons, List.length_nil]
            at hlen
          omega
      | nil =>
        rw [lookup_nil, Option.some.injEq] at hle
        subst hle
        exact copyTree_nondir okEnv now srcRoot depth rel n (.file d) dctx
          stats hnd
  | .dir dd cs2, depth, rel, n, dctx, stats => by
    intro hw hfile hdir2
    have hwcs : wfL cs2 = true := hw
    have hg : dirGood dctx [n] := hdir2 [n] dd cs2 (by
      rw [srcLook_single_self]
      exact lookup_nil _)
    rcases hg with ⟨dd2, dcs2, hl⟩ | ⟨q1, q2, heq, e, hle, hnd⟩
    · -- destination directory already exists: descend, change nothing
      have hdst : childAt dctx n = some (.dir dd2 dcs2) := by
        rw [← lookup_single_childAt]
        exact hl
      have hdctx : isDirB dctx = true := childAt_some_isDirB hdst
      have hf2 : ∀ q fd, srcLook cs2 q = some (.file fd) →
          fileGood (FsTree.dir dd2 dcs2) q fd := by
        intro q fd hq
        have hqne : q ≠ [] := by
          intro he2
          subst he2
          rw [srcLook_nil_ne] at hq
          exact FsTree.noConfusion (Option.some.inj hq)
        have houter : srcLook [(n, FsTree.dir dd cs2)] (n :: q) =
            some (.file fd) := by
          rw [srcLook_single_self]
          have hx : lookup (FsTree.dir zeroStat cs2) q = some (.file fd) := hq
          rw [lookup_dir_stat_irrel zeroStat dd cs2 q hqne] at hx
          exact hx
        rcases hfile (n :: q) fd houter with
          ⟨d2, hl2, hsc⟩ | ⟨p1, p2, heq2, hp2ne, e2, hle2, hnd2⟩
        · left
          refine ⟨d2, ?_, hsc⟩
          rw [lookup_cons_some q hdst] at hl2
          exact hl2
        · cases p1 with
          | nil =>
            rw [lookup_nil, Option.some.injEq] at hle2
            subst hle2
            rw [hnd2] at hdctx
            exact Bool.noConfusion hdctx
          | cons z zs =>
            have hz : n = z := by
              have := congrArg (fun l => l.head?) heq2
              simpa using this
            subst hz
            rw [List.cons_append] at heq2
            injection heq2 with _ heq3
            rw [lookup_cons_some zs hdst] at hle2
            exact Or.inr ⟨zs, p2, heq3, hp2ne, e2, hle2, hnd2⟩
      have hd2b : ∀ q ddx dcsx, srcLook cs2 q = some (.dir ddx dcsx) →
          dirGood (FsTree.dir dd2 dcs2) q := by
        intro q ddx dcsx hq
        by_cases hqe : q = []
        · subst hqe
          exact Or.inl ⟨dd2, dcs2, lookup_nil _⟩
        · have houter : srcLook [(n, FsTree.dir dd cs2)] (n :: q) =
              some (.dir ddx dcsx) := by
            rw [srcLook_single_self]
            have hx : lookup (FsTree.dir zeroStat cs2) q =
                some (.dir ddx dcsx) := hq
            rw [lookup_dir_stat_irrel zeroStat dd cs2 q hqe] at hx
            exact hx
          rcases hdir2 (n :: q) ddx dcsx houter with
            ⟨dd3, dcs3, hl2⟩ | ⟨p1, p2, heq2, e2, hle2, hnd2⟩
          · left
            refine ⟨dd3, dcs3, ?_⟩
            rw [lookup_cons_some q hdst] at hl2
            exact hl2
          · cases p1 with
            | nil =>
              rw [lookup_nil, Option.some.injEq] at hle2
              subst hle2
              rw [hnd2] at hdctx
              exact Bool.noConfusion hdctx
            | cons z zs =>
              have hz : n = z := by
                have := congrArg (fun l => l.head?) heq2
                simpa using this
              subst hz
              rw [List.cons_append] at heq2
              injection heq2 with _ heq3
              rw [lookup_cons_some zs hdst] at hle2
              exact Or.inr ⟨zs, p2, heq3, e2, hle2, hnd2⟩
      obtain ⟨hid, hidle⟩ := copyList_good_id now srcRoot cs2 (depth + 1)
        (rel ++ [n]) (.dir dd2 dcs2) (bumpScanned stats) hwcs hf2 hd2b
      have hres : copyTree okEnv now srcRoot depth rel n (.dir dd cs2) dctx
          stats =
          (setChild dctx n (copyList okEnv now srcRoot (depth + 1)
              (rel ++ [n]) cs2 (.dir dd2 dcs2) (bumpScanned stats)).1,
           (copyList okEnv now srcRoot (depth + 1) (rel ++ [n]) cs2
              (.dir dd2 dcs2) (bumpScanned stats)).2) := by
        simp [copyTree, okEnv, hdst]
      rw [hres]
      refine ⟨?_, copyIdle_trans (copyIdle_bumpScanned stats) hidle⟩
      rw [hid]
      exact setChild_self hdst
    · cases q1 with
      | nil =>
        rw [lookup_nil, Option.some.injEq] at hle
        subst hle
        exact copyTree_nondir okEnv now srcRoot depth rel n (.dir dd cs2) dctx
          stats hnd
      | cons z zs =>
        have hz : n = z := by
          have := congrArg (fun l => l.head?) heq
          simpa using this
        subst hz
        rw [List.cons_append] at heq
        injection heq with _ heq3
        obtain ⟨hzs, hq2⟩ := List.append_eq_nil.mp heq3.symm
        subst hzs
        subst hq2
        have hdst : childAt dctx n = some e := by
          rw [← lookup_single_childAt]
          exact hle
        obtain ⟨hid, hidle⟩ := copyList_nondir okEnv now srcRoot (depth + 1)
          (rel ++ [n]) cs2 e (bumpScanned stats) hnd
        have hres : copyTree okEnv now srcRoot depth rel n (.dir dd cs2) dctx
            stats =
            (setChild dctx n (copyList okEnv now srcRoot (depth + 1)
                (rel ++ [n]) cs2 e (bumpScanned stats)).1,
             (copyList okEnv now srcRoot (depth + 1) (rel ++ [n]) cs2 e
                (bumpScanned stats)).2) := by
          simp [copyTree, okEnv, hdst]
        rw [hres]
        refine ⟨?_, copyIdle_trans (copyIdle_bumpScanned stats) hidle⟩
        rw [hid]
        exact setChild_self hdst

theorem copyList_good_id (now : Nat × Nat) (srcRoot : List String) :
    ∀ (cs : List (String × FsTree)) (depth : Nat) (rel : List String)
      (dctx : FsTree) (stats : SyncStats), wfL cs = true →
      (∀ q fd, srcLook cs q = some (.file fd) → fileGood dctx q fd) →
      (∀ q dd2 dcs2, srcLook cs q = some (.dir dd2 dcs2) → dirGood dctx q) →
      (copyList okEnv now srcRoot depth rel cs dctx stats).1 = dctx ∧
      copyIdle stats (copyList okEnv now srcRoot depth rel cs dctx stats).2
  | [], depth, rel, dctx, stats => by
    intro _ _ _
    exact ⟨rfl, copyIdle_refl stats⟩
  | (n, t) :: rest, depth, rel, dctx, stats => by
    intro hwf hfile hdir2
    simp only [wfL, Bool.and_eq_true, Bool.not_eq_true'] at hwf
    have hf1 : ∀ q fd, srcLook [(n, t)] q = some (.file fd) →
        fileGood dctx q fd := by
      intro q fd hq
      have hqne : q ≠ [] := by
        intro he2
        subst he2
        rw [srcLook_nil_ne] at hq
        exact FsTree.noConfusion (Option.some.inj hq)
      exact hfile q fd (srcLook_single_cons rest hqne hq)
    have hd1 : ∀ q dd2 dcs2, srcLook [(n, t)] q = some (.dir dd2 dcs2) →
        dirGood dctx q := by
      intro q dd2 dcs2 hq
      by_cases hqe : q = []
      · subst hqe
        exact hdir2 [] zeroStat ((n, t) :: rest) (srcLook_nil_ne _)
      · exact hdir2 q dd2 dcs2 (srcLook_single_cons rest hqe hq)
    obtain ⟨hid1, hidle1⟩ := copyTree_good_id now srcRoot t depth rel n dctx
      stats hwf.1.2 hf1 hd1
    have hf2 : ∀ q fd, srcLook rest q = some (.file fd) →
        fileGood dctx q fd := by
      intro q fd hq
      have hqne : q ≠ [] := by
        intro he2
        subst he2
        rw [srcLook_nil_ne] at hq
        exact FsTree.noConfusion (Option.some.inj hq)
      exact hfile q fd (srcLook_rest_cons hwf.1.1 hqne hq)
    have hd2 : ∀ q dd2 dcs2, srcLook rest q = some (.dir dd2 dcs2) →
        dirGood dctx q := by
      intro q dd2 dcs2 hq
      by_cases hqe : q = []
      · subst hqe
        exact hdir2 [] zeroStat ((n, t) :: rest) (srcLook_nil_ne _)
      · exact hdir2 q dd2 dcs2 (srcLook_rest_cons hwf.1.1 hqe hq)
    obtain ⟨hid2, hidle2⟩ := copyList_good_id now srcRoot rest depth rel
      (copyTree okEnv now srcRoot depth rel n t dctx stats).1
      (copyTree okEnv now srcRoot depth rel n t dctx stats).2 hwf.2
      (by rw [hid1]; exact hf2) (by rw [hid1]; exact hd2)
    simp only [copyList]
    constructor
    · rw [hid2]
      exact hid1
    · exact copyIdle_trans hidle1 hidle2

end

/-- Handling a regular source file against a directory destination context
in the all-success environment always ends with a regular destination file
the next freshness check will not copy, provided the source mtime does not
exceed the copy clock. -/
theorem copyFileEntry_result (now : Nat × Nat) (rel : List String) (n : String)
    (d : StatData) (m : FileMetadata) (dctx : FsTree) (stats : SyncStats)
    (hdir : isDirB dctx = true)
    (hmt : d.mtime < now.1 ∨ (d.mtime = now.1 ∧ d.mtimeNsec ≤ now.2)) :
    ∃ d2, childAt (copyFileEntry okEnv now rel n d m dctx stats).1 n =
      some (.file d2) ∧ shouldCopy d d2 = false := by
  have hcs : shouldCopy d (copiedStat d.size now) = false :=
    shouldCopy_copiedStat d now.1 now.2 hmt
  have hrmdir : isDirB (removeChild dctx n) = true := by
    rw [isDirB_removeChild]
    exact hdir
  unfold copyFileEntry
  cases hc : childAt dctx n with
  | none =>
    refine ⟨copiedStat d.size now, ?_, hcs⟩
    simp [performCopy, okEnv, hdir, childAt_setChild_self hdir]
  | some c =>
    dsimp only
    cases c with
    | file d2 =>
      by_cases hsc : shouldCopy d d2 = true
      · refine ⟨copiedStat d.size now, ?_, hcs⟩
        simp [isRegularView, okEnv, hsc, performCopy, hdir,
          childAt_setChild_self hdir]
      · rw [Bool.not_eq_true] at hsc
        refine ⟨d2, ?_, hsc⟩
        simp [isRegularView, okEnv, hsc, hc]
    | symlink sd b =>
      by_cases hb : b = true
      · subst hb
        refine ⟨copiedStat d.size now, ?_, hcs⟩
        simp [isRegularView, okEnv, performCopy, hrmdir,
          childAt_setChild_self hrmdir]
      · rw [Bool.not_eq_true] at hb
        subst hb
        refine ⟨copiedStat d.size now, ?_, hcs⟩
        simp [isRegularView, okEnv, performCopy, hrmdir,
          childAt_setChild_self hrmdir]
    | dir dd2 dcs2 =>
      refine ⟨copiedStat d.size now, ?_, hcs⟩
      simp [isRegularView, okEnv, performCopy, hrmdir,
        childAt_setChild_self hrmdir]
    | other od =>
      refine ⟨copiedStat d.size now, ?_, hcs⟩
      simp [isRegularView, okEnv, performCopy, hrmdir,
        childAt_setChild_self hrmdir]

mutual

/-- A copy-stage pass in the all-success environment, over sources whose
file mtimes do not exceed the clock, leaves every source file path below
the entry with a fresh destination copy or under a non-directory
destination entry, and every source directory path with a destination
directory or a non-directory entry at or above it. -/
theorem copyTree_establishes (now : Nat × Nat) (srcRoot : List String) :
    ∀ (t : FsTree) (depth : Nat) (rel : List String) (n : String)
      (dctx : FsTree) (stats : SyncStats), wfT t = true →
      (∀ q fd, srcLook [(n, t)] q = some (.file fd) →
        fd.mtime < now.1 ∨ (fd.mtime = now.1 ∧ fd.mtimeNsec ≤ now.2)) →
      ∀ q node, srcLook [(n, t)] q = some node → q ≠ [] →
        (∀ fd, node = .file fd →
          fileGood (copyTree okEnv now srcRoot depth rel n t dctx stats).1
            q fd) ∧
        (∀ dd2 dcs2, node = .dir dd2 dcs2 →
          dirGood (copyTree okEnv now srcRoot depth rel n t dctx stats).1 q)
  | .symlink sd b, depth, rel, n, dctx, stats => by
    intro _ _ q node hlook hqne
    cases q with
    | nil => exact absurd rfl hqne
    | cons x xs =>
      by_cases hx : n = x
      · subst hx
        rw [srcLook_single_self] at hlook
        cases xs with
        | nil =>
          rw [lookup_nil, Option.some.injEq] at hlook
          subst hlook
          exact ⟨fun fd hEq => FsTree.noConfusion hEq,
                 fun dd2 dcs2 hEq => FsTree.noConfusion hEq⟩
        | cons y ys => simp [lookup] at hlook
      · rw [srcLook_single_ne n x (.symlink sd b) xs hx] at hlook
        exact Option.noConfusion hlook
  | .other od, depth, rel, n, dctx, stats => by
    intro _ _ q node hlook hqne
    cases q with
    | nil => exact absurd rfl hqne
    | cons x xs =>
      by_cases hx : n = x
      · subst hx
        rw [srcLook_single_self] at hlook
        cases xs with
        | nil =>
          rw [lookup_nil, Option.some.injEq] at hlook
          subst hlook
          exact ⟨fun fd hEq => FsTree.noConfusion hEq,
                 fun dd2 dcs2 hEq => FsTree.noConfusion hEq⟩
        | cons y ys => simp [lookup] at hlook
      · rw [srcLook_single_ne n x (.other od) xs hx] at hlook
        exact Option.noConfusion hlook
  | .file d, depth, rel, n, dctx, stats => by
    intro _ hmt q node hlook hqne
    cases q with
    | nil => exact absurd rfl hqne
    | cons x xs =>
      by_cases hx : n = x
      · subst hx
        rw [srcLook_single_self] at hlook
        cases xs with
        | nil =>
          rw [lookup_nil, Option.some.injEq] at hlook
          subst hlook
          refine ⟨?_, fun dd2 dcs2 hEq => FsTree.noConfusion hEq⟩
          intro fd hEq
          injection hEq with hEq2
          subst hEq2
          by_cases hdir : isDirB dctx = true
          · have hres : (copyTree okEnv now srcRoot depth rel n (.file d) dctx
                stats).1 =
                (copyFileEntry okEnv now rel n d
                  (collectMetadata (srcRoot ++ (rel ++ [n])) depth (.file d))
                  dctx (bumpScanned stats)).1 := by
              simp [copyTree, okEnv]
            rw [hres]
            obtain ⟨d2, hca, hsc⟩ := copyFileEntry_result now rel n d
              (collectMetadata (srcRoot ++ (rel ++ [n])) depth (.file d)) dctx
              (bumpScanned stats) hdir (hmt [n] d (by
                rw [srcLook_single_self]
                exact lookup_nil _))
            left
            refine ⟨d2, ?_, hsc⟩
            rw [lookup_single_childAt]
            exact hca
          · rw [Bool.not_eq_true] at hdir
            obtain ⟨hid, _⟩ := copyTree_nondir okEnv now srcRoot depth rel n
              (.file d) dctx stats hdir
            rw [hid]
            exact Or.inr ⟨[], [n], rfl, by simp, dctx, lookup_nil dctx, hdir⟩
        | cons y ys => simp [lookup] at hlook
      · rw [srcLook_single_ne n x (.file d) xs hx] at hlook
        exact Option.noConfusion hlook
  | .dir dd cs2, depth, rel, n, dctx, stats => by
    intro hw hmt q node hlook hqne
    have hwcs : wfL cs2 = true := hw
    cases q with
    | nil => exact absurd rfl hqne
    | cons x xs =>
      by_cases hx : n = x
      case neg =>
        rw [srcLook_single_ne n x (.dir dd cs2) xs hx] at hlook
        exact Option.noConfusion hlook
      case pos =>
      subst hx
      rw [srcLook_single_self] at hlook
      have hmt2 : ∀ q2 fd, srcLook cs2 q2 = some (.file fd) →
          fd.mtime < now.1 ∨ (fd.mtime = now.1 ∧ fd.mtimeNsec ≤ now.2) := by
        intro q2 fd hq
        have hq2ne : q2 ≠ [] := by
          intro he2
          subst he2
          rw [srcLook_nil_ne] at hq
          exact FsTree.noConfusion (Option.some.inj hq)
        refine hmt (n :: q2) fd ?_
        rw [srcLook_single_self]
        have hx2 : lookup (FsTree.dir zeroStat cs2) q2 = some (.file fd) := hq
        rw [lookup_dir_stat_irrel zeroStat dd cs2 q2 hq2ne] at hx2
        exact hx2
      by_cases hdir : isDirB dctx = true
      case neg =>
        rw [Bool.not_eq_true] at hdir
        obtain ⟨hid, _⟩ := copyTree_nondir okEnv now srcRoot depth rel n
          (.dir dd cs2) dctx stats hdir
        refine ⟨fun fd hEq => ?_, fun dd2 dcs2 hEq => ?_⟩
        · rw [hid]
          exact Or.inr ⟨[], n :: xs, rfl, by simp, dctx, lookup_nil dctx, hdir⟩
        · rw [hid]
          exact Or.inr ⟨[], n :: xs, rfl, dctx, lookup_nil dctx, hdir⟩
      case pos =>
      cases hc : childAt dctx n with
      | some c =>
        have hres : (copyTree okEnv now srcRoot depth rel n (.dir dd cs2) dctx
            stats).1 =
            setChild dctx n (copyList okEnv now srcRoot (depth + 1)
              (rel ++ [n]) cs2 c (bumpScanned stats)).1 := by
          simp [copyTree, okEnv, hc]
        rw [hres]
        cases xs with
        | nil =>
          rw [lookup_nil, Option.some.injEq] at hlook
          subst hlook
          refine ⟨fun fd hEq => FsTree.noConfusion hEq,
            fun dd2 dcs2 hEq => ?_⟩
          cases hL : (copyList okEnv now srcRoot (depth + 1) (rel ++ [n]) cs2 c
              (bumpScanned stats)).1 with
          | dir dd3 dcs3 =>
            exact Or.inl ⟨dd3, dcs3, by
              rw [lookup_single_childAt, childAt_setChild_self hdir]⟩
          | file fd3 =>
            exact Or.inr ⟨[n], [], rfl, .file fd3, by
              rw [lookup_single_childAt, childAt_setChild_self hdir], rfl⟩
          | symlink sd3 b3 =>
            exact Or.inr ⟨[n], [], rfl, .symlink sd3 b3, by
              rw [lookup_single_childAt, childAt_setChild_self hdir], rfl⟩
          | other od3 =>
            exact Or.inr ⟨[n], [], rfl, .other od3, by
              rw [lookup_single_childAt, childAt_setChild_self hdir], rfl⟩
        | cons y ys =>
          have hlook2 : srcLook cs2 (y :: ys) = some node := by
            have hx2 := hlook
            rw [lookup_dir_stat_irrel dd zeroStat cs2 (y :: ys) (by simp)]
              at hx2
            exact hx2
          have hIH := copyList_establishes now srcRoot cs2 (depth + 1)
            (rel ++ [n]) c (bumpScanned stats) hwcs hmt2 (y :: ys) node hlook2
            (by simp)
          refine ⟨fun fd hEq => ?_, fun dd2 dcs2 hEq => ?_⟩
          · rcases hIH.1 fd hEq with
              ⟨d2, hl2, hsc⟩ | ⟨p1, p2, heq2, hp2ne, e2, hle2, hnd2⟩
            · left
              refine ⟨d2, ?_, hsc⟩
              rw [lookup_setChild_self hdir]
              exact hl2
            · right
              refine ⟨n :: p1, p2, by rw [List.cons_append, ← heq2], hp2ne,
                e2, ?_, hnd2⟩
              rw [lookup_setChild_self hdir]
              exact hle2
          · rcases hIH.2 dd2 dcs2 hEq with
              ⟨dd3, dcs3, hl2⟩ | ⟨p1, p2, heq2, e2, hle2, hnd2⟩
            · left
              refine ⟨dd3, dcs3, ?_⟩
              rw [lookup_setChild_self hdir]
              exact hl2
            · right
              refine ⟨n :: p1, p2, by rw [List.cons_append, ← heq2], e2, ?_,
                hnd2⟩
              rw [lookup_setChild_self hdir]
              exact hle2
      | none =>
        have hres : (copyTree okEnv now srcRoot depth rel n (.dir dd cs2) dctx
            stats).1 =
            setChild dctx n (copyList okEnv now srcRoot (depth + 1)
              (rel ++ [n]) cs2 (FsTree.dir (createdDirStat now) [])
              (bumpDirCreated (collectMetadata (srcRoot ++ (rel ++ [n])) depth
                (.dir dd cs2)) (bumpScanned stats))).1 := by
          simp [copyTree, okEnv, hc, hdir]
        rw [hres]
        cases xs with
        | nil =>
          rw [lookup_nil, Option.some.injEq] at hlook
          subst hlook
          refine ⟨fun fd hEq => FsTree.noConfusion hEq,
            fun dd2 dcs2 hEq => ?_⟩
          cases hL : (copyList okEnv now srcRoot (depth + 1) (rel ++ [n]) cs2
              (FsTree.dir (createdDirStat now) [])
              (bumpDirCreated (collectMetadata (srcRoot ++ (rel ++ [n])) depth
                (.dir dd cs2)) (bumpScanned stats))).1 with
          | dir dd3 dcs3 =>
            exact Or.inl ⟨dd3, dcs3, by
              rw [lookup_single_childAt, childAt_setChild_self hdir]⟩
          | file fd3 =>
            exact Or.inr ⟨[n], [], rfl, .file fd3, by
              rw [lookup_single_childAt, childAt_setChild_self hdir], rfl⟩
          | symlink sd3 b3 =>
            exact Or.inr ⟨[n], [], rfl, .symlink sd3 b3, by
              rw [lookup_single_childAt, childAt_setChild_self hdir], rfl⟩
          | other od3 =>
            exact Or.inr ⟨[n], [], rfl, .other od3, by
              rw [lookup_single_childAt, childAt_setChild_self hdir], rfl⟩
        | cons y ys =>
          have hlook2 : srcLook cs2 (y :: ys) = some node := by
            have hx2 := hlook
            rw [lookup_dir_stat_irrel dd zeroStat cs2 (y :: ys) (by simp)]
              at hx2
            exact hx2
          have hIH := copyList_establishes now srcRoot cs2 (depth + 1)
            (rel ++ [n]) (FsTree.dir (createdDirStat now) [])
            (bumpDirCreated (collectMetadata (srcRoot ++ (rel ++ [n])) depth
              (.dir dd cs2)) (bumpScanned stats)) hwcs hmt2 (y :: ys) node
            hlook2 (by simp)
          refine ⟨fun fd hEq => ?_, fun dd2 dcs2 hEq => ?_⟩
          · rcases hIH.1 fd hEq with
              ⟨d2, hl2, hsc⟩ | ⟨p1, p2, heq2, hp2ne, e2, hle2, hnd2⟩
            · left
              refine ⟨d2, ?_, hsc⟩
              rw [lookup_setChild_self hdir]
              exact hl2
            · right
              refine ⟨n :: p1, p2, by rw [List.cons_append, ← heq2], hp2ne,
                e2, ?_, hnd2⟩
              rw [lookup_setChild_self hdir]
              exact hle2
          · rcases hIH.2 dd2 dcs2 hEq with
              ⟨dd3, dcs3, hl2⟩ | ⟨p1, p2, heq2, e2, hle2, hnd2⟩
            · left
              refine ⟨dd3, dcs3, ?_⟩
              rw [lookup_setChild_self hdir]
              exact hl2
            · right
              refine ⟨n :: p1, p2, by rw [List.cons_append, ← heq2], e2, ?_,
                hnd2⟩
              rw [lookup_setChild_self hdir]
              exact hle2

/-- The list version of the establishment pass. -/
theorem copyList_establishes (now : Nat × Nat) (srcRoot : List String) :
    ∀ (cs : List (String × FsTree)) (depth : Nat) (rel : List String)
      (dctx : FsTree) (stats : SyncStats), wfL cs = true →
      (∀ q fd, srcLook cs q = some (.file fd) →
        fd.mtime < now.1 ∨ (fd.mtime = now.1 ∧ fd.mtimeNsec ≤ now.2)) →
      ∀ q node, srcLook cs q = some node → q ≠ [] →
        (∀ fd, node = .file fd →
          fileGood (copyList okEnv now srcRoot depth rel cs dctx stats).1
            q fd) ∧
        (∀ dd2 dcs2, node = .dir dd2 dcs2 →
          dirGood (copyList okEnv now srcRoot depth rel cs dctx stats).1 q)
  | [], depth, rel, dctx, stats => by
    intro _ _ q node hlook hqne
    cases q with
    | nil => exact absurd rfl hqne
    | cons x xs =>
      rw [srcLook_cons] at hlook
      simp [assoc] at hlook
  | (n, t) :: rest, depth, rel, dctx, stats => by
    intro hwf hmt q node hlook hqne
    simp only [wfL, Bool.and_eq_true, Bool.not_eq_true'] at hwf
    simp only [copyList]
    cases q with
    | nil => exact absurd rfl hqne
    | cons x xs =>
      by_cases hx : n = x
      case pos =>
        subst hx
        have hlook1 : srcLook [(n, t)] (n :: xs) = some node := by
          rw [srcLook_single_self]
          rw [srcLook_cons, assoc_cons_self] at hlook
          exact hlook
        have hmt1 : ∀ q2 fd, srcLook [(n, t)] q2 = some (.file fd) →
            fd.mtime < now.1 ∨ (fd.mtime = now.1 ∧ fd.mtimeNsec ≤ now.2) := by
          intro q2 fd hq
          have hq2ne : q2 ≠ [] := by
            intro he2
            subst he2
            rw [srcLook_nil_ne] at hq
            exact FsTree.noConfusion (Option.some.inj hq)
          exact hmt q2 fd (srcLook_single_cons rest hq2ne hq)
        have hstep := copyTree_establishes now srcRoot t depth rel n dctx
          stats hwf.1.2 hmt1 (n :: xs) node hlook1 (by simp)
        have hfr : ∀ ys, lookup (copyList okEnv now srcRoot depth rel rest
            (copyTree okEnv now srcRoot depth rel n t dctx stats).1
            (copyTree okEnv now srcRoot depth rel n t dctx stats).2).1
            (n :: ys) =
            lookup (copyTree okEnv now srcRoot depth rel n t dctx stats).1
              (n :: ys) := by
          intro ys
          refine copyList_lookup_frame okEnv now srcRoot rest depth rel _ _
            (n :: ys) hwf.2 (srcLook_not_key hwf.1.1 ys) ?_
          intro qq rr hqq hrr fd
          cases qq with
          | nil => simp [srcLook_nil_ne]
          | cons z zs =>
            have hz : n = z := by
              have := congrArg (fun l => l.head?) hqq
              simpa using this
            subst hz
            rw [srcLook_not_key hwf.1.1]
            exact fun h => Option.noConfusion h
        have htop : topOf (copyList okEnv now srcRoot depth rel rest
            (copyTree okEnv now srcRoot depth rel n t dctx stats).1
            (copyTree okEnv now srcRoot depth rel n t dctx stats).2).1 =
            topOf (copyTree okEnv now srcRoot depth rel n t dctx stats).1 :=
          (copyList_shape okEnv now srcRoot depth rel rest _ _).1
        refine ⟨fun fd hEq => ?_, fun dd2 dcs2 hEq => ?_⟩
        · rcases hstep.1 fd hEq with
            ⟨d2, hl2, hsc⟩ | ⟨p1, p2, heq2, hp2ne, e2, hle2, hnd2⟩
          · left
            refine ⟨d2, ?_, hsc⟩
            rw [hfr xs]
            exact hl2
          · right
            cases p1 with
            | nil =>
              rw [lookup_nil, Option.some.injEq] at hle2
              subst hle2
              refine ⟨[], p2, heq2, hp2ne, _, lookup_nil _, ?_⟩
              rw [isDirB_of_topOf htop]
              exact hnd2
            | cons z zs =>
              have hz : n = z := by
                have := congrArg (fun l => l.head?) heq2
                simpa using this
              subst hz
              refine ⟨n :: zs, p2, heq2, hp2ne, e2, ?_, hnd2⟩
              rw [hfr zs]
              exact hle2
        · rcases hstep.2 dd2 dcs2 hEq with
            ⟨dd3, dcs3, hl2⟩ | ⟨p1, p2, heq2, e2, hle2, hnd2⟩
          · left
            refine ⟨dd3, dcs3, ?_⟩
            rw [hfr xs]
            exact hl2
          · right
            cases p1 with
            | nil =>
              rw [lookup_nil, Option.some.injEq] at hle2
              subst hle2
              refine ⟨[], p2, heq2, _, lookup_nil _, ?_⟩
              rw [isDirB_of_topOf htop]
              exact hnd2
            | cons z zs =>
              have hz : n = z := by
                have := congrArg (fun l => l.head?) heq2
                simpa using this
              subst hz
              refine ⟨n :: zs, p2, heq2, e2, ?_, hnd2⟩
              rw [hfr zs]
              exact hle2
      case neg =>
        have hlook2 : srcLook rest (x :: xs) = some node := by
          rw [srcLook_cons, assoc_cons_ne hx t rest] at hlook
          rw [srcLook_cons]
          exact hlook
        have hmt2 : ∀ q2 fd, srcLook rest q2 = some (.file fd) →
            fd.mtime < now.1 ∨ (fd.mtime = now.1 ∧ fd.mtimeNsec ≤ now.2) := by
          intro q2 fd hq
          have hq2ne : q2 ≠ [] := by
            intro he2
            subst he2
            rw [srcLook_nil_ne] at hq
            exact FsTree.noConfusion (Option.some.inj hq)
          exact hmt q2 fd (srcLook_rest_cons hwf.1.1 hq2ne hq)
        exact copyList_establishes now srcRoot rest depth rel
          (copyTree okEnv now srcRoot depth rel n t dctx stats).1
          (copyTree okEnv now srcRoot depth rel n t dctx stats).2 hwf.2 hmt2
          (x :: xs) node hlook2 (by simp)

end

/-- After one pruning run in the all-success environment over a source
whose file mtimes do not exceed the clock, the destination is well-formed,
a directory, holds no extraneous non-symlink entries, and every source
path is in a state the next copy stage will not touch. -/
theorem run_good (now : Nat × Nat) (srcRoot dstRoot : List String)
    (s d0 : FsTree) (r : FsTree × SyncStats)
    (hwfs : wfT s = true) (hwfd : wfT d0 = true)
    (hs : isDirB s = true) (hd : isDirB d0 = true)
    (hmt : ∀ p fd, lookup s p = some (.file fd) →
      fd.mtime < now.1 ∨ (fd.mtime = now.1 ∧ fd.mtimeNsec ≤ now.2))
    (hok : synchronize okEnv now ⟨true⟩ srcRoot dstRoot (some s) (some d0)
      false = .ok r) :
    wfT r.1 = true ∧ isDirB r.1 = true ∧
    (∀ p e, p ≠ [] → lookup r.1 p = some e → isSymlinkB e = false →
      (lookup s p).isSome = true) ∧
    (∀ p fd, lookup s p = some (.file fd) → fileGood r.1 p fd) ∧
    (∀ p dd2 dcs2, p ≠ [] → lookup s p = some (.dir dd2 dcs2) →
      dirGood r.1 p) := by
  have hr : r = pruneStage okEnv s dstRoot.length
      (copyStage okEnv now srcRoot s d0 zeroStats).1
      (copyStage okEnv now srcRoot s d0 zeroStats).2 := by
    unfold synchronize synchronizeStages at hok
    simp only [hs, hd, Bool.not_true, Bool.false_eq_true, if_false, if_true]
      at hok
    injection hok with hok2
    exact hok2.symm
  cases s with
  | file sd => simp [isDirB] at hs
  | symlink sd b => simp [isDirB] at hs
  | other sd => simp [isDirB] at hs
  | dir sdd scs =>
    have hwl : wfL scs = true := hwfs
    have hwfac : wfT (copyStage okEnv now srcRoot (.dir sdd scs) d0
        zeroStats).1 = true :=
      copyList_wf okEnv now srcRoot scs 0 [] d0 zeroStats hwfd
    have htop : topOf (copyStage okEnv now srcRoot (.dir sdd scs) d0
        zeroStats).1 = topOf d0 :=
      (copyList_shape okEnv now srcRoot 0 [] scs d0 zeroStats).1
    have hdac : isDirB (copyStage okEnv now srcRoot (.dir sdd scs) d0
        zeroStats).1 = true := by
      rw [isDirB_of_topOf htop]
      exact hd
    have hmt0 : ∀ q fd, srcLook scs q = some (.file fd) →
        fd.mtime < now.1 ∨ (fd.mtime = now.1 ∧ fd.mtimeNsec ≤ now.2) := by
      intro q fd hq
      have hqne : q ≠ [] := by
        intro he
        subst he
        rw [srcLook_nil_ne] at hq
        exact FsTree.noConfusion (Option.some.inj hq)
      refine hmt q fd ?_
      cases q with
      | nil => exact absurd rfl hqne
      | cons y ys =>
        have hx : lookup (FsTree.dir zeroStat scs) (y :: ys) =
            some (.file fd) := hq
        rw [lookup_dir_stat_irrel zeroStat sdd scs (y :: ys) (by simp)] at hx
        exact hx
    cases hdacs : (copyStage okEnv now srcRoot (.dir sdd scs) d0 zeroStats).1
      with
    | file fd => rw [hdacs] at hdac; simp [isDirB] at hdac
    | symlink sd2 b2 => rw [hdacs] at hdac; simp [isDirB] at hdac
    | other od => rw [hdacs] at hdac; simp [isDirB] at hdac
    | dir dd1 dcs1 =>
      have hwfdcs : wfL dcs1 = true := by rw [hdacs] at hwfac; exact hwfac
      have hr1 : r.1 = (pruneRemove okEnv (FsTree.dir dd1 dcs1)
          (sortCands (pruneList okEnv (.dir sdd scs) dstRoot.length []
            dcs1))).1 := by
        rw [hr, hdacs]
        rfl
      have hwfr : wfT r.1 = true := by
        rw [hr1]
        exact pruneRemove_wf okEnv
          (sortCands (pruneList okEnv (.dir sdd scs) dstRoot.length [] dcs1))
          (FsTree.dir dd1 dcs1) hwfdcs
      have hdirr : isDirB r.1 = true := by
        obtain ⟨e, he, ht, _⟩ := pruneRemove_from_input okEnv
          (sortCands (pruneList okEnv (.dir sdd scs) dstRoot.length [] dcs1))
          (FsTree.dir dd1 dcs1) hwfdcs []
          (pruneRemove okEnv (FsTree.dir dd1 dcs1)
            (sortCands (pruneList okEnv (.dir sdd scs) dstRoot.length []
              dcs1))).1
          (lookup_nil _)
        rw [lookup_nil, Option.some.injEq] at he
        rw [← he] at ht
        rw [hr1, ← isDirB_of_topOf ht]
        rfl
      refine ⟨hwfr, hdirr, ?_, ?_, ?_⟩
      · intro p e hp he hsym
        rw [hr1] at he
        exact afterPrune_no_extraneous (FsTree.dir sdd scs) dstRoot.length dd1
          dcs1 hwfdcs p e hp he hsym
      · intro p fd hlp
        have hpne : p ≠ [] := by
          intro he
          subst he
          rw [lookup_nil, Option.some.injEq] at hlp
          exact FsTree.noConfusion hlp
        have hsrcl : srcLook scs p = some (.file fd) := by
          cases p with
          | nil => exact absurd rfl hpne
          | cons y ys =>
            have hx := hlp
            rw [lookup_dir_stat_irrel sdd zeroStat scs (y :: ys) (by simp)]
              at hx
            exact hx
        have hest := copyList_establishes now srcRoot scs 0 [] d0 zeroStats
          hwl hmt0 p (.file fd) hsrcl hpne
        have hfg := hest.1 fd rfl
        rw [show (copyList okEnv now srcRoot 0 [] scs d0 zeroStats).1 =
          (copyStage okEnv now srcRoot (FsTree.dir sdd scs) d0 zeroStats).1
          from rfl, hdacs] at hfg
        rcases hfg with ⟨d2, hl2, hsc⟩ | ⟨q1, q2, heq2, hq2ne, e2, hle2, hnd2⟩
        · left
          obtain ⟨e', he', ht', hexact⟩ := afterPrune_preserve
            (FsTree.dir sdd scs) dstRoot.length dd1 dcs1 hwfdcs p (.file d2)
            hl2 (by rw [hlp]; rfl)
          refine ⟨d2, ?_, hsc⟩
          rw [hr1, he', hexact rfl]
        · right
          cases q1 with
          | nil =>
            rw [lookup_nil, Option.some.injEq] at hle2
            rw [← hle2] at hnd2
            simp [isDirB] at hnd2
          | cons z zs =>
            have hsome1 : (lookup (FsTree.dir sdd scs) (z :: zs)).isSome =
                true := by
              rw [heq2] at hlp
              exact lookup_prefix_isSome hlp
            obtain ⟨e', he', ht', hexact⟩ := afterPrune_preserve
              (FsTree.dir sdd scs) dstRoot.length dd1 dcs1 hwfdcs (z :: zs) e2
              hle2 hsome1
            refine ⟨z :: zs, q2, heq2, hq2ne, e2, ?_, hnd2⟩
            rw [hr1, he', hexact hnd2]
      · intro p dd2 dcs2 hpne hlp
        have hsrcl : srcLook scs p = some (.dir dd2 dcs2) := by
          cases p with
          | nil => exact absurd rfl hpne
          | cons y ys =>
            have hx := hlp
            rw [lookup_dir_stat_irrel sdd zeroStat scs (y :: ys) (by simp)]
              at hx
            exact hx
        have hest := copyList_establishes now srcRoot scs 0 [] d0 zeroStats
          hwl hmt0 p (.dir dd2 dcs2) hsrcl hpne
        have hdg := hest.2 dd2 dcs2 rfl
        rw [show (copyList okEnv now srcRoot 0 [] scs d0 zeroStats).1 =
          (copyStage okEnv now srcRoot (FsTree.dir sdd scs) d0 zeroStats).1
          from rfl, hdacs] at hdg
        rcases hdg with ⟨dd3, dcs3, hl2⟩ | ⟨q1, q2, heq2, e2, hle2, hnd2⟩
        · left
          obtain ⟨e', he', ht', _⟩ := afterPrune_preserve (FsTree.dir sdd scs)
            dstRoot.length dd1 dcs1 hwfdcs p (.dir dd3 dcs3) hl2
            (by rw [hlp]; rfl)
          cases e' with
          | dir dd4 dcs4 => exact ⟨dd4, dcs4, by rw [hr1, he']⟩
          | file fd4 => simp [topOf, kindOf] at ht'
          | symlink sd4 b4 => simp [topOf, kindOf] at ht'
          | other od4 => simp [topOf, kindOf] at ht'
        · right
          cases q1 with
          | nil =>
            rw [lookup_nil, Option.some.injEq] at hle2
            rw [← hle2] at hnd2
            simp [isDirB] at hnd2
          | cons z zs =>
            have hsome1 : (lookup (FsTree.dir sdd scs) (z :: zs)).isSome =
                true := by
              rw [heq2] at hlp
              exact lookup_prefix_isSome hlp
            obtain ⟨e', he', ht', hexact⟩ := afterPrune_preserve
              (FsTree.dir sdd scs) dstRoot.length dd1 dcs1 hwfdcs (z :: zs) e2
              hle2 hsome1
            refine ⟨z :: zs, q2, heq2, e2, ?_, hnd2⟩
            rw [hr1, he', hexact hnd2]

/-- Source tree of the C5 counterexample: a regular file whose mtime (400)
is ahead of the wall clock (300) of both runs. -/
def c5Src : FsTree := .dir zeroStat [("a", .file ⟨0,0,0,0,400,0,0,0,2⟩)]

/-- Result of the first C5 counterexample run. -/
def c5Run1 : FsTree × SyncStats :=
  pruneStage okEnv c5Src 1
    (copyStage okEnv (300, 0) ["s"] c5Src (FsTree.dir zeroStat [])
      zeroStats).1
    (copyStage okEnv (300, 0) ["s"] c5Src (FsTree.dir zeroStat [])
      zeroStats).2

/-- Counterexample to claim C5 as stated: copy_file does not preserve the
source mtime — the copied destination file carries the copy clock — so a
source file dated ahead of the clock stays strictly newer and is copied
again on the second run (files_copied = 1, not 0). -/
theorem C5_counterexample :
    synchronize okEnv (300, 0) ⟨true⟩ ["s"] ["d"] (some c5Src)
      (some (FsTree.dir zeroStat [])) false = .ok c5Run1 ∧
    (synchronize okEnv (300, 0) ⟨true⟩ ["s"] ["d"] (some c5Src)
        (some c5Run1.1) false).map
      (fun r => (r.2.files_copied, r.2.files_deleted)) = .ok (1, 0) :=
  ⟨rfl, rfl⟩

/-- Claim C5, amended: when every source file mtime is at or before the
first run's clock (lexicographically on seconds then nanoseconds), running
synchronize twice with remove_extraneous=true copies nothing and deletes
nothing on the second run, and leaves the destination tree exactly as the
first run left it; without that bound the code re-copies future-dated
files on every run, because copy_file stamps the destination with the copy
time rather than the source mtime. -/
theorem C5_idempotence_amended (now now2 : Nat × Nat)
    (srcRoot dstRoot : List String) (s d0 : FsTree)
    (r1 r2 : FsTree × SyncStats)
    (hwfs : wfT s = true) (hwfd : wfT d0 = true)
    (hs : isDirB s = true) (hd : isDirB d0 = true)
    (hmt : ∀ p fd, lookup s p = some (.file fd) →
      fd.mtime < now.1 ∨ (fd.mtime = now.1 ∧ fd.mtimeNsec ≤ now.2))
    (hok1 : synchronize okEnv now ⟨true⟩ srcRoot dstRoot (some s) (some d0)
      false = .ok r1)
    (hok2 : synchronize okEnv now2 ⟨true⟩ srcRoot dstRoot (some s)
      (some r1.1) false = .ok r2) :
    r2.2.files_copied = 0 ∧ r2.2.files_deleted = 0 ∧ r2.1 = r1.1 := by
  obtain ⟨hwf1, hdir1, hnoext, hfg, hdg⟩ := run_good now srcRoot dstRoot s d0
    r1 hwfs hwfd hs hd hmt hok1
  have hr2 : r2 = pruneStage okEnv s dstRoot.length
      (copyStage okEnv now2 srcRoot s r1.1 zeroStats).1
      (copyStage okEnv now2 srcRoot s r1.1 zeroStats).2 := by
    unfold synchronize synchronizeStages at hok2
    simp only [hs, hdir1, Bool.not_true, Bool.false_eq_true, if_false,
      if_true] at hok2
    injection hok2 with hok2b
    exact hok2b.symm
  cases s with
  | file sd => simp [isDirB] at hs
  | symlink sd b => simp [isDirB] at hs
  | other sd => simp [isDirB] at hs
  | dir sdd scs =>
    have hwl : wfL scs = true := hwfs
    have hfB : ∀ q fd, srcLook scs q = some (.file fd) →
        fileGood r1.1 q fd := by
      intro q fd hq
      have hqne : q ≠ [] := by
        intro he
        subst he
        rw [srcLook_nil_ne] at hq
        exact FsTree.noConfusion (Option.some.inj hq)
      refine hfg q fd ?_
      cases q with
      | nil => exact absurd rfl hqne
      | cons y ys =>
        have hx : lookup (FsTree.dir zeroStat scs) (y :: ys) =
            some (.file fd) := hq
        rw [lookup_dir_stat_irrel zeroStat sdd scs (y :: ys) (by simp)] at hx
        exact hx
    have hdB : ∀ q dd2 dcs2, srcLook scs q = some (.dir dd2 dcs2) →
        dirGood r1.1 q := by
      intro q dd2 dcs2 hq
      by_cases hqe : q = []
      · subst hqe
        cases hfe : r1.1 with
        | dir a b2 => exact Or.inl ⟨a, b2, lookup_nil _⟩
        | file fd2 => rw [hfe] at hdir1; simp [isDirB] at hdir1
        | symlink sd2 b2 => rw [hfe] at hdir1; simp [isDirB] at hdir1
        | other od2 => rw [hfe] at hdir1; simp [isDirB] at hdir1
      · refine hdg q dd2 dcs2 hqe ?_
        cases q with
        | nil => exact absurd rfl hqe
        | cons y ys =>
          have hx : lookup (FsTree.dir zeroStat scs) (y :: ys) =
              some (.dir dd2 dcs2) := hq
          rw [lookup_dir_stat_irrel zeroStat sdd scs (y :: ys) (by simp)]
            at hx
          exact hx
    obtain ⟨hid, hidle⟩ := copyList_good_id now2 srcRoot scs 0 [] r1.1
      zeroStats hwl hfB hdB
    obtain ⟨dd1, dcs1, hfin⟩ : ∃ dd1 dcs1, r1.1 = FsTree.dir dd1 dcs1 := by
      cases hfe : r1.1 with
      | dir a b2 => exact ⟨a, b2, rfl⟩
      | file fd2 => rw [hfe] at hdir1; simp [isDirB] at hdir1
      | symlink sd2 b2 => rw [hfe] at hdir1; simp [isDirB] at hdir1
      | other od2 => rw [hfe] at hdir1; simp [isDirB] at hdir1
    have hwl1 : wfL dcs1 = true := by rw [hfin] at hwf1; exact hwf1
    have hplnil : pruneList okEnv (FsTree.dir sdd scs) dstRoot.length []
        dcs1 = [] := by
      cases hpl : pruneList okEnv (FsTree.dir sdd scs) dstRoot.length []
          dcs1 with
      | nil => rfl
      | cons c l =>
        exfalso
        have hcmem : c ∈ pruneList okEnv (FsTree.dir sdd scs) dstRoot.length
            [] dcs1 := by
          rw [hpl]
          simp
        obtain ⟨hsrc, tail, hpath, hne, e, hlookE, hdirE, hsymE⟩ :=
          pruneList_sound okEnv (FsTree.dir sdd scs) dstRoot.length dcs1 []
            hwl1 c hcmem
        rw [List.nil_append] at hpath
        have hlr : lookup r1.1 c.path = some e := by
          rw [hfin, hpath]
          cases tail with
          | nil => exact absurd rfl hne
          | cons y ys =>
            have hx : lookup (FsTree.dir zeroStat dcs1) (y :: ys) =
                some e := by
              rw [← hpath] at hlookE
              rw [hpath] at hlookE
              exact hlookE
            rw [lookup_dir_stat_irrel zeroStat dd1 dcs1 (y :: ys) (by simp)]
              at hx
            exact hx
        have hps := hnoext c.path e (by rw [hpath]; exact hne) hlr hsymE
        rw [hps] at hsrc
        exact Bool.noConfusion hsrc
    have hC1 : (copyStage okEnv now2 srcRoot (FsTree.dir sdd scs) r1.1
        zeroStats).1 = FsTree.dir dd1 dcs1 := by
      rw [show (copyStage okEnv now2 srcRoot (FsTree.dir sdd scs) r1.1
        zeroStats).1 =
        (copyList okEnv now2 srcRoot 0 [] scs r1.1 zeroStats).1 from rfl]
      rw [hid, hfin]
    have hps2 : pruneStage okEnv (FsTree.dir sdd scs) dstRoot.length
        (copyStage okEnv now2 srcRoot (FsTree.dir sdd scs) r1.1 zeroStats).1
        (copyStage okEnv now2 srcRoot (FsTree.dir sdd scs) r1.1 zeroStats).2 =
        (FsTree.dir dd1 dcs1,
         { (copyStage okEnv now2 srcRoot (FsTree.dir sdd scs) r1.1
             zeroStats).2 with
           files_deleted := (copyStage okEnv now2 srcRoot (FsTree.dir sdd scs)
             r1.1 zeroStats).2.files_deleted + 0 }) := by
      rw [hC1]
      unfold pruneStage
      dsimp only
      rw [hplnil]
      rfl
    rw [hr2, hps2]
    refine ⟨?_, ?_, hfin.symm⟩
    · exact hidle.1
    · show (copyStage okEnv now2 srcRoot (FsTree.dir sdd scs) r1.1
        zeroStats).2.files_deleted + 0 = 0
      have h5 : (copyList okEnv now2 srcRoot 0 [] scs r1.1
          zeroStats).2.files_deleted = zeroStats.files_deleted :=
        hidle.2.2.2.2
      rw [show (copyStage okEnv now2 srcRoot (FsTree.dir sdd scs) r1.1
        zeroStats).2 = (copyList okEnv now2 srcRoot 0 [] scs r1.1
        zeroStats).2 from rfl]
      rw [h5]
      rfl

/-- Source tree of the C5 witness: a single file dated before the clock. -/
def c5wSrc : FsTree := .dir zeroStat [("a", .file ⟨0,0,0,0,100,0,0,0,2⟩)]

/-- Destination tree of the C5 witness: one extraneous file. -/
def c5wDst : FsTree := .dir zeroStat [("x", .file ⟨0,0,0,0,50,0,0,0,7⟩)]

/-- Result of the first C5 witness run. -/
def c5wRun1 : FsTree × SyncStats :=
  pruneStage okEnv c5wSrc 1
    (copyStage okEnv (300, 0) ["s"] c5wSrc c5wDst zeroStats).1
    (copyStage okEnv (300, 0) ["s"] c5wSrc c5wDst zeroStats).2

/-- Result of the second C5 witness run. -/
def c5wRun2 : FsTree × SyncStats :=
  pruneStage okEnv c5wSrc 1
    (copyStage okEnv (300, 0) ["s"] c5wSrc c5wRun1.1 zeroStats).1
    (copyStage okEnv (300, 0) ["s"] c5wSrc c5wRun1.1 zeroStats).2

/-- Witness for the amended C5 at concrete inputs: the second of two
back-to-back pruning runs copies nothing, deletes nothing and leaves the
destination tree unchanged. -/
theorem C5_idempotence_amended_witness :
    wfT c5wSrc = true ∧ wfT c5wDst = true ∧ isDirB c5wSrc = true ∧
    isDirB c5wDst = true ∧
    (∀ p fd, lookup c5wSrc p = some (.file fd) →
      fd.mtime < 300 ∨ (fd.mtime = 300 ∧ fd.mtimeNsec ≤ 0)) ∧
    synchronize okEnv (300, 0) ⟨true⟩ ["s"] ["d"] (some c5wSrc) (some c5wDst)
      false = .ok c5wRun1 ∧
    synchronize okEnv (300, 0) ⟨true⟩ ["s"] ["d"] (some c5wSrc)
      (some c5wRun1.1) false = .ok c5wRun2 ∧
    (c5wRun2.2.files_copied = 0 ∧ c5wRun2.2.files_deleted = 0 ∧
      c5wRun2.1 = c5wRun1.1) := by
  have hmtw : ∀ p fd, lookup c5wSrc p = some (.file fd) →
      fd.mtime < 300 ∨ (fd.mtime = 300 ∧ fd.mtimeNsec ≤ 0) := by
    intro p fd h
    cases p with
    | nil =>
      rw [lookup_nil, Option.some.injEq] at h
      simp [c5wSrc] at h
    | cons y ys =>
      by_cases hy : y = "a"
      · subst hy
        rw [lookup_cons_some ys (show childAt c5wSrc "a" =
            some (FsTree.file ⟨0,0,0,0,100,0,0,0,2⟩) from rfl)] at h
        cases ys with
        | nil =>
          rw [lookup_nil, Option.some.injEq] at h
          injection h with h2
          subst h2
          left
          decide
        | cons z zs => simp [lookup] at h
      · have hy2 : ¬ ("a" : String) = y := fun he => hy he.symm
        rw [lookup_cons_none ys (by
          show childAt c5wSrc y = none
          simp [c5wSrc, childAt, assoc, hy2])] at h
        exact Option.noConfusion h
  refine ⟨rfl, rfl, rfl, rfl, hmtw, rfl, rfl, ?_⟩
  exact C5_idempotence_amended (300, 0) (300, 0) ["s"] ["d"] c5wSrc c5wDst
    c5wRun1 c5wRun2 rfl rfl rfl rfl hmtw rfl rfl

end SimpleSync
